import Mathlib

/-!
# Script files of the game server: reader, writer, binary reader

A shallow embedding of `src/script.cc`.

* A file is the list of its bytes (`List Nat`, every byte in `0..255`); an open
  `FILE*` that is read is the list of the bytes not yet consumed, so `getc`
  takes the head (the empty list is `EOF`) and `ungetc` of the byte just read
  leaves the list where it was.
* `int` arithmetic on token values is 32-bit two's complement (`wrap32`).
* An exception is a result `thrown msg s`: the message and the object state
  the exception leaves behind.
* The array sizes of `script.hh` (`NARRAY(File)`, `NARRAY(String)`,
  `MAX_IDENT_LENGTH`) are parameters (`Limits`).
* The binary reader works on a `Stream` (the bytes of the file and a position)
  and on the disk, which `SaveFile` changes; file names are taken to fit the
  name buffers.
-/

namespace Script

/-! ## Bytes, text and machine integers -/

/-- The bytes of a text literal. -/
def bytes (s : String) : List Nat := s.toList.map Char.toNat

/-- Value of an `int` expression after 32-bit two's-complement wrap-around. -/
def wrap32 (v : Int) : Int := (v + 2147483648) % 4294967296 - 2147483648

/-- The conversion `(uint8)Number`. -/
def toUint8 (v : Int) : Nat := (v % 256).toNat

/-- Modelled from the spec: `isSpace` is declared outside src/ ("skip
whitespace"); taken as the whitespace of the C locale: blank, `\t`, `\n`,
`\v`, `\f`, `\r`. -/
def isSpace (c : Nat) : Bool := c = 32 || (9 ≤ c && c ≤ 13)

/-- Modelled from the spec: `isDigit` is declared outside src/ ("decimal");
the ten digits `0`..`9`, as the code's `next - 48` needs. -/
def isDigit (c : Nat) : Bool := 48 ≤ c && c ≤ 57

/-- Modelled from the spec: `isAlpha` is declared outside src/; the spec's
identifier grammar starts with `[A-Za-z]`. -/
def isAlpha (c : Nat) : Bool := (65 ≤ c && c ≤ 90) || (97 ≤ c && c ≤ 122)

/-- Modelled from the spec: `findLast` is declared outside src/; the index of
the last occurrence of `c` in `s`, if any (`findLast(s, 47)` finds the last
slash of a path). -/
def findLast (s : List Nat) (c : Nat) : Option Nat :=
  match s with
  | [] => none
  | x :: xs =>
    match findLast xs c with
    | some i => some (i + 1)
    | none => if x = c then some 0 else none

/-- A `char*` read as a C string: the bytes before the first NUL. -/
def cstr (buf : List Nat) : List Nat := buf.takeWhile (fun c => c ≠ 0)

/-- Modelled from the spec: `strLower` is declared outside src/ ("case-folded
on access"): in the C string held by the buffer every uppercase ASCII letter
becomes its lowercase counterpart; the bytes from the first NUL on stay. -/
def strLower (buf : List Nat) : List Nat :=
  (cstr buf).map (fun c => if 65 ≤ c ∧ c ≤ 90 then c + 32 else c) ++ buf.drop (cstr buf).length

/-- Decimal digits of `n`, most significant first, by peeling the last digit;
`fuel` bounds the number of digits. -/
def decimalFuel : Nat → Nat → List Nat
  | 0, n => [48 + n % 10]
  | fuel + 1, n => if n < 10 then [48 + n] else decimalFuel fuel (n / 10) ++ [48 + n % 10]

/-- The conversion `%u` of `snprintf`: the decimal digits of `n`. -/
def decimal (n : Nat) : List Nat := decimalFuel n n

/-- The conversion `%d` of `snprintf`. -/
def decimalInt (v : Int) : List Nat :=
  if v < 0 then 45 :: decimal v.natAbs else decimal v.natAbs

/-- What `snprintf(buf, size, ...)` leaves in `buf`: at most `size - 1` bytes. -/
def snprintf (size : Nat) (text : List Nat) : List Nat := text.take (size - 1)

/-! ## Data model -/

/-- Array sizes declared in `script.hh`. -/
structure Limits where
  /-- `NARRAY(this->File)`. -/
  NFILE : Nat
  /-- `NARRAY(this->String)`. -/
  NSTRING : Nat
  /-- `MAX_IDENT_LENGTH`. -/
  MAX_IDENT_LENGTH : Nat
deriving DecidableEq, Repr

/-- The files on disk: a path names its contents, or nothing. -/
abbrev FileSystem := List Nat → Option (List Nat)

/-- Result of a call that may throw: `done a s` returns `a` in state `s`,
`thrown msg s` is an exception carrying `msg` that leaves state `s`,
`abort` is a failed `ASSERT` or a library call on a null `FILE*` (the program
does not go on), and `stuck` is a loop bound that ran out. -/
inductive Result (α σ : Type) where
  | done : α → σ → Result α σ
  | thrown : List Nat → σ → Result α σ
  | abort : Result α σ
  | stuck : Result α σ
deriving DecidableEq, Repr

inductive TOKEN where
  | ENDOFFILE | IDENTIFIER | NUMBER | STRING | BYTES | COORDINATE | SPECIAL
deriving DecidableEq, Repr

/-- Token members of `TReadScriptFile`. `String` holds the bytes written to the
buffer since it was last zeroed; the rest of the array is zero (`Bytes` points
to the same array). -/
structure Payload where
  Token : TOKEN
  String : List Nat
  Number : Int
  CoordX : Int
  CoordY : Int
  CoordZ : Int
  Special : Nat
deriving DecidableEq, Repr

/-- One level of the include stack: `Filename[d]`, `File[d]`, `Line[d]`. -/
structure Frame where
  Filename : List Nat
  File : List Nat
  Line : Int
deriving DecidableEq, Repr

/-- The reader. `Frames` lists the open levels, innermost first, so
`RecursionDepth = Frames.length - 1` and no frame means depth `-1`. -/
structure TReadScriptFile extends Payload where
  Frames : List Frame
deriving DecidableEq, Repr

/-- The member `RecursionDepth`. -/
def TReadScriptFile.RecursionDepth (r : TReadScriptFile) : Int :=
  (r.Frames.length : Int) - 1

/-! ## Reader: open, close, error -/

/-- The path `open` stores in `Filename[Depth]`. -/
def resolvePath (Frames : List Frame) (FileName : List Nat) : List Nat :=
  match Frames with
  | [] => FileName
  | parent :: _ =>
    if FileName.head? ≠ some 47 then
      match findLast parent.Filename 47 with
      | some i => parent.Filename.take (i + 1) ++ FileName
      | none => FileName
    else FileName

def TReadScriptFile.open (L : Limits) (fs : FileSystem) (r : TReadScriptFile)
    (FileName : List Nat) : Result Unit TReadScriptFile :=
  let Depth := r.Frames.length
  if Depth + 1 ≥ L.NFILE then
    .thrown (bytes "Recursion depth too high") r
  else
    let path := resolvePath r.Frames FileName
    match fs path with
    | none => .thrown (bytes "Cannot open script-file") r
    | some content =>
      .done () { r with Frames := { Filename := path, File := content, Line := 1 } :: r.Frames }

def TReadScriptFile.close (r : TReadScriptFile) : TReadScriptFile :=
  { r with Frames := r.Frames.tail }

/-- The part of a path after its last slash. -/
def baseName (path : List Nat) : List Nat :=
  match findLast path 47 with
  | some i => path.drop (i + 1)
  | none => path

/-- The text `TReadScriptFile::error` formats, before it is cut to the buffer. -/
def errorText (Filename : List Nat) (Line : Int) (Text : List Nat) : List Nat :=
  bytes "error in script-file \"" ++ Filename ++ bytes "\", line " ++ decimalInt Line
    ++ bytes ": " ++ Text

/-- The function `TReadScriptFile::error`: formats into `ErrorString[100]`,
closes every open level and throws. -/
def TReadScriptFile.error {α : Type} (r : TReadScriptFile) (Text : List Nat) :
    Result α TReadScriptFile :=
  match r.Frames with
  | [] => .abort
  | f :: _ =>
    .thrown (snprintf 100 (errorText (baseName f.Filename) f.Line Text))
      { r with Frames := [] }

/-! ## Reader: the scanning loops of `nextToken`

Each loop of `nextToken` reads the current file only, so it is a function of
the unread bytes. `Scan` is what one round of the outer `while(true)` finds. -/

/-- The do-while at the top of the outer loop: reads up to and including the
first byte that is no whitespace, counting newlines. Returns that byte (`none`
at end of file), the bytes after it and the line. -/
def skipSpace : List Nat → Int → Option Nat × List Nat × Int
  | [], Line => (none, [], Line)
  | c :: rest, Line =>
    let Line1 := if c = 10 then Line + 1 else Line
    if isSpace c then skipSpace rest Line1 else (some c, rest, Line1)

/-- The COMMENT loop: reads through the next newline or to end of file. -/
def skipComment : List Nat → Int → List Nat × Int
  | [], Line => ([], Line)
  | next :: rest, Line =>
    if next = 10 then (rest, Line + 1) else skipComment rest Line

/-- What one round of the outer loop of `nextToken` finds in the current file. -/
inductive Scan where
  /-- End of file after whitespace. -/
  | eof (Line : Int)
  /-- A comment was skipped; the loop goes round again. -/
  | again (File : List Nat) (Line : Int)
  /-- An include directive was read; `p.String` holds the path. -/
  | incl (p : Payload) (File : List Nat) (Line : Int)
  /-- A token was completed (`return`). -/
  | token (p : Payload) (File : List Nat) (Line : Int)
  /-- A call of `this->error(Text)`. -/
  | fail (Text : List Nat) (p : Payload) (Line : Int)
deriving DecidableEq, Repr

/-- The INCLUDE loop after the opening quote: copies bytes to `String` up to
the closing quote. `NSTRING` is `NARRAY(this->String)`. -/
def scanInclude (NSTRING : Nat) (p : Payload) (Line : Int) : List Nat → Scan
  | [] => .fail (bytes "unexpected end of file") p Line
  | next :: rest =>
    if next = 34 then .incl p rest Line
    else if p.String.length ≥ NSTRING - 1 then .fail (bytes "string too long") p Line
    else scanInclude NSTRING { p with String := p.String ++ [next] } Line rest

/-- The STRING loop after the opening quote. `NSTRING` is
`NARRAY(this->String)`. -/
def scanString (NSTRING : Nat) (p : Payload) : List Nat → Int → Scan
  | [], Line => .fail (bytes "unexpected end of file") p Line
  | next :: rest, Line =>
    if next = 92 then
      match rest with
      | [] => .fail (bytes "unexpected end of file") p Line
      | esc :: rest1 =>
        let next1 := if esc = 110 then 10 else esc
        if p.String.length ≥ NSTRING - 1 then .fail (bytes "string too long") p Line
        else scanString NSTRING { p with String := p.String ++ [next1] } rest1 Line
    else if next = 10 then
      if p.String.length ≥ NSTRING - 1 then .fail (bytes "string too long") p (Line + 1)
      else scanString NSTRING { p with String := p.String ++ [next] } rest (Line + 1)
    else if next = 34 then .token { p with Token := .STRING } rest Line
    else
      if p.String.length ≥ NSTRING - 1 then .fail (bytes "string too long") p Line
      else scanString NSTRING { p with String := p.String ++ [next] } rest Line

/-- The three digit loops of the COORDINATE case: accumulate digits in `Coord`
until the byte `stop` (a comma, or the closing bracket). Returns the value and
the bytes after `stop`, or the text of the error. -/
def scanCoordDigits (stop : Nat) : List Nat → Int → Except (List Nat) (Int × List Nat)
  | [], _ => .error (bytes "unexpected end of file")
  | next :: rest, Coord =>
    if isDigit next then
      scanCoordDigits stop rest (wrap32 (wrap32 (Coord * 10) + ((next : Int) - 48)))
    else if next = stop then .ok (Coord, rest)
    else .error (bytes "syntax error")

/-- The Y and Z components: the first byte sets `Sign` and `Coord`, then the
digit loop runs. Returns `Sign * Coord` and the bytes after `stop`. -/
def scanCoordComponent (stop : Nat) : List Nat → Except (List Nat) (Int × List Nat)
  | [] => .error (bytes "syntax error")
  | next :: rest =>
    if isDigit next then
      match scanCoordDigits stop rest ((next : Int) - 48) with
      | .ok (Coord, rest1) => .ok (wrap32 (1 * Coord), rest1)
      | .error Text => .error Text
    else if next ≠ 45 then .error (bytes "syntax error")
    else
      match scanCoordDigits stop rest 0 with
      | .ok (Coord, rest1) => .ok (wrap32 (-1 * Coord), rest1)
      | .error Text => .error Text

/-- The COORDINATE case once the byte after the bracket is a digit or a minus
sign: `Sign` and `Coord` are those of the X component after that byte. -/
def scanCoordinate (p : Payload) (Line : Int) (Sign Coord : Int) (rest : List Nat) : Scan :=
  match scanCoordDigits 44 rest Coord with
  | .error Text => .fail Text p Line
  | .ok (CoordX, rest1) =>
    let p1 := { p with CoordX := wrap32 (Sign * CoordX) }
    match scanCoordComponent 44 rest1 with
    | .error Text => .fail Text p1 Line
    | .ok (CoordY, rest2) =>
      let p2 := { p1 with CoordY := CoordY }
      match scanCoordComponent 93 rest2 with
      | .error Text => .fail Text p2 Line
      | .ok (CoordZ, rest3) =>
        .token { p2 with CoordZ := CoordZ, Token := .COORDINATE } rest3 Line

/-- The identifier loop; `p.String` already holds the first letter.
`MAX_IDENT_LENGTH` is the constant of that name in `script.hh`. -/
def scanIdentifier (MAX_IDENT_LENGTH : Nat) (p : Payload) (Line : Int) : List Nat → Scan
  | [] => .token { p with Token := .IDENTIFIER } [] Line
  | next :: rest =>
    if isAlpha next || isDigit next || next = 95 then
      if p.String.length ≥ MAX_IDENT_LENGTH - 1 then
        .fail (bytes "identifier too long") p Line
      else scanIdentifier MAX_IDENT_LENGTH { p with String := p.String ++ [next] } Line rest
    else .token { p with Token := .IDENTIFIER } (next :: rest) Line

/-- The digit loop: a number, or a byte sequence once a minus sign follows a
number. `p.String` holds the bytes stored so far (`BytesLength` is its length),
`Number` is the local of that name, `NSTRING` is `NARRAY(this->String)`. -/
def scanNumber (NSTRING : Nat) (p : Payload) (Line : Int) : List Nat → Int → Scan
  | [], Number =>
    if p.String.length ≤ 0 then .token { p with Token := .NUMBER, Number := Number } [] Line
    else if p.String.length ≥ NSTRING then .fail (bytes "too many bytes") p Line
    else .token { p with Token := .BYTES, String := p.String ++ [toUint8 Number] } [] Line
  | next :: rest, Number =>
    if isDigit next then
      scanNumber NSTRING p Line rest (wrap32 (wrap32 (Number * 10) + ((next : Int) - 48)))
    else if next = 45 then
      if p.String.length ≥ NSTRING then .fail (bytes "too many bytes") p Line
      else
        let p1 := { p with String := p.String ++ [toUint8 Number] }
        match rest with
        | [] => .fail (bytes "unexpected end of file") p1 Line
        | next1 :: rest1 =>
          if !isDigit next1 then .fail (bytes "syntax error") p1 Line
          else scanNumber NSTRING p1 Line rest1 ((next1 : Int) - 48)
    else
      if p.String.length ≤ 0 then
        .token { p with Token := .NUMBER, Number := Number } (next :: rest) Line
      else if p.String.length ≥ NSTRING then .fail (bytes "too many bytes") p Line
      else
        .token { p with Token := .BYTES, String := p.String ++ [toUint8 Number] }
          (next :: rest) Line

/-- The `switch(c)` of `nextToken` for a byte `c` that is no whitespace,
followed by `rest`. -/
def scanSwitch (L : Limits) (p : Payload) (c : Nat) (rest : List Nat) (Line : Int) : Scan :=
  if c = 35 then
    let (File, Line1) := skipComment rest Line
    .again File Line1
  else if c = 64 then
    match rest with
    | [] => .fail (bytes "unexpected end of file") p Line
    | next :: rest1 =>
      if next ≠ 34 then .fail (bytes "syntax error") p Line
      else scanInclude L.NSTRING p Line rest1
  else if c = 34 then scanString L.NSTRING p rest Line
  else if c = 91 then
    match rest with
    | [] => .token { p with Token := .SPECIAL, Special := 91 } [] Line
    | next :: rest1 =>
      if isDigit next then scanCoordinate p Line 1 ((next : Int) - 48) rest1
      else if next ≠ 45 then .token { p with Token := .SPECIAL, Special := 91 } (next :: rest1) Line
      else scanCoordinate p Line (-1) 0 rest1
  else if c = 60 then
    match rest with
    | [] => .token { p with Special := 60, Token := .SPECIAL } [] Line
    | next :: rest1 =>
      if next = 61 then .token { p with Special := 76, Token := .SPECIAL } rest1 Line
      else if next = 62 then .token { p with Special := 78, Token := .SPECIAL } rest1 Line
      else .token { p with Special := 60, Token := .SPECIAL } (next :: rest1) Line
  else if c = 62 then
    match rest with
    | [] => .token { p with Special := 62, Token := .SPECIAL } [] Line
    | next :: rest1 =>
      if next = 61 then .token { p with Special := 71, Token := .SPECIAL } rest1 Line
      else .token { p with Special := 62, Token := .SPECIAL } (next :: rest1) Line
  else if c = 45 then
    match rest with
    | [] => .token { p with Special := 45, Token := .SPECIAL } [] Line
    | next :: rest1 =>
      if next = 62 then .token { p with Special := 73, Token := .SPECIAL } rest1 Line
      else .token { p with Special := 45, Token := .SPECIAL } (next :: rest1) Line
  else if isAlpha c then scanIdentifier L.MAX_IDENT_LENGTH { p with String := [c] } Line rest
  else if isDigit c then scanNumber L.NSTRING p Line rest ((c : Int) - 48)
  else .token { p with Token := .SPECIAL, Special := c } rest Line

/-- One round of the outer loop on the current file: whitespace, then the
switch. -/
def scan (L : Limits) (p : Payload) (File : List Nat) (Line : Int) : Scan :=
  match skipSpace File Line with
  | (none, _, Line1) => .eof Line1
  | (some c, rest, Line1) => scanSwitch L p c rest Line1

/-! ## Reader: nextToken and the accessors -/

/-- The current level with its file position and line replaced. -/
def Frame.advance (f : Frame) (File : List Nat) (Line : Int) : Frame :=
  { f with File := File, Line := Line }

/-- One round of the outer `while(true)` of `nextToken`. The result `done true`
is a `return`, `done false` is the loop going round again (`break` out of the
switch, or `continue`). The upper bound of the source's `ASSERT` on the depth
holds in every session built by `open` and is left out; the lower bound is the
first case. A failed scan calls `error` with the line reached (the file
position no longer matters: every file is closed). -/
def TReadScriptFile.nextTokenRound (L : Limits) (fs : FileSystem) (r : TReadScriptFile) :
    Result Bool TReadScriptFile :=
  match r.Frames with
  | [] => .abort
  | f :: below =>
    match scan L r.toPayload f.File f.Line with
    | .eof Line =>
      if below = [] then
        .done true { r with Token := .ENDOFFILE, Frames := [f.advance [] Line] }
      else
        .done false (TReadScriptFile.close { r with Frames := f.advance [] Line :: below })
    | .again File Line => .done false { r with Frames := f.advance File Line :: below }
    | .incl p File Line =>
      match TReadScriptFile.open L fs { toPayload := p, Frames := f.advance File Line :: below }
          (cstr p.String) with
      | .done _ r1 => .done false { r1 with String := [] }
      | .thrown msg r1 => .thrown msg r1
      | .abort => .abort
      | .stuck => .stuck
    | .token p File Line => .done true { toPayload := p, Frames := f.advance File Line :: below }
    | .fail Text p Line =>
      TReadScriptFile.error { toPayload := p, Frames := f.advance f.File Line :: below } Text

/-- The outer `while(true)` of `nextToken`, at most `fuel` rounds. -/
def TReadScriptFile.nextTokenLoop (L : Limits) (fs : FileSystem) :
    Nat → TReadScriptFile → Result Unit TReadScriptFile
  | 0, _ => .stuck
  | fuel + 1, r =>
    match TReadScriptFile.nextTokenRound L fs r with
    | .done true r1 => .done () r1
    | .done false r1 => TReadScriptFile.nextTokenLoop L fs fuel r1
    | .thrown msg r1 => .thrown msg r1
    | .abort => .abort
    | .stuck => .stuck

/-- The reset of the token members at the start of `nextToken` (`Token` itself
is not reset). -/
def Payload.reset (p : Payload) : Payload :=
  { p with String := [], Number := 0, CoordX := 0, CoordY := 0, CoordZ := 0, Special := 0 }

/-- The function `TReadScriptFile::nextToken`; `fuel` bounds the rounds of its
outer loop. -/
def TReadScriptFile.nextToken (L : Limits) (fs : FileSystem) (fuel : Nat)
    (r : TReadScriptFile) : Result Unit TReadScriptFile :=
  if r.Frames = [] then
    .done () { r with Token := .ENDOFFILE }
  else
    TReadScriptFile.nextTokenLoop L fs fuel { r with toPayload := r.toPayload.reset }

def TReadScriptFile.getIdentifier (r : TReadScriptFile) : Result (List Nat) TReadScriptFile :=
  if r.Token ≠ .IDENTIFIER then TReadScriptFile.error r (bytes "identifier expected")
  else .done (cstr (strLower r.String)) { r with String := strLower r.String }

def TReadScriptFile.getNumber (r : TReadScriptFile) : Result Int TReadScriptFile :=
  if r.Token ≠ .NUMBER then TReadScriptFile.error r (bytes "number expected")
  else .done r.Number r

def TReadScriptFile.getString (r : TReadScriptFile) : Result (List Nat) TReadScriptFile :=
  if r.Token ≠ .STRING then TReadScriptFile.error r (bytes "string expected")
  else .done (cstr r.String) r

/-- Returns `this->Bytes`: the whole array, the stored bytes followed by zeros. -/
def TReadScriptFile.getBytesequence (L : Limits) (r : TReadScriptFile) :
    Result (List Nat) TReadScriptFile :=
  if r.Token ≠ .BYTES then TReadScriptFile.error r (bytes "byte-sequence expected")
  else .done (r.String ++ List.replicate (L.NSTRING - r.String.length) 0) r

def TReadScriptFile.getCoordinate (r : TReadScriptFile) :
    Result (Int × Int × Int) TReadScriptFile :=
  if r.Token ≠ .COORDINATE then TReadScriptFile.error r (bytes "coordinates expected")
  else .done (r.CoordX, r.CoordY, r.CoordZ) r

def TReadScriptFile.getSpecial (r : TReadScriptFile) : Result Nat TReadScriptFile :=
  if r.Token ≠ .SPECIAL then TReadScriptFile.error r (bytes "special-char expected")
  else .done r.Special r

/-! ## Writer -/

/-- The writer. `File` is `none` for `NULL`, else the bytes written to the
open file so far. -/
structure TWriteScriptFile where
  File : Option (List Nat)
  Filename : List Nat
  Line : Int
deriving DecidableEq, Repr

/-- The call `putc(c, this->File)` on an open file. -/
def TWriteScriptFile.putc (w : TWriteScriptFile) (c : Nat) : TWriteScriptFile :=
  { w with File := w.File.map (fun out => out ++ [c]) }

/-- A run of `putc` calls. -/
def TWriteScriptFile.puts (w : TWriteScriptFile) (cs : List Nat) : TWriteScriptFile :=
  cs.foldl TWriteScriptFile.putc w

def TWriteScriptFile.close (w : TWriteScriptFile) : TWriteScriptFile :=
  { w with File := none }

def TWriteScriptFile.error (w : TWriteScriptFile) (Text : List Nat) :
    Result Unit TWriteScriptFile :=
  .thrown (snprintf 100 (errorText w.Filename w.Line Text)) { w with File := none }

def TWriteScriptFile.writeLn (w : TWriteScriptFile) : Result Unit TWriteScriptFile :=
  if w.File = none then .thrown (bytes "Cannot write linefeed") w
  else .done () (w.putc 10)

/-- `Text` is `none` for a `NULL` pointer, else the bytes it points to, read as
a C string. -/
def TWriteScriptFile.writeText (w : TWriteScriptFile) (Text : Option (List Nat)) :
    Result Unit TWriteScriptFile :=
  if w.File = none then .thrown (bytes "Cannot write text") w
  else
    match Text with
    | none => .thrown (bytes "Cannot write text") w
    | some t => .done () (w.puts (cstr t))

def TWriteScriptFile.writeNumber (w : TWriteScriptFile) (Number : Int) :
    Result Unit TWriteScriptFile :=
  if w.File = none then .thrown (bytes "Cannot write number") w
  else TWriteScriptFile.writeText w (some (snprintf 32 (decimalInt Number)))

/-- The bytes `writeString` puts for one byte of the text. -/
def escapeByte (c : Nat) : List Nat :=
  if c = 34 ∨ c = 92 then [92, c]
  else if c = 10 then [92, 110]
  else [c]

def TWriteScriptFile.writeString (w : TWriteScriptFile) (Text : Option (List Nat)) :
    Result Unit TWriteScriptFile :=
  if w.File = none then .thrown (bytes "Cannot write string") w
  else
    match Text with
    | none => .thrown (bytes "Cannot write string") w
    | some t =>
      .done () (((w.putc 34).puts ((cstr t).flatMap escapeByte)).putc 34)

/-- The arguments are `int`; `%u` prints them as unsigned 32-bit values. -/
def TWriteScriptFile.writeCoordinate (w : TWriteScriptFile) (x y z : Int) :
    Result Unit TWriteScriptFile :=
  if w.File = none then .thrown (bytes "Cannot write coordinate") w
  else if x < 0 ∨ y < 0 ∨ z < 0 then .thrown (bytes "Invalid coordinates") w
  else
    TWriteScriptFile.writeText w (some (snprintf 64
      ([91] ++ decimal (x % 4294967296).toNat ++ [44] ++ decimal (y % 4294967296).toNat
        ++ [44] ++ decimal (z % 4294967296).toNat ++ [93])))

/-- The loop of `writeBytesequence` from index `i` on, over the bytes not yet
written. -/
def TWriteScriptFile.writeBytesLoop (w : TWriteScriptFile) (i : Nat) :
    List Nat → Result Unit TWriteScriptFile
  | [] => .done () w
  | b :: bs =>
    let w1 := if i > 0 then w.putc 45 else w
    match TWriteScriptFile.writeText w1 (some (snprintf 32 (decimal b))) with
    | .done _ w2 => TWriteScriptFile.writeBytesLoop w2 (i + 1) bs
    | other => other

/-- `Sequence` is `none` for a `NULL` pointer, else the array it points to; the
loop reads its first `Length` bytes. -/
def TWriteScriptFile.writeBytesequence (w : TWriteScriptFile) (Sequence : Option (List Nat))
    (Length : Int) : Result Unit TWriteScriptFile :=
  if w.File = none then .thrown (bytes "Cannot write bytesequence") w
  else
    match Sequence with
    | none => .thrown (bytes "Cannot write bytesequence") w
    | some seq =>
      if Length ≤ 0 then .thrown (bytes "Cannot write bytesequence") w
      else TWriteScriptFile.writeBytesLoop w 0 (seq.take Length.toNat)

/-! ## Binary reader and the backup copy

A disk is a `FileSystem`: what each path holds. Creating a file on it always
succeeds, and a transfer fails only by reaching the end of the data. -/

/-- Modelled from the spec: the macro `KB` is declared outside src/ ("the 16 KB
copy chunk"): a count of kilobytes in bytes. -/
def KB (n : Nat) : Nat := n * 1024

/-- The copy loop of `SaveFile`: `Source` holds the bytes of the source not yet
read and `Dest` the bytes written so far. Each round reads up to `KB(16)`
bytes into `Buffer`, here `Source.take (KB 16)`, and the loop stops when
`fread` returns 0. -/
def copyLoop (Source Dest : List Nat) : List Nat :=
  if (Source.take (KB 16)).length = 0 then Dest
  else copyLoop (Source.drop (KB 16)) (Dest ++ Source.take (KB 16))
termination_by Source.length
decreasing_by
  rename_i h
  simp only [List.length_take, List.length_drop, KB] at h ⊢
  omega

/-- The function `SaveFile`: copies the file `Filename` to the path made of
`Filename` and `#`. Nothing happens for a null name or a missing source. -/
def SaveFile (disk : FileSystem) (Filename : Option (List Nat)) : FileSystem :=
  match Filename with
  | none => disk
  | some name =>
    let BackupFilename := name ++ [35]
    match disk name with
    | none => disk
    | some Source =>
      fun path => if path = BackupFilename then some (copyLoop Source []) else disk path

/-- A `FILE*` open for reading: the bytes of the file and the position. -/
structure Stream where
  data : List Nat
  pos : Nat
deriving DecidableEq, Repr

/-- The call `fread(Buffer, 1, Count, File)`: the bytes transferred and the
stream after the call. -/
def Stream.fread (s : Stream) (Count : Nat) : List Nat × Stream :=
  let got := (s.data.drop s.pos).take Count
  (got, { s with pos := s.pos + got.length })

/-- The members of `TReadBinaryFile`; `File = none` is the null handle. -/
structure TReadBinaryFile where
  File : Option Stream
  Filename : List Nat
  FileSize : Int
deriving DecidableEq, Repr

/-- The state the operations of the binary reader work on: the session and the
disk. -/
abbrev BinaryState := TReadBinaryFile × FileSystem

/-- The text `TReadBinaryFile::error` formats, before it is cut to the buffer. -/
def binaryErrorText (Filename Text : List Nat) : List Nat :=
  bytes "error in binary-file \"" ++ Filename ++ bytes "\": " ++ Text ++ bytes "."

/-- The function `TReadBinaryFile::error`: closes the handle if there is one,
formats into `ErrorString[100]` and throws. -/
def TReadBinaryFile.error {α : Type} (b : TReadBinaryFile) (disk : FileSystem)
    (Text : List Nat) : Result α BinaryState :=
  .thrown (snprintf 100 (binaryErrorText b.Filename Text)) ({ b with File := none }, disk)

def TReadBinaryFile.open (b : TReadBinaryFile) (disk : FileSystem) (FileName : List Nat) :
    Result Unit BinaryState :=
  match b.File with
  | some _ => TReadBinaryFile.error b disk (bytes "File still open")
  | none =>
    match disk FileName with
    | none => .thrown (snprintf 100 (bytes "Cannot open file " ++ FileName)) (b, disk)
    | some data =>
      .done () ({ File := some { data := data, pos := 0 }, Filename := FileName,
                  FileSize := -1 }, disk)

def TReadBinaryFile.seek (b : TReadBinaryFile) (disk : FileSystem) (Offset : Int) :
    Result Unit BinaryState :=
  match b.File with
  | none => TReadBinaryFile.error b disk (bytes "File not open for seek")
  | some s =>
    if Offset < 0 then TReadBinaryFile.error b disk (bytes "Negative offset for seek")
    else .done () ({ b with File := some { s with pos := Offset.toNat } }, disk)

/-- The function `TReadBinaryFile::readByte`. The handle is passed to `fread`
unchecked: on the null handle the call is undefined and the result is `abort`.
On a short read the handle is closed, `SaveFile` runs and `error` throws (the
position and the error code are only logged). -/
def TReadBinaryFile.readByte (b : TReadBinaryFile) (disk : FileSystem) :
    Result Nat BinaryState :=
  match b.File with
  | none => .abort
  | some s =>
    let (got, s1) := s.fread 1
    let Result : Int := wrap32 got.length
    if Result ≠ 1 then
      TReadBinaryFile.error { b with File := none } (SaveFile disk (some b.Filename))
        (bytes "Error while reading byte")
    else .done (got.headD 0) ({ b with File := some s1 }, disk)

/-- The function `TReadBinaryFile::readBytes`; returns the bytes stored in
`Buffer`. `Count` is an `int` and is converted to the 64-bit `size_t` of
`fread`. -/
def TReadBinaryFile.readBytes (b : TReadBinaryFile) (disk : FileSystem) (Count : Int) :
    Result (List Nat) BinaryState :=
  match b.File with
  | none => .abort
  | some s =>
    let (got, s1) := s.fread (Count % 18446744073709551616).toNat
    let Result : Int := wrap32 got.length
    if Result ≠ Count then
      TReadBinaryFile.error { b with File := none } (SaveFile disk (some b.Filename))
        (bytes "Error while reading bytes")
    else .done got ({ b with File := some s1 }, disk)

/-- A disk with the one file `a.bin`, of two bytes. -/
def sampleDisk : FileSystem := fun path => if path = bytes "a.bin" then some [7, 8] else none

/-- A binary reader on `a.bin` that has read both bytes. -/
def sampleBinary : TReadBinaryFile :=
  { File := some { data := [7, 8], pos := 2 }, Filename := bytes "a.bin", FileSize := -1 }

/-! ## Sample data -/

/-- Sample array sizes. -/
def sampleLimits : Limits := { NFILE := 8, NSTRING := 4000, MAX_IDENT_LENGTH := 30 }

/-- The empty disk. -/
def noFiles : FileSystem := fun _ => none

/-- A writer that has just opened its file. -/
def sampleWriter : TWriteScriptFile := { File := some [], Filename := bytes "out.dat", Line := 0 }

/-- A text with a quote, a backslash and a newline. -/
def sampleText : List Nat := bytes "a\"b\\c\nd"

/-- A reader at depth 0 about to read `File`. -/
def readerOn (File : List Nat) : TReadScriptFile :=
  { Token := .ENDOFFILE, String := [], Number := 0, CoordX := 0, CoordY := 0, CoordZ := 0,
    Special := 0, Frames := [{ Filename := bytes "dat/in.dat", File := File, Line := 1 }] }

/-! ## Values of digit runs -/

/-- Value of a run of digits read after the value `acc`, without wrap-around. -/
def digitsValue : Int → List Nat → Int
  | acc, [] => acc
  | acc, c :: ds => digitsValue (acc * 10 + ((c : Int) - 48)) ds

/-- Value the digit loops of `nextToken` hold after reading the digits `ds`
from the value `acc`. -/
def digitsWrapped : Int → List Nat → Int
  | acc, [] => acc
  | acc, c :: ds => digitsWrapped (wrap32 (wrap32 (acc * 10) + ((c : Int) - 48))) ds

/-- The text of a coordinate triple: an opening bracket, the three components
in decimal (a minus sign before the digits of a negative one) separated by
commas, a closing bracket. -/
def coordinateText (x y z : Int) : List Nat :=
  [91] ++ decimalInt x ++ [44] ++ decimalInt y ++ [44] ++ decimalInt z ++ [93]


/-- The text of a byte sequence: the values in decimal joined by minus signs. -/
def bytesText : List Nat → List Nat
  | [] => []
  | b :: bs => decimal b ++ bs.flatMap (fun v => 45 :: decimal v)


/-- A disk whose only file, `a`, includes itself. -/
def selfIncluding : FileSystem :=
  fun path => if path = bytes "a" then some (bytes "@\"a\"") else none

/-- A reader with no file open, as the constructor leaves it. -/
def closedReader : TReadScriptFile :=
  { Token := .ENDOFFILE, String := [], Number := 0, CoordX := 0, CoordY := 0, CoordZ := 0,
    Special := 0, Frames := [] }

/-- The texts `nextToken` passes to `error`. -/
def lexicalCauses : List (List Nat) :=
  [bytes "unexpected end of file", bytes "syntax error", bytes "string too long",
   bytes "identifier too long", bytes "too many bytes"]

/-- The session `r2` is reached from `r1` by rounds of the outer loop of
`nextToken` that go round again. -/
inductive Rounds (L : Limits) (fs : FileSystem) : TReadScriptFile → TReadScriptFile → Prop where
  | here (r : TReadScriptFile) : Rounds L fs r r
  | next (r r1 r2 : TReadScriptFile) :
      TReadScriptFile.nextTokenRound L fs r = .done false r1 → Rounds L fs r1 r2 →
      Rounds L fs r r2

/-- A reader in a file whose name is longer than the message buffer. -/
def longNameReader : TReadScriptFile :=
  { Token := .STRING, String := [], Number := 0, CoordX := 0, CoordY := 0, CoordZ := 0,
    Special := 0,
    Frames := [{ Filename := bytes "dat/" ++ List.replicate 100 97, File := [], Line := 3 }] }

/-- A disk with `dat/a` including `b`, which includes `sub/c`, whose third line
has a malformed coordinate. -/
def nestedFiles : FileSystem :=
  fun path =>
    if path = bytes "dat/a" then some (bytes "x @\"b\" y")
    else if path = bytes "dat/b" then some (bytes "\n@\"sub/c\"")
    else if path = bytes "dat/sub/c" then some (bytes "1\n\n[1,x")
    else none

/-- The session on `nestedFiles` after `dat/a` was opened and its first token
was read. -/
def nestedStart : TReadScriptFile :=
  { Token := .IDENTIFIER, String := bytes "x", Number := 0, CoordX := 0, CoordY := 0,
    CoordZ := 0, Special := 0,
    Frames := [{ Filename := bytes "dat/a", File := bytes " @\"b\" y", Line := 1 }] }

/-- The session on `nestedFiles` with three files open, the innermost being
`dat/sub/c` after its first token. -/
def nestedReader : TReadScriptFile :=
  { Token := .NUMBER, String := [], Number := 1, CoordX := 0, CoordY := 0, CoordZ := 0,
    Special := 0,
    Frames := [{ Filename := bytes "dat/sub/c", File := bytes "\n\n[1,x", Line := 1 },
               { Filename := bytes "dat/b", File := [], Line := 2 },
               { Filename := bytes "dat/a", File := bytes " y", Line := 1 }] }

/-- The result of a scan when the line the scan started on is `d` higher and
the token kind left by the previous call is `t`. -/
def Scan.moved (t : TOKEN) (d : Int) : Scan → Scan
  | .eof Line => .eof (Line + d)
  | .again File Line => .again File (Line + d)
  | .incl p File Line => .incl { p with Token := t } File (Line + d)
  | .token p File Line => .token p File (Line + d)
  | .fail Text p Line => .fail Text { p with Token := t } (Line + d)

/-- A scan that found a token or an include directive. -/
def Scan.good : Scan → Prop
  | .incl _ _ _ => True
  | .token _ _ _ => True
  | _ => False

/-- The bytes a scan left unread. -/
def Scan.rest : Scan → List Nat
  | .again File _ => File
  | .incl _ File _ => File
  | .token _ File _ => File
  | _ => []

/-- The result of a scan when the bytes `E` follow the file. -/
def Scan.extended (E : List Nat) : Scan → Scan
  | .again File Line => .again (File ++ E) Line
  | .incl p File Line => .incl p (File ++ E) Line
  | .token p File Line => .token p (File ++ E) Line
  | other => other

/-- Whether the scan of `File`, round by round with the token members as
`nextToken` resets them, comes within `fuel` rounds to a comment that runs to
the end of the file: a round that finds `#` after whitespace with no newline
among the bytes behind it, `(skipSpace File 0).2.1`. A round that finds a
token, an include directive or a comment that ends goes on behind it. -/
def endsInComment (L : Limits) : Nat → List Nat → Bool
  | 0, _ => false
  | fuel + 1, File =>
    match scan L closedReader.toPayload File 0 with
    | .again F _ =>
      if 10 ∈ (skipSpace File 0).2.1 then endsInComment L fuel F else true
    | .incl _ F _ => endsInComment L fuel F
    | .token _ F _ => endsInComment L fuel F
    | _ => false

/-- The file does not end inside a comment: however many rounds the scan runs,
it meets no comment that runs to the end of the file. -/
def EndsOutsideComment (L : Limits) (File : List Nat) : Prop :=
  ∀ fuel, endsInComment L fuel File = false

/-- A scan that found a token of a kind other than ENDOFFILE, or failed. -/
def Scan.final : Scan → Prop
  | .token p _ _ => p.Token ≠ .ENDOFFILE
  | .fail _ _ _ => True
  | _ => False

/-- A scan that read an include directive, changing `String` only, or failed. -/
def Scan.inclOf (p : Payload) : Scan → Prop
  | .incl q _ _ => q = { p with String := q.String }
  | .fail _ _ _ => True
  | _ => False

/-- Token members that agree except for the token kind left by the previous
call. -/
def PayloadRel (p q : Payload) : Prop := q = { p with Token := q.Token }

/-- The token members as `nextToken` resets them, whatever the token kind. -/
def ResetForm (p : Payload) : Prop := p = { p.reset with Token := p.Token }

/-- Two include stacks that read the same files at the same positions, line
numbers apart: the second has the levels `B` below the outermost level of the
first, and there the bytes `E` follow the file. The outermost level of the
first is the file `name`. -/
inductive FramesRel (L : Limits) (E : List Nat) (B : List Frame) (name : List Nat) :
    List Frame → List Frame → Prop where
  | bottom (g g' : Frame) : g.Filename = name → g'.Filename = name →
      g'.File = g.File ++ E → (E ≠ [] → EndsOutsideComment L g.File) →
      FramesRel L E B name [g] (g' :: B)
  | above (f f' : Frame) (F F' : List Frame) : f'.Filename = f.Filename → f'.File = f.File →
      FramesRel L E B name F F' → FramesRel L E B name (f :: F) (f' :: F')

/-- Two sessions in the middle of a `nextToken` call with related stacks. -/
def SessRel (L : Limits) (E : List Nat) (B : List Frame) (name : List Nat)
    (x y : TReadScriptFile) : Prop :=
  FramesRel L E B name x.Frames y.Frames ∧ PayloadRel x.toPayload y.toPayload ∧
    ResetForm x.toPayload

/-- The loop of `nextToken` started in `r` returns in state `r1`. -/
def Completes (L : Limits) (fs : FileSystem) (r r1 : TReadScriptFile) : Prop :=
  ∃ r0, Rounds L fs r r0 ∧ TReadScriptFile.nextTokenRound L fs r0 = .done true r1

/-- The session as the loop of the next `nextToken` call starts. -/
def TReadScriptFile.restart (r : TReadScriptFile) : TReadScriptFile :=
  { r with toPayload := r.toPayload.reset }

/-- Tokens read from the loop state `r`: the loop of the current call
returns a token, and so on through the following calls until ENDOFFILE. -/
inductive LexesLoop (L : Limits) (fs : FileSystem) :
    TReadScriptFile → List Payload → TReadScriptFile → Prop where
  | eof (r r1 : TReadScriptFile) : Completes L fs r r1 → r1.Token = .ENDOFFILE →
      LexesLoop L fs r [] r1
  | token (r r1 r2 : TReadScriptFile) (ts : List Payload) : Completes L fs r r1 →
      r1.Token ≠ .ENDOFFILE → LexesLoop L fs r1.restart ts r2 →
      LexesLoop L fs r (r1.toPayload :: ts) r2

/-- Repeated calls of `nextToken` on the session `r` return the tokens `ts`, none
of kind ENDOFFILE, and then ENDOFFILE, leaving the session `rEnd`; no call
throws. -/
inductive Lexes (L : Limits) (fs : FileSystem) :
    TReadScriptFile → List Payload → TReadScriptFile → Prop where
  | eof (r r1 : TReadScriptFile) :
      (∃ fuel, TReadScriptFile.nextToken L fs fuel r = .done () r1) →
      r1.Token = .ENDOFFILE → Lexes L fs r [] r1
  | token (r r1 r2 : TReadScriptFile) (ts : List Payload) :
      (∃ fuel, TReadScriptFile.nextToken L fs fuel r = .done () r1) →
      r1.Token ≠ .ENDOFFILE → Lexes L fs r1 ts r2 → Lexes L fs r (r1.toPayload :: ts) r2

/-- A session at depth 0: the file `name`, of which the bytes `File` are still
unread, at line `Line`, with token members `p`. -/
def session (p : Payload) (name File : List Nat) (Line : Int) : TReadScriptFile :=
  { toPayload := p, Frames := [Frame.mk name File Line] }

/-- The text of an include directive for the path `c`. -/
def includeText (c : List Nat) : List Nat := 64 :: 34 :: (c ++ [34])

/-- What the end of the run looks like: ENDOFFILE was returned and the one
level left is at the end of its file. -/
def AtEnd (r : TReadScriptFile) : Prop :=
  r.Token = .ENDOFFILE ∧ r.Frames.map Frame.File = [[]]

/-- A disk on which `dat/b` holds the number 7. -/
def includeFiles : FileSystem :=
  fun path => if path = bytes "dat/b" then some (bytes "7") else none

/-- An identifier token with the given text. -/
def identifierToken (text : List Nat) : Payload :=
  { Token := .IDENTIFIER, String := text, Number := 0, CoordX := 0, CoordY := 0, CoordZ := 0,
    Special := 0 }

/-- A string token with the given text. -/
def stringToken (text : List Nat) : Payload :=
  { Token := .STRING, String := text, Number := 0, CoordX := 0, CoordY := 0, CoordZ := 0,
    Special := 0 }

/-- A number token with the given value. -/
def numberToken (v : Int) : Payload :=
  { Token := .NUMBER, String := [], Number := v, CoordX := 0, CoordY := 0, CoordZ := 0,
    Special := 0 }

/-- The token members after ENDOFFILE was returned. -/
def endToken : Payload :=
  { Token := .ENDOFFILE, String := [], Number := 0, CoordX := 0, CoordY := 0, CoordZ := 0,
    Special := 0 }

/-- Array sizes with room for two levels only. -/
def tinyLimits : Limits := { NFILE := 3, NSTRING := 4000, MAX_IDENT_LENGTH := 30 }

/-- A disk on which `dat/b` includes `c`, and `dat/c` holds the number 7. -/
def chainFiles : FileSystem :=
  fun path =>
    if path = bytes "dat/b" then some (bytes "@\"c\"")
    else if path = bytes "dat/c" then some (bytes "7")
    else none

/-- The text `t` with every uppercase ASCII letter replaced by its lowercase
counterpart. -/
def lowerText (t : List Nat) : List Nat :=
  t.map (fun c => if 65 ≤ c ∧ c ≤ 90 then c + 32 else c)

/-- The bytes an identifier goes on with: letters, digits and the underscore. -/
def isIdentByte (c : Nat) : Bool := isAlpha c || isDigit c || decide (c = 95)

/-- A scan that did not end in a SPECIAL token. -/
def Scan.noSpecial : Scan → Prop
  | .token p _ _ => p.Token ≠ .SPECIAL
  | _ => True

/-- The two-character operators: first byte, second byte, payload. -/
def operatorTable : List (Nat × Nat × Nat) :=
  [(60, 61, 76), (60, 62, 78), (62, 61, 71), (45, 62, 73)]

/-- The payloads of the two-character operators. -/
def operatorPayloads : List Nat := operatorTable.map (fun t : Nat × Nat × Nat => t.2.2)

/-- A writer with no file open, as the constructor leaves it. -/
def closedWriter : TWriteScriptFile := { File := none, Filename := [], Line := 0 }

/-- The text of one coordinate component as the COORDINATE case reads it: a
digit or a minus sign, then digits, possibly none. -/
def isComponent : List Nat → Bool
  | [] => false
  | c :: ds => (isDigit c || decide (c = 45)) && ds.all isDigit

/-- The value the COORDINATE case gives such a component: `Sign * Coord`, where a
minus sign alone leaves `Coord` at 0. -/
def componentValue : List Nat → Int
  | [] => 0
  | c :: ds =>
    if isDigit c then wrap32 (1 * digitsWrapped ((c : Int) - 48) ds)
    else wrap32 (-1 * digitsWrapped 0 ds)

/-- The two errors of the COORDINATE case. -/
def coordinateCauses : List (List Nat) :=
  [bytes "syntax error", bytes "unexpected end of file"]

/-- The text of groups of digits joined by minus signs. -/
def groupsText : List (List Nat) → List Nat
  | [] => []
  | g :: gs => g ++ gs.flatMap (fun x => 45 :: x)

/-- The byte a group of digits stands for: its decimal value modulo 256. -/
def groupByte (g : List Nat) : Nat := (digitsValue 0 g % 256).toNat

/-- A disk whose only file has a backslash and the letter `n` in its name. -/
def rawPathFiles : FileSystem :=
  fun path => if path = bytes "dat/x\\ny" then some [] else none

/-- A result that is a return or an exception. -/
def Result.returns {α σ : Type} : Result α σ → Prop
  | .done _ _ => True
  | .thrown _ _ => True
  | _ => False

/-- The loop of `nextToken` started in `r` ends: after some number of rounds it
returns or throws. -/
def Ends (L : Limits) (fs : FileSystem) (r : TReadScriptFile) : Prop :=
  ∃ fuel, (TReadScriptFile.nextTokenLoop L fs fuel r).returns

/-- A disk whose only file has a newline in its name. -/
def newlineFiles : FileSystem :=
  fun path => if path = bytes "dat/x\ny" then some (bytes "k") else none

/-! ## Lemmas: writer output, scanning loops -/

theorem puts_eq (w : TWriteScriptFile) (cs : List Nat) :
    w.puts cs = { w with File := w.File.map (fun out => out ++ cs) } := by
  induction cs generalizing w with
  | nil => cases w; simp [TWriteScriptFile.puts]
  | cons c cs ih =>
    have := ih (w.putc c)
    simp only [TWriteScriptFile.puts, List.foldl_cons] at this ⊢
    rw [this]
    cases w with
    | mk F N Ln => cases F <;> simp [TWriteScriptFile.putc]

theorem cstr_of_no_nul (t : List Nat) (h : ∀ c ∈ t, c ≠ 0) : cstr t = t := by
  unfold cstr
  rw [List.takeWhile_eq_self_iff]
  intro c hc
  simpa using h c hc

/-- The STRING loop decodes what `writeString` puts for a text. -/
theorem scanString_escaped (L : Limits) (text : List Nat) :
    ∀ (p : Payload) (rest : List Nat) (Line : Int),
      p.String.length + text.length ≤ L.NSTRING - 1 →
      scanString L.NSTRING p (text.flatMap escapeByte ++ 34 :: rest) Line
        = .token { p with String := p.String ++ text, Token := .STRING } rest Line := by
  induction text with
  | nil =>
    intro p rest Line _
    rw [scanString.eq_def]
    simp
  | cons c text ih =>
    intro p rest Line hlen
    have hlt : ¬ (p.String.length ≥ L.NSTRING - 1) := by
      simp only [List.length_cons] at hlen; omega
    have hnext : ({ p with String := p.String ++ [c] } : Payload).String.length + text.length
        ≤ L.NSTRING - 1 := by
      simp only [List.length_append, List.length_cons, List.length_nil] at hlen ⊢; omega
    have step := ih { p with String := p.String ++ [c] } rest Line hnext
    simp only [List.append_assoc, List.singleton_append] at step
    rw [List.flatMap_cons, scanString.eq_def]
    by_cases h1 : c = 34 ∨ c = 92
    · rcases h1 with h | h
      · subst h
        simp [escapeByte, hlt, step]
      · subst h
        simp [escapeByte, hlt, step]
    · have h34 : c ≠ 34 := fun h => h1 (Or.inl h)
      have h92 : c ≠ 92 := fun h => h1 (Or.inr h)
      by_cases h10 : c = 10
      · subst h10
        simp [escapeByte, hlt, step]
      · simp [escapeByte, hlt, step, h34, h92, h10]


theorem skipSpace_nonspace (c : Nat) (rest : List Nat) (Line : Int)
    (hs : isSpace c = false) (hn : c ≠ 10) :
    skipSpace (c :: rest) Line = (some c, rest, Line) := by
  simp [skipSpace, hs, hn]

/-- One round of the outer loop that completes a token returns it. -/
theorem nextToken_of_scan_token (L : Limits) (fs : FileSystem) (fuel : Nat)
    (r : TReadScriptFile) (f : Frame) (below : List Frame) (p : Payload)
    (File : List Nat) (Line : Int) (hr : r.Frames = f :: below)
    (hscan : scan L r.toPayload.reset f.File f.Line = .token p File Line) :
    TReadScriptFile.nextToken L fs (fuel + 1) r
      = .done () { toPayload := p, Frames := f.advance File Line :: below } := by
  unfold TReadScriptFile.nextToken
  simp only [hr, reduceCtorEq, ↓reduceIte]
  unfold TReadScriptFile.nextTokenLoop TReadScriptFile.nextTokenRound
  simp only [hscan]

theorem nextToken_of_scan_eof (L : Limits) (fs : FileSystem) (fuel : Nat)
    (r : TReadScriptFile) (f : Frame) (Line : Int) (hr : r.Frames = [f])
    (hscan : scan L r.toPayload.reset f.File f.Line = .eof Line) :
    TReadScriptFile.nextToken L fs (fuel + 1) r
      = .done () { toPayload := { r.toPayload.reset with Token := .ENDOFFILE },
                   Frames := [f.advance [] Line] } := by
  unfold TReadScriptFile.nextToken
  simp only [hr, reduceCtorEq, ↓reduceIte]
  unfold TReadScriptFile.nextTokenLoop TReadScriptFile.nextTokenRound
  simp only [hscan, ↓reduceIte]

theorem scan_nil (L : Limits) (p : Payload) (Line : Int) : scan L p [] Line = .eof Line := by
  simp [scan, skipSpace]

theorem writeString_done (w : TWriteScriptFile) (text : List Nat)
    (hw : w.File = some []) (hnul : ∀ c ∈ text, c ≠ 0) :
    w.writeString (some text)
      = .done () { w with File := some (34 :: (text.flatMap escapeByte ++ [34])) } := by
  simp [TWriteScriptFile.writeString, hw, cstr_of_no_nul text hnul, puts_eq,
    TWriteScriptFile.putc]

/-- C1. String round trip: for a text without NUL bytes of length at most
`NSTRING - 1`, `writeString` on a freshly opened file returns normally, and a
reader at depth 0 on the bytes it wrote gets, from one `nextToken`, a STRING
token whose `getString` is the text, with the whole file consumed; the next
`nextToken` reports the end of the file. -/
theorem writeString_nextToken_roundtrip (L : Limits) (fs : FileSystem)
    (w : TWriteScriptFile) (text : List Nat) (r : TReadScriptFile) (f : Frame) (fuel : Nat)
    (hw : w.File = some [])
    (hnul : ∀ c ∈ text, c ≠ 0)
    (hlen : text.length ≤ L.NSTRING - 1)
    (hr : r.Frames = [f])
    (hf : ∀ w1, w.writeString (some text) = .done () w1 → w1.File = some f.File) :
    (∃ w1, w.writeString (some text) = .done () w1) ∧
      ∃ r1 r2, TReadScriptFile.nextToken L fs (fuel + 1) r = .done () r1 ∧
        r1.Token = .STRING ∧ r1.getString = .done text r1 ∧
        r1.Frames = [{ f with File := [] }] ∧
        TReadScriptFile.nextToken L fs (fuel + 1) r1 = .done () r2 ∧
        r2.Token = .ENDOFFILE := by
  have hdone := writeString_done w text hw hnul
  have hfile : f.File = 34 :: (text.flatMap escapeByte ++ [34]) := by
    have := hf _ hdone
    simpa using this.symm
  refine ⟨⟨_, hdone⟩, ?_⟩
  have hscan : scan L r.toPayload.reset f.File f.Line
      = .token { r.toPayload.reset with String := text, Token := .STRING } [] f.Line := by
    rw [hfile]
    simp only [scan, skipSpace_nonspace 34 _ f.Line (by decide) (by decide)]
    have := scanString_escaped L text r.toPayload.reset [] f.Line
      (by simpa [Payload.reset] using hlen)
    simp only [scanSwitch]
    simpa [Payload.reset] using this
  refine ⟨_, _, nextToken_of_scan_token L fs fuel r f [] _ _ _ hr hscan, rfl, ?_, ?_,
    nextToken_of_scan_eof L fs fuel _ _ f.Line rfl (by simp [Frame.advance, scan_nil]), ?_⟩
  · simp [TReadScriptFile.getString, cstr_of_no_nul text hnul]
  · simp [Frame.advance]
  · rfl

theorem writeString_nextToken_roundtrip_witness :
    sampleWriter.File = some [] ∧ (∀ c ∈ sampleText, c ≠ 0) ∧
    sampleText.length ≤ sampleLimits.NSTRING - 1 ∧
    (∃ w1, sampleWriter.writeString (some sampleText) = .done () w1) ∧
      ∃ r1 r2, TReadScriptFile.nextToken sampleLimits noFiles 1
          (readerOn (bytes "\"a\\\"b\\\\c\\nd\"")) = .done () r1 ∧
        r1.Token = .STRING ∧ r1.getString = .done sampleText r1 ∧
        r1.Frames = [{ Filename := bytes "dat/in.dat", File := [], Line := 1 }] ∧
        TReadScriptFile.nextToken sampleLimits noFiles 1 r1 = .done () r2 ∧
        r2.Token = .ENDOFFILE :=
  ⟨by decide, by decide, by decide,
    writeString_nextToken_roundtrip sampleLimits noFiles sampleWriter sampleText
      (readerOn (bytes "\"a\\\"b\\\\c\\nd\"")) _ 0 (by decide) (by decide) (by decide) rfl
      (by intro w1 h; cases h; decide)⟩


/-! ## Lemmas: decimal text and the digit loops -/


theorem digitsValue_snoc (ds : List Nat) (d : Nat) : ∀ (acc : Int),
    digitsValue acc (ds ++ [d]) = digitsValue acc ds * 10 + ((d : Int) - 48) := by
  induction ds with
  | nil => intro acc; simp [digitsValue]
  | cons c ds ih => intro acc; simp [digitsValue, ih]

theorem wrap32_of_range (v : Int) (h0 : -2147483648 ≤ v) (h1 : v < 2147483648) :
    wrap32 v = v := by
  unfold wrap32
  omega

theorem isDigit_iff (c : Nat) : isDigit c = true ↔ 48 ≤ c ∧ c ≤ 57 := by
  simp [isDigit]

theorem digitsValue_ge (ds : List Nat) : ∀ (acc : Int), 0 ≤ acc →
    (∀ c ∈ ds, isDigit c = true) → acc ≤ digitsValue acc ds := by
  induction ds with
  | nil => intro acc _ _; simp [digitsValue]
  | cons d ds ih =>
    intro acc h0 hd
    have hdig := (isDigit_iff d).1 (hd d (by simp))
    have := ih (acc * 10 + ((d : Int) - 48)) (by omega) (fun c hc => hd c (by simp [hc]))
    simp only [digitsValue] at this ⊢
    omega

theorem digitsWrapped_eq (ds : List Nat) : ∀ (acc : Int), 0 ≤ acc →
    (∀ c ∈ ds, isDigit c = true) → digitsValue acc ds < 2147483648 →
    digitsWrapped acc ds = digitsValue acc ds := by
  induction ds with
  | nil => intro acc _ _ _; simp [digitsValue, digitsWrapped]
  | cons d ds ih =>
    intro acc h0 hd hlt
    have hdig := (isDigit_iff d).1 (hd d (by simp))
    have hd' : ∀ c ∈ ds, isDigit c = true := fun c hc => hd c (by simp [hc])
    have hge := digitsValue_ge ds (acc * 10 + ((d : Int) - 48)) (by omega) hd'
    simp only [digitsValue] at hlt hge
    have hstep : wrap32 (wrap32 (acc * 10) + ((d : Int) - 48)) = acc * 10 + ((d : Int) - 48) := by
      rw [wrap32_of_range (acc * 10) (by omega) (by omega)]
      exact wrap32_of_range _ (by omega) (by omega)
    have := ih (acc * 10 + ((d : Int) - 48)) (by omega) hd' hlt
    simp only [digitsValue, digitsWrapped, hstep] at this ⊢
    exact this

theorem decimalFuel_spec : ∀ (fuel n : Nat), n < 10 ^ (fuel + 1) →
    (∀ c ∈ decimalFuel fuel n, isDigit c = true) ∧ digitsValue 0 (decimalFuel fuel n) = n := by
  intro fuel
  induction fuel with
  | zero =>
    intro n hn
    simp only [zero_add, pow_one] at hn
    simp [decimalFuel, digitsValue, isDigit, Nat.mod_eq_of_lt hn]
    omega
  | succ fuel ih =>
    intro n hn
    unfold decimalFuel
    by_cases h : n < 10
    · simp [h, digitsValue, isDigit]
      omega
    · have hdiv : n / 10 < 10 ^ (fuel + 1) := by
        rw [Nat.div_lt_iff_lt_mul (by decide)]
        calc n < 10 ^ (fuel + 1 + 1) := hn
          _ = 10 ^ (fuel + 1) * 10 := by ring
      obtain ⟨h1, h2⟩ := ih (n / 10) hdiv
      simp only [h, ↓reduceIte]
      constructor
      · intro c hc
        rcases List.mem_append.1 hc with hc | hc
        · exact h1 c hc
        · simp only [List.mem_singleton] at hc
          subst hc
          simp [isDigit]
          omega
      · rw [digitsValue_snoc, h2]
        push_cast
        omega

theorem decimal_spec (n : Nat) :
    (∀ c ∈ decimal n, isDigit c = true) ∧ digitsValue 0 (decimal n) = n :=
  decimalFuel_spec n n (Nat.lt_of_lt_of_le (Nat.lt_pow_self (by decide) n)
    (Nat.pow_le_pow_right (by decide) (Nat.le_succ n)))

theorem decimalFuel_length : ∀ (fuel n k : Nat), 0 < k → n < 10 ^ k →
    (decimalFuel fuel n).length ≤ k := by
  intro fuel
  induction fuel with
  | zero => intro n k hk _; simp [decimalFuel]; omega
  | succ fuel ih =>
    intro n k hk hn
    unfold decimalFuel
    by_cases h : n < 10
    · simp [h]; omega
    · simp only [h, ↓reduceIte, List.length_append, List.length_cons, List.length_nil]
      obtain ⟨j, rfl⟩ : ∃ j, k = j + 1 := ⟨k - 1, by omega⟩
      have hj : 0 < j := by
        rcases Nat.eq_zero_or_pos j with h0 | h0
        · subst h0; simp at hn; omega
        · exact h0
      have hdiv : n / 10 < 10 ^ j := by
        rw [Nat.div_lt_iff_lt_mul (by decide)]
        calc n < 10 ^ (j + 1) := hn
          _ = 10 ^ j * 10 := by ring
      have := ih (n / 10) j hj hdiv
      omega

theorem decimal_length (n : Nat) (h : n < 4294967296) : (decimal n).length ≤ 10 :=
  decimalFuel_length n n 10 (by decide) (by omega)

theorem decimalFuel_ne_nil (fuel n : Nat) : decimalFuel fuel n ≠ [] := by
  cases fuel with
  | zero => simp [decimalFuel]
  | succ fuel =>
    unfold decimalFuel
    split <;> simp


theorem scanNumber_cons_digit (L : Limits) (p : Payload) (Line : Int) (d : Nat)
    (rest : List Nat) (acc : Int) (hd : isDigit d = true) :
    scanNumber L.NSTRING p Line (d :: rest) acc
      = scanNumber L.NSTRING p Line rest (wrap32 (wrap32 (acc * 10) + ((d : Int) - 48))) := by
  cases rest <;> simp [scanNumber, hd]

/-- The digit loop stops at a byte that is neither a digit nor a minus sign. -/
theorem scanNumber_stop (L : Limits) (p : Payload) (Line : Int) (tail : List Nat) (acc : Int)
    (htail : ∀ c t, tail = c :: t → isDigit c = false ∧ c ≠ 45) :
    scanNumber L.NSTRING p Line tail acc =
      if p.String.length ≤ 0 then .token { p with Token := .NUMBER, Number := acc } tail Line
      else if p.String.length ≥ L.NSTRING then .fail (bytes "too many bytes") p Line
      else .token { p with Token := .BYTES, String := p.String ++ [toUint8 acc] } tail Line := by
  cases tail with
  | nil => simp [scanNumber]
  | cons c t =>
    obtain ⟨h1, h2⟩ := htail c t rfl
    cases t <;> simp [scanNumber, h1, h2]

theorem scanNumber_digits (L : Limits) (p : Payload) (Line : Int) (ds : List Nat) :
    ∀ (tail : List Nat) (acc : Int), (∀ c ∈ ds, isDigit c = true) →
      scanNumber L.NSTRING p Line (ds ++ tail) acc = scanNumber L.NSTRING p Line tail (digitsWrapped acc ds) := by
  induction ds with
  | nil => intro tail acc _; simp [digitsWrapped]
  | cons d ds ih =>
    intro tail acc hd
    have hdig : isDigit d = true := hd d (by simp)
    rw [List.cons_append, scanNumber_cons_digit L p Line d _ acc hdig]
    simp only [digitsWrapped]
    exact ih tail _ (fun c hc => hd c (by simp [hc]))

theorem scan_digit (L : Limits) (p : Payload) (c : Nat) (rest : List Nat) (Line : Int)
    (hc : isDigit c = true) :
    scan L p (c :: rest) Line = scanNumber L.NSTRING p Line rest ((c : Int) - 48) := by
  have h := (isDigit_iff c).1 hc
  have hs : isSpace c = false := by
    simp only [isSpace, Bool.or_eq_false_iff, decide_eq_false_iff_not, Bool.and_eq_false_iff]
    omega
  have ha : isAlpha c = false := by
    simp only [isAlpha, Bool.or_eq_false_iff, decide_eq_false_iff_not, Bool.and_eq_false_iff]
    omega
  simp only [scan, skipSpace_nonspace c rest Line hs (by omega), scanSwitch]
  rw [if_neg (by omega), if_neg (by omega), if_neg (by omega), if_neg (by omega),
    if_neg (by omega), if_neg (by omega), if_neg (by omega)]
  simp [ha, hc]

theorem decimal_cons (n : Nat) : ∃ c ds, decimal n = c :: ds := by
  cases h : decimal n with
  | nil => exact absurd h (decimalFuel_ne_nil n n)
  | cons c ds => exact ⟨c, ds, rfl⟩

theorem decimal_no_nul (n : Nat) : ∀ c ∈ decimal n, c ≠ 0 := by
  intro c hc h0
  have := (isDigit_iff c).1 ((decimal_spec n).1 c hc)
  omega

theorem writeText_done (w : TWriteScriptFile) (t out : List Nat) (hw : w.File = some out)
    (hnul : ∀ c ∈ t, c ≠ 0) :
    w.writeText (some t) = .done () { w with File := some (out ++ t) } := by
  simp [TWriteScriptFile.writeText, hw, cstr_of_no_nul t hnul, puts_eq]

theorem writeNumber_done (w : TWriteScriptFile) (n : Int) (hw : w.File = some [])
    (h0 : 0 ≤ n) (h1 : n < 2147483648) :
    w.writeNumber n = .done () { w with File := some (decimal n.toNat) } := by
  have hlen := decimal_length n.toNat (by omega)
  have hd : decimalInt n = decimal n.toNat := by
    simp only [decimalInt, if_neg (not_lt.2 h0)]
    congr 1
    omega
  simp only [TWriteScriptFile.writeNumber, hw, reduceCtorEq, ↓reduceIte, hd, snprintf]
  rw [List.take_of_length_le (by omega)]
  simpa using writeText_done w (decimal n.toNat) [] hw (decimal_no_nul _)

/-- The digit loop on the decimal text of `n` alone: a NUMBER token. -/
theorem scan_decimal (L : Limits) (p : Payload) (Line : Int) (n : Nat)
    (hp : p.String = []) (hn : n < 2147483648) (tail : List Nat)
    (htail : ∀ c t, tail = c :: t → isDigit c = false ∧ c ≠ 45) :
    scan L p (decimal n ++ tail) Line
      = .token { p with Token := .NUMBER, Number := n } tail Line := by
  obtain ⟨c, ds, hcd⟩ := decimal_cons n
  obtain ⟨hdig, hval⟩ := decimal_spec n
  rw [hcd] at hdig hval
  have hc : isDigit c = true := hdig c (by simp)
  have hds : ∀ x ∈ ds, isDigit x = true := fun x hx => hdig x (by simp [hx])
  have hb := (isDigit_iff c).1 hc
  have hv : digitsValue ((c : Int) - 48) ds = n := by
    simpa [digitsValue] using hval
  have hw : digitsWrapped ((c : Int) - 48) ds = n := by
    rw [digitsWrapped_eq ds _ (by omega) hds (by rw [hv]; omega), hv]
  rw [hcd, List.cons_append, scan_digit L p c _ Line hc, scanNumber_digits L p Line ds tail _ hds, hw]
  rw [scanNumber_stop L p Line tail _ htail]
  simp [hp]

/-- C2 (amended). Number round trip for `0 ≤ n ≤ 2147483647`: `writeNumber`
on a freshly opened file returns normally, and a reader at depth 0 on the
bytes it wrote gets, from one `nextToken`, a NUMBER token whose `getNumber` is
`n`, with the whole file consumed; the next `nextToken` reports the end of the
file. -/
theorem writeNumber_nextToken_roundtrip (L : Limits) (fs : FileSystem)
    (w : TWriteScriptFile) (n : Int) (r : TReadScriptFile) (f : Frame) (fuel : Nat)
    (hw : w.File = some [])
    (h0 : 0 ≤ n) (h1 : n < 2147483648)
    (hr : r.Frames = [f])
    (hf : ∀ w1, w.writeNumber n = .done () w1 → w1.File = some f.File) :
    (∃ w1, w.writeNumber n = .done () w1) ∧
      ∃ r1 r2, TReadScriptFile.nextToken L fs (fuel + 1) r = .done () r1 ∧
        r1.Token = .NUMBER ∧ r1.getNumber = .done n r1 ∧
        r1.Frames = [{ f with File := [] }] ∧
        TReadScriptFile.nextToken L fs (fuel + 1) r1 = .done () r2 ∧
        r2.Token = .ENDOFFILE := by
  have hdone := writeNumber_done w n hw h0 h1
  have hfile : f.File = decimal n.toNat := by
    have := hf _ hdone
    simpa using this.symm
  refine ⟨⟨_, hdone⟩, ?_⟩
  have hscan : scan L r.toPayload.reset f.File f.Line
      = .token { r.toPayload.reset with Token := .NUMBER, Number := n } [] f.Line := by
    have := scan_decimal L r.toPayload.reset f.Line n.toNat rfl (by omega) []
      (by intro c t h; cases h)
    rw [hfile]
    simpa [Int.toNat_of_nonneg h0] using this
  refine ⟨_, _, nextToken_of_scan_token L fs fuel r f [] _ _ _ hr hscan, rfl, ?_, ?_,
    nextToken_of_scan_eof L fs fuel _ _ f.Line rfl (by simp [Frame.advance, scan_nil]), ?_⟩
  · simp [TReadScriptFile.getNumber]
  · simp [Frame.advance]
  · rfl

theorem writeNumber_nextToken_roundtrip_witness :
    sampleWriter.File = some [] ∧ (0 : Int) ≤ 1230 ∧ (1230 : Int) < 2147483648 ∧
    (∃ w1, sampleWriter.writeNumber 1230 = .done () w1) ∧
      ∃ r1 r2, TReadScriptFile.nextToken sampleLimits noFiles 1 (readerOn (bytes "1230"))
          = .done () r1 ∧
        r1.Token = .NUMBER ∧ r1.getNumber = .done 1230 r1 ∧
        r1.Frames = [{ Filename := bytes "dat/in.dat", File := [], Line := 1 }] ∧
        TReadScriptFile.nextToken sampleLimits noFiles 1 r1 = .done () r2 ∧
        r2.Token = .ENDOFFILE :=
  ⟨by decide, by decide, by decide,
    writeNumber_nextToken_roundtrip sampleLimits noFiles sampleWriter 1230
      (readerOn (bytes "1230")) _ 0 (by decide) (by decide) (by decide) rfl
      (by intro w1 h; cases h; decide)⟩

/-- C2 (counterexample). `writeNumber(-5)` writes a minus sign and `5`; the
first `nextToken` on that text yields the SPECIAL token for the minus sign and
leaves the digit unread: no NUMBER token with value `-5`. -/
theorem writeNumber_negative_counterexample :
    sampleWriter.writeNumber (-5) = .done () { sampleWriter with File := some (bytes "-5") } ∧
    TReadScriptFile.nextToken sampleLimits noFiles 1 (readerOn (bytes "-5"))
      = .done () { Token := .SPECIAL, String := [], Number := 0, CoordX := 0, CoordY := 0,
                   CoordZ := 0, Special := 45,
                   Frames := [{ Filename := bytes "dat/in.dat", File := bytes "5", Line := 1 }] } := by
  constructor <;> decide


/-! ## Coordinates -/

theorem scanCoordDigits_digits (stop : Nat) (hstop : isDigit stop = false) (ds : List Nat) :
    ∀ (rest : List Nat) (acc : Int), (∀ c ∈ ds, isDigit c = true) →
      scanCoordDigits stop (ds ++ stop :: rest) acc = .ok (digitsWrapped acc ds, rest) := by
  induction ds with
  | nil => intro rest acc _; simp [scanCoordDigits, digitsWrapped, hstop]
  | cons d ds ih =>
    intro rest acc hd
    have hdig : isDigit d = true := hd d (by simp)
    simp only [List.cons_append, scanCoordDigits, hdig, ↓reduceIte, digitsWrapped]
    exact ih rest _ (fun c hc => hd c (by simp [hc]))

/-- The decimal text of `v` (`%d`) followed by `stop` is read back as `v`. -/
theorem scanCoordComponent_decimalInt (stop : Nat) (hstop : isDigit stop = false) (v : Int)
    (h0 : -2147483648 < v) (h1 : v < 2147483648) (rest : List Nat) :
    scanCoordComponent stop (decimalInt v ++ stop :: rest) = .ok (v, rest) := by
  obtain ⟨hdig, hval⟩ := decimal_spec v.natAbs
  by_cases hneg : v < 0
  · have hw : digitsWrapped 0 (decimal v.natAbs) = v.natAbs := by
      rw [digitsWrapped_eq _ _ (le_refl 0) hdig (by rw [hval]; omega), hval]
    simp only [decimalInt, hneg, ↓reduceIte, List.cons_append, scanCoordComponent]
    rw [if_neg (by decide), if_neg (by decide),
      scanCoordDigits_digits stop hstop _ rest 0 hdig, hw]
    simp only
    rw [wrap32_of_range _ (by omega) (by omega)]
    congr 2
    omega
  · obtain ⟨c, ds, hcd⟩ := decimal_cons v.natAbs
    rw [hcd] at hdig hval
    have hc : isDigit c = true := hdig c (by simp)
    have hds : ∀ x ∈ ds, isDigit x = true := fun x hx => hdig x (by simp [hx])
    have hb := (isDigit_iff c).1 hc
    have hv : digitsValue ((c : Int) - 48) ds = v.natAbs := by
      simpa [digitsValue] using hval
    have hw : digitsWrapped ((c : Int) - 48) ds = v.natAbs := by
      rw [digitsWrapped_eq ds _ (by omega) hds (by rw [hv]; omega), hv]
    simp only [decimalInt, hneg, ↓reduceIte, hcd, List.cons_append, scanCoordComponent, hc]
    rw [scanCoordDigits_digits stop hstop ds rest _ hds, hw]
    simp only
    rw [wrap32_of_range _ (by omega) (by omega)]
    congr 2
    omega

/-- After an opening bracket, a digit or a minus sign starts the X component,
which is read like the other two. -/
theorem scanSwitch_bracket (L : Limits) (p : Payload) (Line : Int) (next : Nat)
    (rest1 : List Nat) (h : isDigit next = true ∨ next = 45) :
    scanSwitch L p 91 (next :: rest1) Line =
      match scanCoordComponent 44 (next :: rest1) with
      | .error Text => .fail Text p Line
      | .ok (CoordX, rest2) =>
        match scanCoordComponent 44 rest2 with
        | .error Text => .fail Text { p with CoordX := CoordX } Line
        | .ok (CoordY, rest3) =>
          match scanCoordComponent 93 rest3 with
          | .error Text => .fail Text { p with CoordX := CoordX, CoordY := CoordY } Line
          | .ok (CoordZ, rest4) =>
            .token { p with CoordX := CoordX, CoordY := CoordY, CoordZ := CoordZ,
                            Token := .COORDINATE } rest4 Line := by
  have hsw : scanSwitch L p 91 (next :: rest1) Line =
      if isDigit next then scanCoordinate p Line 1 ((next : Int) - 48) rest1
      else if next ≠ 45 then
        .token { p with Token := .SPECIAL, Special := 91 } (next :: rest1) Line
      else scanCoordinate p Line (-1) 0 rest1 := by
    simp [scanSwitch]
  rw [hsw]
  by_cases hd : isDigit next = true
  · simp only [hd, ↓reduceIte, scanCoordinate, scanCoordComponent]
    cases scanCoordDigits 44 rest1 ((next : Int) - 48) with
    | error Text => rfl
    | ok v => rfl
  · have h45 : next = 45 := by
      rcases h with h | h
      · exact absurd h hd
      · exact h
    subst h45
    simp only [hd, scanCoordinate, scanCoordComponent]
    rw [if_neg (by decide), if_neg (by decide), if_neg (by decide)]
    cases scanCoordDigits 44 rest1 0 with
    | error Text => rfl
    | ok v => rfl

theorem decimalInt_head (v : Int) : ∃ next rest1, decimalInt v = next :: rest1 ∧
    (isDigit next = true ∨ next = 45) := by
  by_cases hneg : v < 0
  · exact ⟨45, decimal v.natAbs, by simp [decimalInt, hneg], Or.inr rfl⟩
  · obtain ⟨c, ds, hcd⟩ := decimal_cons v.natAbs
    refine ⟨c, ds, by simp [decimalInt, hneg, hcd], Or.inl ?_⟩
    exact (decimal_spec v.natAbs).1 c (by simp [hcd])

/-- The text of a coordinate triple. -/
theorem scan_coordinate_text (L : Limits) (p : Payload) (Line : Int) (x y z : Int)
    (hx0 : -2147483648 < x) (hx1 : x < 2147483648)
    (hy0 : -2147483648 < y) (hy1 : y < 2147483648)
    (hz0 : -2147483648 < z) (hz1 : z < 2147483648) (rest : List Nat) :
    scan L p (91 :: (decimalInt x ++ 44 :: (decimalInt y ++ 44 :: (decimalInt z ++ 93 :: rest))))
        Line
      = .token { p with CoordX := x, CoordY := y, CoordZ := z, Token := .COORDINATE } rest
          Line := by
  obtain ⟨next, rest1, hhead, hnext⟩ := decimalInt_head x
  have hX := scanCoordComponent_decimalInt 44 (by decide) x hx0 hx1
    (decimalInt y ++ 44 :: (decimalInt z ++ 93 :: rest))
  have hY := scanCoordComponent_decimalInt 44 (by decide) y hy0 hy1 (decimalInt z ++ 93 :: rest)
  have hZ := scanCoordComponent_decimalInt 93 (by decide) z hz0 hz1 rest
  simp only [scan, skipSpace_nonspace 91 _ Line (by decide) (by decide)]
  rw [hhead, List.cons_append] at hX ⊢
  rw [scanSwitch_bracket L p Line next _ hnext, hX]
  simp only [hY, hZ]


/-- C9. Coordinate lexing: for `x`, `y`, `z` of magnitude at most 2147483647,
when the current file starts with an opening bracket, the three components in
decimal (a minus sign before the digits of a negative one) separated by commas
and a closing bracket, one `nextToken` yields a COORDINATE token with
components `(x, y, z)` and consumes exactly that text; the witness is the
input `[5,6,7]`. -/
theorem nextToken_coordinate (L : Limits) (fs : FileSystem) (r : TReadScriptFile)
    (f : Frame) (below : List Frame) (fuel : Nat) (x y z : Int) (rest : List Nat)
    (hx0 : -2147483648 < x) (hx1 : x < 2147483648)
    (hy0 : -2147483648 < y) (hy1 : y < 2147483648)
    (hz0 : -2147483648 < z) (hz1 : z < 2147483648)
    (hr : r.Frames = f :: below)
    (hf : f.File = coordinateText x y z ++ rest) :
    ∃ r1, TReadScriptFile.nextToken L fs (fuel + 1) r = .done () r1 ∧
      r1.Token = .COORDINATE ∧ r1.getCoordinate = .done (x, y, z) r1 ∧
      r1.Frames = { f with File := rest } :: below := by
  have hscan := scan_coordinate_text L r.toPayload.reset f.Line x y z hx0 hx1 hy0 hy1 hz0 hz1 rest
  have hf' : f.File = 91 :: (decimalInt x ++ 44 :: (decimalInt y ++ 44 :: (decimalInt z
      ++ 93 :: rest))) := by
    rw [hf]; simp [coordinateText]
  rw [← hf'] at hscan
  refine ⟨_, nextToken_of_scan_token L fs fuel r f below _ _ _ hr hscan, rfl, ?_, ?_⟩
  · simp [TReadScriptFile.getCoordinate]
  · simp [Frame.advance]

theorem nextToken_coordinate_witness :
    (-2147483648 : Int) < 5 ∧ (5 : Int) < 2147483648 ∧
    (-2147483648 : Int) < 6 ∧ (6 : Int) < 2147483648 ∧
    (-2147483648 : Int) < 7 ∧ (7 : Int) < 2147483648 ∧
    (readerOn (bytes "[5,6,7]")).Frames
      = [{ Filename := bytes "dat/in.dat", File := bytes "[5,6,7]", Line := 1 }] ∧
    bytes "[5,6,7]" = coordinateText 5 6 7 ++ [] ∧
    ∃ r1, TReadScriptFile.nextToken sampleLimits noFiles 1 (readerOn (bytes "[5,6,7]"))
        = .done () r1 ∧
      r1.Token = .COORDINATE ∧ r1.getCoordinate = .done (5, 6, 7) r1 ∧
      r1.Frames = [{ Filename := bytes "dat/in.dat", File := [], Line := 1 }] :=
  ⟨by decide, by decide, by decide, by decide, by decide, by decide, rfl, by decide,
    nextToken_coordinate sampleLimits noFiles (readerOn (bytes "[5,6,7]")) _ [] 0 5 6 7
      [] (by decide) (by decide) (by decide) (by decide) (by decide) (by decide)
      rfl (by decide)⟩

theorem decimalInt_of_nonneg (v : Int) (h : 0 ≤ v) : decimalInt v = decimal v.toNat := by
  simp only [decimalInt, if_neg (not_lt.2 h)]
  congr 1
  omega

theorem writeCoordinate_done (w : TWriteScriptFile) (x y z : Int) (hw : w.File = some [])
    (hx0 : 0 ≤ x) (hx1 : x < 2147483648) (hy0 : 0 ≤ y) (hy1 : y < 2147483648)
    (hz0 : 0 ≤ z) (hz1 : z < 2147483648) :
    w.writeCoordinate x y z = .done () { w with File := some (coordinateText x y z) } := by
  have ex : (x % 4294967296).toNat = x.toNat := by omega
  have ey : (y % 4294967296).toNat = y.toNat := by omega
  have ez : (z % 4294967296).toNat = z.toNat := by omega
  have lx := decimal_length x.toNat (by omega)
  have ly := decimal_length y.toNat (by omega)
  have lz := decimal_length z.toNat (by omega)
  have hneg : ¬ (x < 0 ∨ y < 0 ∨ z < 0) := by omega
  simp only [TWriteScriptFile.writeCoordinate, hw, reduceCtorEq, ↓reduceIte, hneg, ex, ey, ez,
    snprintf, coordinateText, decimalInt_of_nonneg x hx0, decimalInt_of_nonneg y hy0, decimalInt_of_nonneg z hz0]
  rw [List.take_of_length_le (by simp; omega)]
  have hnul : ∀ c ∈ [91] ++ decimal x.toNat ++ [44] ++ decimal y.toNat ++ [44]
      ++ decimal z.toNat ++ [93], c ≠ 0 := by
    intro c hc
    simp only [List.mem_append, List.mem_singleton] at hc
    rcases hc with ((((((h | h) | h) | h) | h) | h) | h)
    · omega
    · exact decimal_no_nul _ c h
    · omega
    · exact decimal_no_nul _ c h
    · omega
    · exact decimal_no_nul _ c h
    · omega
  simpa using writeText_done w _ [] hw hnul

/-- C4. Coordinate round trip: for `int` values `x`, `y`, `z` that are each
`>= 0`, `writeCoordinate` on a freshly opened file returns normally, and a
reader at depth 0 on the bytes it wrote gets, from one `nextToken`, a
COORDINATE token for which `getCoordinate` returns `(x, y, z)`, with the whole
file consumed; the next `nextToken` reports the end of the file. -/
theorem writeCoordinate_nextToken_roundtrip (L : Limits) (fs : FileSystem)
    (w : TWriteScriptFile) (x y z : Int) (r : TReadScriptFile) (f : Frame) (fuel : Nat)
    (hw : w.File = some [])
    (hx0 : 0 ≤ x) (hx1 : x < 2147483648) (hy0 : 0 ≤ y) (hy1 : y < 2147483648)
    (hz0 : 0 ≤ z) (hz1 : z < 2147483648)
    (hr : r.Frames = [f])
    (hf : ∀ w1, w.writeCoordinate x y z = .done () w1 → w1.File = some f.File) :
    (∃ w1, w.writeCoordinate x y z = .done () w1) ∧
      ∃ r1 r2, TReadScriptFile.nextToken L fs (fuel + 1) r = .done () r1 ∧
        r1.Token = .COORDINATE ∧ r1.getCoordinate = .done (x, y, z) r1 ∧
        r1.Frames = [{ f with File := [] }] ∧
        TReadScriptFile.nextToken L fs (fuel + 1) r1 = .done () r2 ∧
        r2.Token = .ENDOFFILE := by
  have hdone := writeCoordinate_done w x y z hw hx0 hx1 hy0 hy1 hz0 hz1
  have hfile : f.File = 91 :: (decimalInt x ++ 44 :: (decimalInt y ++ 44 :: (decimalInt z
      ++ 93 :: []))) := by
    have := hf _ hdone
    simpa [coordinateText] using this.symm
  refine ⟨⟨_, hdone⟩, ?_⟩
  have hscan := scan_coordinate_text L r.toPayload.reset f.Line x y z (by omega) hx1 (by omega)
    hy1 (by omega) hz1 []
  rw [← hfile] at hscan
  refine ⟨_, _, nextToken_of_scan_token L fs fuel r f [] _ _ _ hr hscan, rfl, ?_, ?_,
    nextToken_of_scan_eof L fs fuel _ _ f.Line rfl (by simp [Frame.advance, scan_nil]), ?_⟩
  · simp [TReadScriptFile.getCoordinate]
  · simp [Frame.advance]
  · rfl

theorem writeCoordinate_nextToken_roundtrip_witness :
    sampleWriter.File = some [] ∧
    (0 : Int) ≤ 32000 ∧ (32000 : Int) < 2147483648 ∧ (0 : Int) ≤ 0 ∧ (0 : Int) < 2147483648 ∧
    (0 : Int) ≤ 7 ∧ (7 : Int) < 2147483648 ∧
    (∃ w1, sampleWriter.writeCoordinate 32000 0 7 = .done () w1) ∧
      ∃ r1 r2, TReadScriptFile.nextToken sampleLimits noFiles 1 (readerOn (bytes "[32000,0,7]"))
          = .done () r1 ∧
        r1.Token = .COORDINATE ∧ r1.getCoordinate = .done (32000, 0, 7) r1 ∧
        r1.Frames = [{ Filename := bytes "dat/in.dat", File := [], Line := 1 }] ∧
        TReadScriptFile.nextToken sampleLimits noFiles 1 r1 = .done () r2 ∧
        r2.Token = .ENDOFFILE :=
  ⟨by decide, by decide, by decide, by decide, by decide, by decide, by decide,
    writeCoordinate_nextToken_roundtrip sampleLimits noFiles sampleWriter 32000 0 7
      (readerOn (bytes "[32000,0,7]")) _ 0 (by decide) (by decide) (by decide) (by decide)
      (by decide) (by decide) (by decide) rfl (by intro w1 h; cases h; decide)⟩


/-! ## Byte sequences -/

theorem writeBytesLoop_tail (seq : List Nat) : ∀ (w : TWriteScriptFile) (i : Nat)
    (out : List Nat), w.File = some out → 0 < i → (∀ b ∈ seq, b < 256) →
    w.writeBytesLoop i seq
      = .done () { w with File := some (out ++ seq.flatMap (fun v => 45 :: decimal v)) } := by
  induction seq with
  | nil => intro w i out hw _ _; cases w; simp_all [TWriteScriptFile.writeBytesLoop]
  | cons b bs ih =>
    intro w i out hw hi hb
    have hlen := decimal_length b (by have := hb b (by simp); omega)
    have hw1 : (w.putc 45).File = some (out ++ [45]) := by simp [TWriteScriptFile.putc, hw]
    have htext := writeText_done (w.putc 45) (decimal b) _ hw1 (decimal_no_nul b)
    simp only [TWriteScriptFile.writeBytesLoop, hi, ↓reduceIte, snprintf]
    rw [List.take_of_length_le (by omega), htext]
    simp only
    rw [ih _ (i + 1) (out ++ [45] ++ decimal b) rfl (by omega) (fun x hx => hb x (by simp [hx]))]
    simp [TWriteScriptFile.putc]

theorem writeBytesequence_done (w : TWriteScriptFile) (seq : List Nat) (hw : w.File = some [])
    (hne : seq ≠ []) (hb : ∀ b ∈ seq, b < 256) :
    w.writeBytesequence (some seq) seq.length
      = .done () { w with File := some (bytesText seq) } := by
  cases seq with
  | nil => exact absurd rfl hne
  | cons b bs =>
    have hlen := decimal_length b (by have := hb b (by simp); omega)
    have htext := writeText_done w (decimal b) _ hw (decimal_no_nul b)
    have hpos : ¬ (((b :: bs).length : Int) ≤ 0) := by simp
    simp only [TWriteScriptFile.writeBytesequence, hw, reduceCtorEq, ↓reduceIte, hpos,
      Int.toNat_ofNat, List.take_length, TWriteScriptFile.writeBytesLoop, gt_iff_lt,
      lt_self_iff_false, snprintf]
    rw [List.take_of_length_le (by omega), htext]
    simp only
    rw [writeBytesLoop_tail bs _ 1 ([] ++ decimal b) rfl (by decide)
      (fun x hx => hb x (by simp [hx]))]
    simp [bytesText]

theorem scanNumber_cons_minus (L : Limits) (p : Payload) (Line : Int) (d : Nat)
    (rest : List Nat) (acc : Int) (hd : isDigit d = true)
    (hcap : p.String.length < L.NSTRING) :
    scanNumber L.NSTRING p Line (45 :: d :: rest) acc
      = scanNumber L.NSTRING { p with String := p.String ++ [toUint8 acc] } Line rest ((d : Int) - 48) := by
  have h1 : isDigit 45 = false := by decide
  have h2 : ¬ (p.String.length ≥ L.NSTRING) := by omega
  simp [scanNumber, hd, h1, h2]

theorem toUint8_byte (b : Nat) (h : b < 256) : toUint8 (b : Int) = b := by
  unfold toUint8
  omega

/-- The digit loop on the rest of a byte sequence: after the value `acc`, the
groups `bs`, each after a minus sign. -/
theorem scanNumber_groups (L : Limits) (Line : Int) (tail : List Nat)
    (htail : ∀ c t, tail = c :: t → isDigit c = false ∧ c ≠ 45) (bs : List Nat) :
    ∀ (p : Payload) (acc : Int), p.String.length + bs.length + 1 ≤ L.NSTRING →
      (bs ≠ [] ∨ p.String ≠ []) → (∀ b ∈ bs, b < 256) →
      scanNumber L.NSTRING p Line (bs.flatMap (fun v => 45 :: decimal v) ++ tail) acc
        = .token { p with Token := .BYTES, String := p.String ++ toUint8 acc :: bs } tail
            Line := by
  induction bs with
  | nil =>
    intro p acc hcap hne _
    have hp : p.String ≠ [] := by
      rcases hne with h | h
      · exact absurd rfl h
      · exact h
    have hlen : 0 < p.String.length := List.length_pos.2 hp
    simp only [List.flatMap_nil, List.nil_append, scanNumber_stop L p Line tail acc htail]
    simp only [List.length_nil] at hcap
    rw [if_neg (by omega), if_neg (by omega)]
  | cons b bs ih =>
    intro p acc hcap _ hb
    obtain ⟨c, ds, hcd⟩ := decimal_cons b
    obtain ⟨hdig, hval⟩ := decimal_spec b
    rw [hcd] at hdig hval
    have hc : isDigit c = true := hdig c (by simp)
    have hds : ∀ x ∈ ds, isDigit x = true := fun x hx => hdig x (by simp [hx])
    have hrange := (isDigit_iff c).1 hc
    have hblt : b < 256 := hb b (by simp)
    have hv : digitsValue ((c : Int) - 48) ds = b := by
      simpa [digitsValue] using hval
    have hwv : digitsWrapped ((c : Int) - 48) ds = b := by
      rw [digitsWrapped_eq ds _ (by omega) hds (by rw [hv]; omega), hv]
    simp only [List.length_cons] at hcap
    simp only [List.flatMap_cons, hcd, List.cons_append, List.append_assoc]
    rw [scanNumber_cons_minus L p Line c _ acc hc (by omega),
      scanNumber_digits L _ Line ds _ _ hds, hwv,
      ih _ b (by simp; omega) (Or.inr (by simp)) (fun x hx => hb x (by simp [hx]))]
    simp [toUint8_byte b hblt]

theorem scan_bytesText (L : Limits) (p : Payload) (Line : Int) (b : Nat) (bs : List Nat)
    (hp : p.String = []) (hne : bs ≠ []) (hcap : (b :: bs).length ≤ L.NSTRING)
    (hb : ∀ v ∈ b :: bs, v < 256) :
    scan L p (bytesText (b :: bs)) Line
      = .token { p with Token := .BYTES, String := b :: bs } [] Line := by
  obtain ⟨c, ds, hcd⟩ := decimal_cons b
  obtain ⟨hdig, hval⟩ := decimal_spec b
  rw [hcd] at hdig hval
  have hc : isDigit c = true := hdig c (by simp)
  have hds : ∀ x ∈ ds, isDigit x = true := fun x hx => hdig x (by simp [hx])
  have hrange := (isDigit_iff c).1 hc
  have hblt : b < 256 := hb b (by simp)
  have hv : digitsValue ((c : Int) - 48) ds = b := by
    simpa [digitsValue] using hval
  have hwv : digitsWrapped ((c : Int) - 48) ds = b := by
    rw [digitsWrapped_eq ds _ (by omega) hds (by rw [hv]; omega), hv]
  have hg := scanNumber_groups L Line [] (by intro c t h; cases h) bs p b
    (by simp only [List.length_cons] at hcap; simp [hp]; omega) (Or.inl hne)
    (fun x hx => hb x (by simp [hx]))
  simp only [List.append_nil] at hg
  simp only [bytesText, hcd, List.cons_append]
  rw [scan_digit L p c _ Line hc, scanNumber_digits L p Line ds _ _ hds, hwv, hg]
  simp [hp, toUint8_byte b hblt]


/-- C3 (amended). Byte-sequence round trip for a sequence of `L` bytes with
`2 <= L <= NSTRING`: `writeBytesequence` on a freshly opened file returns
normally, and a reader at depth 0 on the bytes it wrote gets, from one
`nextToken`, a BYTES token for which the first `L` bytes of `getBytesequence`
are the sequence, with the whole file consumed; the next `nextToken` reports
the end of the file. -/
theorem writeBytesequence_nextToken_roundtrip (L : Limits) (fs : FileSystem)
    (w : TWriteScriptFile) (seq : List Nat) (r : TReadScriptFile) (f : Frame) (fuel : Nat)
    (hw : w.File = some [])
    (hlo : 2 ≤ seq.length) (hhi : seq.length ≤ L.NSTRING)
    (hb : ∀ b ∈ seq, b < 256)
    (hr : r.Frames = [f])
    (hf : ∀ w1, w.writeBytesequence (some seq) seq.length = .done () w1 →
      w1.File = some f.File) :
    (∃ w1, w.writeBytesequence (some seq) seq.length = .done () w1) ∧
      ∃ r1 r2 buf, TReadScriptFile.nextToken L fs (fuel + 1) r = .done () r1 ∧
        r1.Token = .BYTES ∧ r1.getBytesequence L = .done buf r1 ∧
        buf.take seq.length = seq ∧
        r1.Frames = [{ f with File := [] }] ∧
        TReadScriptFile.nextToken L fs (fuel + 1) r1 = .done () r2 ∧
        r2.Token = .ENDOFFILE := by
  have hne : seq ≠ [] := by
    intro h; rw [h] at hlo; simp at hlo
  have hdone := writeBytesequence_done w seq hw hne hb
  have hfile : f.File = bytesText seq := by
    have := hf _ hdone
    simpa using this.symm
  refine ⟨⟨_, hdone⟩, ?_⟩
  cases seq with
  | nil => exact absurd rfl hne
  | cons b bs =>
    have hbs : bs ≠ [] := by
      intro h; rw [h] at hlo; simp at hlo
    have hscan := scan_bytesText L r.toPayload.reset f.Line b bs rfl hbs hhi hb
    rw [← hfile] at hscan
    refine ⟨_, _, (b :: bs) ++ List.replicate (L.NSTRING - (b :: bs).length) 0,
      nextToken_of_scan_token L fs fuel r f [] _ _ _ hr hscan, rfl, ?_, ?_, ?_,
      nextToken_of_scan_eof L fs fuel _ _ f.Line rfl (by simp [Frame.advance, scan_nil]), ?_⟩
    · simp [TReadScriptFile.getBytesequence]
    · simp
    · simp [Frame.advance]
    · rfl

theorem writeBytesequence_nextToken_roundtrip_witness :
    sampleWriter.File = some [] ∧ 2 ≤ [1, 20, 255].length ∧
    [1, 20, 255].length ≤ sampleLimits.NSTRING ∧ (∀ b ∈ [1, 20, 255], b < 256) ∧
    (∃ w1, sampleWriter.writeBytesequence (some [1, 20, 255]) 3 = .done () w1) ∧
      ∃ r1 r2 buf, TReadScriptFile.nextToken sampleLimits noFiles 1
          (readerOn (bytes "1-20-255")) = .done () r1 ∧
        r1.Token = .BYTES ∧ r1.getBytesequence sampleLimits = .done buf r1 ∧
        buf.take 3 = [1, 20, 255] ∧
        r1.Frames = [{ Filename := bytes "dat/in.dat", File := [], Line := 1 }] ∧
        TReadScriptFile.nextToken sampleLimits noFiles 1 r1 = .done () r2 ∧
        r2.Token = .ENDOFFILE :=
  ⟨by decide, by decide, by decide, by decide,
    writeBytesequence_nextToken_roundtrip sampleLimits noFiles sampleWriter [1, 20, 255]
      (readerOn (bytes "1-20-255")) _ 0 (by decide) (by decide) (by decide) (by decide) rfl
      (by intro w1 h; cases h; decide)⟩

/-- C3 (counterexample). A sequence of one byte: `writeBytesequence([5], 1)`
writes the single digit `5`, and `nextToken` on that text yields a NUMBER
token with value 5, not a BYTES token. -/
theorem writeBytesequence_single_counterexample :
    sampleWriter.writeBytesequence (some [5]) 1
      = .done () { sampleWriter with File := some (bytes "5") } ∧
    TReadScriptFile.nextToken sampleLimits noFiles 1 (readerOn (bytes "5"))
      = .done () { Token := .NUMBER, String := [], Number := 5, CoordX := 0, CoordY := 0,
                   CoordZ := 0, Special := 0,
                   Frames := [{ Filename := bytes "dat/in.dat", File := [], Line := 1 }] } := by
  constructor <;> decide


/-! ## Coordinate errors of the writer, bracket fallback -/

/-- C5. On an open write session `writeCoordinate(x, y, z)` throws the
invalid-coordinates error if and only if at least one of `x`, `y`, `z` is
negative, and whenever it throws, it is that error and the session is as it
was: no byte has been written to the file. -/
theorem writeCoordinate_invalid_iff (w : TWriteScriptFile) (x y z : Int) (out : List Nat)
    (hw : w.File = some out) :
    ((∃ s, w.writeCoordinate x y z = .thrown (bytes "Invalid coordinates") s)
        ↔ (x < 0 ∨ y < 0 ∨ z < 0)) ∧
      (∀ msg s, w.writeCoordinate x y z = .thrown msg s →
        msg = bytes "Invalid coordinates" ∧ s = w ∧ s.File = some out) := by
  by_cases hneg : x < 0 ∨ y < 0 ∨ z < 0
  · have h : w.writeCoordinate x y z = .thrown (bytes "Invalid coordinates") w := by
      simp [TWriteScriptFile.writeCoordinate, hw, hneg]
    refine ⟨⟨fun _ => hneg, fun _ => ⟨w, h⟩⟩, ?_⟩
    intro msg s hs
    rw [h] at hs
    cases hs
    exact ⟨rfl, rfl, hw⟩
  · have h : ∃ w1, w.writeCoordinate x y z = .done () w1 := by
      simp [TWriteScriptFile.writeCoordinate, hw, hneg, TWriteScriptFile.writeText]
    obtain ⟨w1, h1⟩ := h
    refine ⟨⟨fun ⟨s, hs⟩ => ?_, fun h => absurd h hneg⟩, ?_⟩
    · rw [h1] at hs; cases hs
    · intro msg s hs
      rw [h1] at hs; cases hs

theorem writeCoordinate_invalid_iff_witness :
    sampleWriter.File = some [] ∧
    (((∃ s, sampleWriter.writeCoordinate 3 (-1) 7 = .thrown (bytes "Invalid coordinates") s)
        ↔ ((3 : Int) < 0 ∨ (-1 : Int) < 0 ∨ (7 : Int) < 0)) ∧
      (∀ msg s, sampleWriter.writeCoordinate 3 (-1) 7 = .thrown msg s →
        msg = bytes "Invalid coordinates" ∧ s = sampleWriter ∧ s.File = some [])) :=
  ⟨rfl, writeCoordinate_invalid_iff sampleWriter 3 (-1) 7 [] rfl⟩

theorem scan_bracket_fallback (L : Limits) (p : Payload) (Line : Int) (rest : List Nat)
    (hrest : ∀ c t, rest = c :: t → isDigit c = false ∧ c ≠ 45) :
    scan L p (91 :: rest) Line
      = .token { p with Token := .SPECIAL, Special := 91 } rest Line := by
  simp only [scan, skipSpace_nonspace 91 _ Line (by decide) (by decide)]
  cases rest with
  | nil => simp [scanSwitch]
  | cons c t =>
    obtain ⟨h1, h2⟩ := hrest c t rfl
    simp [scanSwitch, h1, h2]

theorem nextToken_congr (L : Limits) (fs : FileSystem) (k : Nat) (r r1 : TReadScriptFile)
    (hF : r1.Frames = r.Frames) (hT : r1.Token = r.Token) (hne : r.Frames ≠ []) :
    TReadScriptFile.nextToken L fs k r1 = TReadScriptFile.nextToken L fs k r := by
  cases r with
  | mk p F =>
    cases r1 with
    | mk p1 F1 =>
      cases p; cases p1
      simp only at hF hT hne
      subst hF hT
      simp [TReadScriptFile.nextToken, hne, Payload.reset]

/-- C10. Bracket fallback: when the current file starts with an opening bracket
followed by a byte that is neither a digit nor a minus sign, or by the end of
the file, `nextToken` yields the SPECIAL token of the bracket and consumes only
the bracket, so the next `nextToken` behaves as on any reader standing at the
remaining input; and the input `[x]` lexes as the bracket, the identifier `x`
and the closing bracket. -/
theorem nextToken_bracket_fallback (L : Limits) (fs : FileSystem) (r : TReadScriptFile)
    (f : Frame) (below : List Frame) (fuel : Nat) (rest : List Nat)
    (hr : r.Frames = f :: below) (hf : f.File = 91 :: rest)
    (hrest : ∀ c t, rest = c :: t → isDigit c = false ∧ c ≠ 45) :
    (∃ r1, TReadScriptFile.nextToken L fs (fuel + 1) r = .done () r1 ∧
      r1.Token = .SPECIAL ∧ r1.getSpecial = .done 91 r1 ∧
      r1.Frames = { f with File := rest } :: below ∧
      ∀ (k : Nat) (r2 : TReadScriptFile), r2.Frames = { f with File := rest } :: below →
        r2.Token = .SPECIAL →
        TReadScriptFile.nextToken L fs k r1 = TReadScriptFile.nextToken L fs k r2) ∧
    (∃ s1 s2 s3,
      TReadScriptFile.nextToken sampleLimits noFiles 1 (readerOn (bytes "[x]")) = .done () s1 ∧
      s1.getSpecial = .done 91 s1 ∧
      TReadScriptFile.nextToken sampleLimits noFiles 1 s1 = .done () s2 ∧
      s2.Token = .IDENTIFIER ∧ s2.String = bytes "x" ∧
      TReadScriptFile.nextToken sampleLimits noFiles 1 s2 = .done () s3 ∧
      s3.getSpecial = .done 93 s3 ∧ s3.Frames.map Frame.File = [[]]) := by
  constructor
  · have hscan := scan_bracket_fallback L r.toPayload.reset f.Line rest hrest
    rw [← hf] at hscan
    refine ⟨_, nextToken_of_scan_token L fs fuel r f below _ _ _ hr hscan, rfl, ?_, ?_, ?_⟩
    · simp [TReadScriptFile.getSpecial]
    · simp [Frame.advance]
    · intro k r2 h2 hT
      exact (nextToken_congr L fs k _ _ (by simp [h2, Frame.advance]) (by simp [hT])
        (by simp [h2])).symm
  · refine ⟨_, _, _, rfl, ?_, rfl, ?_, ?_, rfl, ?_, ?_⟩ <;> decide

theorem nextToken_bracket_fallback_witness :
    (readerOn (bytes "[ 1")).Frames
      = [{ Filename := bytes "dat/in.dat", File := bytes "[ 1", Line := 1 }] ∧
    bytes "[ 1" = 91 :: bytes " 1" ∧
    (∀ c t, bytes " 1" = c :: t → isDigit c = false ∧ c ≠ 45) ∧
    ∃ r1, TReadScriptFile.nextToken sampleLimits noFiles 1 (readerOn (bytes "[ 1"))
        = .done () r1 ∧
      r1.Token = .SPECIAL ∧ r1.getSpecial = .done 91 r1 ∧
      r1.Frames = [{ Filename := bytes "dat/in.dat", File := bytes " 1", Line := 1 }] :=
  have hrest : ∀ c t, bytes " 1" = c :: t → isDigit c = false ∧ c ≠ 45 := by
    intro c t h
    have hc : c = 32 := by
      have := congrArg List.head? h
      simpa [bytes] using this.symm
    subst hc
    decide
  ⟨rfl, by decide, hrest,
    match (nextToken_bracket_fallback sampleLimits noFiles (readerOn (bytes "[ 1")) _ [] 0
      (bytes " 1") rfl (by decide) hrest).1 with
    | ⟨r1, h1, h2, h3, h4, _⟩ => ⟨r1, h1, h2, h3, h4⟩⟩


/-! ## Depth bound and error contract -/

theorem scanInclude_path (L : Limits) (Line : Int) (rest : List Nat) (path : List Nat) :
    ∀ (p : Payload), (∀ c ∈ path, c ≠ 34) → p.String.length + path.length ≤ L.NSTRING - 1 →
      scanInclude L.NSTRING p Line (path ++ 34 :: rest)
        = .incl { p with String := p.String ++ path } rest Line := by
  induction path with
  | nil => intro p _ _; simp [scanInclude]
  | cons c path ih =>
    intro p hq hlen
    have hc : c ≠ 34 := hq c (by simp)
    simp only [List.length_cons] at hlen
    have hlt : ¬ (p.String.length ≥ L.NSTRING - 1) := by omega
    have step := ih { p with String := p.String ++ [c] } (fun x hx => hq x (by simp [hx]))
      (by simp only [List.length_append, List.length_cons, List.length_nil]; omega)
    rw [List.cons_append, scanInclude]
    simp only [hc, ↓reduceIte, hlt, step]
    simp

theorem scan_include (L : Limits) (p : Payload) (Line : Int) (path rest : List Nat)
    (hp : p.String = []) (hq : ∀ c ∈ path, c ≠ 34) (hlen : path.length ≤ L.NSTRING - 1) :
    scan L p (64 :: 34 :: (path ++ 34 :: rest)) Line
      = .incl { p with String := path } rest Line := by
  simp only [scan, skipSpace_nonspace 64 _ Line (by decide) (by decide)]
  have := scanInclude_path L Line rest path p hq (by simp [hp]; exact hlen)
  simp [scanSwitch, this, hp]

/-- C7 (amended). Depth bound: when the session already holds
`NARRAY(File) - 1` levels or more, `open` throws the depth error and leaves
the session as it was, every level still open and the depth unchanged; the
same holds when `nextToken` reaches `open` through an include directive, whose
text is then consumed. -/
theorem open_depth_exceeded (L : Limits) (fs : FileSystem) (r : TReadScriptFile)
    (hdepth : r.Frames.length + 1 ≥ L.NFILE) :
    (∀ FileName, TReadScriptFile.open L fs r FileName
        = .thrown (bytes "Recursion depth too high") r) ∧
    (∀ (f : Frame) (below : List Frame) (path rest : List Nat) (fuel : Nat),
      r.Frames = f :: below → f.File = 64 :: 34 :: (path ++ 34 :: rest) →
      (∀ c ∈ path, c ≠ 34) → path.length ≤ L.NSTRING - 1 →
      ∃ s, TReadScriptFile.nextToken L fs (fuel + 1) r
          = .thrown (bytes "Recursion depth too high") s ∧
        s.Frames = { f with File := rest } :: below ∧
        s.RecursionDepth = r.RecursionDepth) := by
  constructor
  · intro FileName
    simp [TReadScriptFile.open, hdepth]
  · intro f below path rest fuel hr hf hq hlen
    have hscan := scan_include L r.toPayload.reset f.Line path rest rfl hq hlen
    rw [← hf] at hscan
    have hd : (f :: below).length + 1 ≥ L.NFILE := by rw [← hr]; exact hdepth
    refine ⟨{ toPayload := { r.toPayload.reset with String := path },
              Frames := f.advance rest f.Line :: below }, ?_, ?_, ?_⟩
    · unfold TReadScriptFile.nextToken
      simp only [hr, reduceCtorEq, ↓reduceIte]
      unfold TReadScriptFile.nextTokenLoop TReadScriptFile.nextTokenRound
      simp only [hscan, TReadScriptFile.open]
      simp only [List.length_cons] at hd
      simp [hd]
    · simp [Frame.advance]
    · simp [TReadScriptFile.RecursionDepth, hr]

theorem open_depth_exceeded_witness :
    (List.replicate 7 (Frame.mk (bytes "a") (bytes "@\"a\"") 1)).length + 1
      ≥ sampleLimits.NFILE ∧
    (∀ FileName, TReadScriptFile.open sampleLimits selfIncluding
        { closedReader with Frames := List.replicate 7 (Frame.mk (bytes "a") (bytes "@\"a\"") 1) }
        FileName
      = .thrown (bytes "Recursion depth too high")
        { closedReader with
          Frames := List.replicate 7 (Frame.mk (bytes "a") (bytes "@\"a\"") 1) }) :=
  ⟨by decide, (open_depth_exceeded sampleLimits selfIncluding
    { closedReader with Frames := List.replicate 7 (Frame.mk (bytes "a") (bytes "@\"a\"") 1) }
    (by decide)).1⟩

/-- C7 (counterexample). A file that includes itself: the eighth `open` throws
the depth error and the seven levels opened before are all still open, the
depth being 6 and not -1. -/
theorem open_depth_exceeded_counterexample :
    ∃ r1 s, TReadScriptFile.open sampleLimits selfIncluding closedReader (bytes "a")
        = .done () r1 ∧
      TReadScriptFile.nextToken sampleLimits selfIncluding 7 r1
        = .thrown (bytes "Recursion depth too high") s ∧
      s.Frames.length = 7 ∧ s.RecursionDepth = 6 ∧
      s.Frames.map Frame.Filename = List.replicate 7 (bytes "a") := by
  refine ⟨_, _, rfl, rfl, ?_, ?_, ?_⟩ <;> decide

theorem mem_causes_eof : bytes "unexpected end of file" ∈ lexicalCauses := by
  simp [lexicalCauses]
theorem mem_causes_syntax : bytes "syntax error" ∈ lexicalCauses := by
  simp [lexicalCauses]
theorem mem_causes_string : bytes "string too long" ∈ lexicalCauses := by
  simp [lexicalCauses]
theorem mem_causes_ident : bytes "identifier too long" ∈ lexicalCauses := by
  simp [lexicalCauses]
theorem mem_causes_bytes : bytes "too many bytes" ∈ lexicalCauses := by
  simp [lexicalCauses]

theorem scanInclude_fail (L : Limits) (Line : Int) (File : List Nat) :
    ∀ (p q : Payload) (Text : List Nat) (Line1 : Int),
      scanInclude L.NSTRING p Line File = .fail Text q Line1 → Text ∈ lexicalCauses := by
  induction File with
  | nil =>
    intro p q Text Line1 h
    simp only [scanInclude, Scan.fail.injEq] at h
    rw [← h.1]; exact mem_causes_eof
  | cons c File ih =>
    intro p q Text Line1 h
    simp only [scanInclude] at h
    split at h
    · cases h
    · split at h
      · simp only [Scan.fail.injEq] at h
        rw [← h.1]; exact mem_causes_string
      · exact ih _ _ _ _ h

theorem scanString_fail (L : Limits) : ∀ (n : Nat) (File : List Nat), File.length ≤ n →
    ∀ (p q : Payload) (Line : Int) (Text : List Nat) (Line1 : Int),
      scanString L.NSTRING p File Line = .fail Text q Line1 → Text ∈ lexicalCauses := by
  intro n
  induction n with
  | zero =>
    intro File hl p q Line Text Line1 h
    have : File = [] := List.length_eq_zero.1 (Nat.le_zero.1 hl)
    subst this
    simp only [scanString, Scan.fail.injEq] at h
    rw [← h.1]; exact mem_causes_eof
  | succ n ih =>
    intro File hl p q Line Text Line1 h
    rw [scanString.eq_def] at h
    cases File with
    | nil =>
      simp only [Scan.fail.injEq] at h
      rw [← h.1]; exact mem_causes_eof
    | cons c rest =>
      simp only [List.length_cons] at hl
      simp only at h
      split at h
      · cases rest with
        | nil =>
          simp only [Scan.fail.injEq] at h
          rw [← h.1]; exact mem_causes_eof
        | cons e rest1 =>
          simp only [List.length_cons] at hl
          simp only at h
          split at h
          · simp only [Scan.fail.injEq] at h
            rw [← h.1]; exact mem_causes_string
          · exact ih rest1 (by omega) _ _ _ _ _ h
      · split at h
        · split at h
          · simp only [Scan.fail.injEq] at h
            rw [← h.1]; exact mem_causes_string
          · exact ih rest (by omega) _ _ _ _ _ h
        · split at h
          · cases h
          · split at h
            · simp only [Scan.fail.injEq] at h
              rw [← h.1]; exact mem_causes_string
            · exact ih rest (by omega) _ _ _ _ _ h

theorem scanCoordDigits_error (stop : Nat) (File : List Nat) :
    ∀ (Coord : Int) (Text : List Nat),
      scanCoordDigits stop File Coord = .error Text → Text ∈ lexicalCauses := by
  induction File with
  | nil =>
    intro Coord Text h
    simp only [scanCoordDigits, Except.error.injEq] at h
    rw [← h]; exact mem_causes_eof
  | cons c File ih =>
    intro Coord Text h
    simp only [scanCoordDigits] at h
    split at h
    · exact ih _ _ h
    · split at h
      · cases h
      · simp only [Except.error.injEq] at h
        rw [← h]; exact mem_causes_syntax

theorem scanCoordComponent_error (stop : Nat) (File : List Nat) (Text : List Nat)
    (h : scanCoordComponent stop File = .error Text) : Text ∈ lexicalCauses := by
  cases File with
  | nil =>
    simp only [scanCoordComponent, Except.error.injEq] at h
    rw [← h]; exact mem_causes_syntax
  | cons c rest =>
    simp only [scanCoordComponent] at h
    split at h
    · cases hd : scanCoordDigits stop rest ((c : Int) - 48) with
      | error T =>
        rw [hd] at h
        simp only [Except.error.injEq] at h
        rw [← h]; exact scanCoordDigits_error stop rest _ T hd
      | ok v => rw [hd] at h; cases h
    · split at h
      · simp only [Except.error.injEq] at h
        rw [← h]; exact mem_causes_syntax
      · cases hd : scanCoordDigits stop rest 0 with
        | error T =>
          rw [hd] at h
          simp only [Except.error.injEq] at h
          rw [← h]; exact scanCoordDigits_error stop rest _ T hd
        | ok v => rw [hd] at h; cases h

theorem scanCoordinate_fail (p q : Payload) (Line Line1 Sign Coord : Int) (rest Text : List Nat)
    (h : scanCoordinate p Line Sign Coord rest = .fail Text q Line1) :
    Text ∈ lexicalCauses := by
  unfold scanCoordinate at h
  cases hx : scanCoordDigits 44 rest Coord with
  | error T =>
    rw [hx] at h
    simp only [Scan.fail.injEq] at h
    rw [← h.1]; exact scanCoordDigits_error _ _ _ _ hx
  | ok vx =>
    rw [hx] at h
    obtain ⟨X, rest1⟩ := vx
    simp only at h
    cases hy : scanCoordComponent 44 rest1 with
    | error T =>
      rw [hy] at h
      simp only [Scan.fail.injEq] at h
      rw [← h.1]; exact scanCoordComponent_error _ _ _ hy
    | ok vy =>
      rw [hy] at h
      obtain ⟨Y, rest2⟩ := vy
      simp only at h
      cases hz : scanCoordComponent 93 rest2 with
      | error T =>
        rw [hz] at h
        simp only [Scan.fail.injEq] at h
        rw [← h.1]; exact scanCoordComponent_error _ _ _ hz
      | ok vz =>
        rw [hz] at h
        cases h

theorem scanIdentifier_fail (L : Limits) (Line : Int) (File : List Nat) :
    ∀ (p q : Payload) (Text : List Nat) (Line1 : Int),
      scanIdentifier L.MAX_IDENT_LENGTH p Line File = .fail Text q Line1 → Text ∈ lexicalCauses := by
  induction File with
  | nil => intro p q Text Line1 h; simp [scanIdentifier] at h
  | cons c File ih =>
    intro p q Text Line1 h
    simp only [scanIdentifier] at h
    split at h
    · split at h
      · simp only [Scan.fail.injEq] at h
        rw [← h.1]; exact mem_causes_ident
      · exact ih _ _ _ _ h
    · cases h

theorem scanNumber_fail (L : Limits) (Line : Int) : ∀ (n : Nat) (File : List Nat),
    File.length ≤ n → ∀ (p q : Payload) (Number : Int) (Text : List Nat) (Line1 : Int),
      scanNumber L.NSTRING p Line File Number = .fail Text q Line1 → Text ∈ lexicalCauses := by
  intro n
  induction n with
  | zero =>
    intro File hl p q Number Text Line1 h
    have : File = [] := List.length_eq_zero.1 (Nat.le_zero.1 hl)
    subst this
    simp only [scanNumber] at h
    split at h
    · cases h
    · split at h
      · simp only [Scan.fail.injEq] at h
        rw [← h.1]; exact mem_causes_bytes
      · cases h
  | succ n ih =>
    intro File hl p q Number Text Line1 h
    rw [scanNumber.eq_def] at h
    cases File with
    | nil =>
      simp only at h
      split at h
      · cases h
      · split at h
        · simp only [Scan.fail.injEq] at h
          rw [← h.1]; exact mem_causes_bytes
        · cases h
    | cons c rest =>
      simp only [List.length_cons] at hl
      simp only at h
      split at h
      · exact ih rest (by omega) _ _ _ _ _ h
      · split at h
        · split at h
          · simp only [Scan.fail.injEq] at h
            rw [← h.1]; exact mem_causes_bytes
          · cases rest with
            | nil =>
              simp only [Scan.fail.injEq] at h
              rw [← h.1]; exact mem_causes_eof
            | cons d rest1 =>
              simp only [List.length_cons] at hl
              simp only at h
              split at h
              · simp only [Scan.fail.injEq] at h
                rw [← h.1]; exact mem_causes_syntax
              · exact ih rest1 (by omega) _ _ _ _ _ h
        · split at h
          · cases h
          · split at h
            · simp only [Scan.fail.injEq] at h
              rw [← h.1]; exact mem_causes_bytes
            · cases h

theorem scanSwitch_fail (L : Limits) (p q : Payload) (c : Nat) (rest : List Nat)
    (Line Line1 : Int) (Text : List Nat)
    (h : scanSwitch L p c rest Line = .fail Text q Line1) : Text ∈ lexicalCauses := by
  unfold scanSwitch at h
  split at h
  · cases h
  split at h
  · cases rest with
    | nil =>
      simp only [Scan.fail.injEq] at h
      rw [← h.1]; exact mem_causes_eof
    | cons d rest1 =>
      simp only at h
      split at h
      · simp only [Scan.fail.injEq] at h
        rw [← h.1]; exact mem_causes_syntax
      · exact scanInclude_fail L _ _ _ _ _ _ h
  split at h
  · exact scanString_fail L _ rest (le_refl _) _ _ _ _ _ h
  split at h
  · cases rest with
    | nil => cases h
    | cons d rest1 =>
      simp only at h
      split at h
      · exact scanCoordinate_fail _ _ _ _ _ _ _ _ h
      · split at h
        · cases h
        · exact scanCoordinate_fail _ _ _ _ _ _ _ _ h
  split at h
  · cases rest with
    | nil => cases h
    | cons d rest1 =>
      simp only at h
      split at h
      · cases h
      · split at h <;> cases h
  split at h
  · cases rest with
    | nil => cases h
    | cons d rest1 =>
      simp only at h
      split at h <;> cases h
  split at h
  · cases rest with
    | nil => cases h
    | cons d rest1 =>
      simp only at h
      split at h <;> cases h
  split at h
  · exact scanIdentifier_fail L _ _ _ _ _ _ h
  split at h
  · exact scanNumber_fail L _ _ rest (le_refl _) _ _ _ _ _ h
  · cases h

theorem scan_fail (L : Limits) (p q : Payload) (File : List Nat) (Line Line1 : Int)
    (Text : List Nat) (h : scan L p File Line = .fail Text q Line1) :
    Text ∈ lexicalCauses := by
  unfold scan at h
  split at h
  · cases h
  · exact scanSwitch_fail L _ _ _ _ _ _ _ h

theorem open_thrown (L : Limits) (fs : FileSystem) (r s : TReadScriptFile)
    (FileName msg : List Nat) (h : TReadScriptFile.open L fs r FileName = .thrown msg s) :
    (msg = bytes "Recursion depth too high" ∨ msg = bytes "Cannot open script-file") ∧
      s = r := by
  unfold TReadScriptFile.open at h
  simp only at h
  split at h
  · simp only [Result.thrown.injEq] at h
    exact ⟨Or.inl h.1.symm, h.2.symm⟩
  · split at h
    · simp only [Result.thrown.injEq] at h
      exact ⟨Or.inr h.1.symm, h.2.symm⟩
    · cases h

/-- A round of `nextToken` that throws either failed its scan and went through
`error`, or read an include directive that `open` refused. -/
theorem nextTokenRound_thrown (L : Limits) (fs : FileSystem) (r s : TReadScriptFile)
    (msg : List Nat) (h : TReadScriptFile.nextTokenRound L fs r = .thrown msg s) :
    (∃ f below Text p Line, r.Frames = f :: below ∧
        scan L r.toPayload f.File f.Line = .fail Text p Line ∧ Text ∈ lexicalCauses ∧
        msg = snprintf 100 (errorText (baseName f.Filename) Line Text) ∧
        s = { toPayload := p, Frames := [] }) ∨
      ((msg = bytes "Recursion depth too high" ∨ msg = bytes "Cannot open script-file") ∧
        s.Frames.length = r.Frames.length) := by
  unfold TReadScriptFile.nextTokenRound at h
  cases hF : r.Frames with
  | nil => rw [hF] at h; cases h
  | cons f below =>
    rw [hF] at h
    simp only at h
    cases hs : scan L r.toPayload f.File f.Line with
    | eof Line =>
      rw [hs] at h
      simp only at h
      split at h <;> cases h
    | again File Line => rw [hs] at h; cases h
    | incl p File Line =>
      rw [hs] at h
      right
      simp only at h
      cases ho : TReadScriptFile.open L fs
          { toPayload := p, Frames := f.advance File Line :: below } (cstr p.String) with
      | done u r1 => rw [ho] at h; cases h
      | thrown m s1 =>
        rw [ho] at h
        simp only [Result.thrown.injEq] at h
        obtain ⟨hm, hs1⟩ := open_thrown L fs _ _ _ _ ho
        rw [← h.1, ← h.2, hs1]
        exact ⟨hm, by simp⟩
      | abort => rw [ho] at h; cases h
      | stuck => rw [ho] at h; cases h
    | token p File Line => rw [hs] at h; cases h
    | fail Text p Line =>
      rw [hs] at h
      left
      simp only [TReadScriptFile.error, Result.thrown.injEq] at h
      exact ⟨f, below, Text, p, Line, rfl, hs, scan_fail L _ _ _ _ _ _ hs,
        by rw [← h.1]; simp [Frame.advance], by rw [← h.2]⟩

theorem nextTokenLoop_thrown (L : Limits) (fs : FileSystem) : ∀ (fuel : Nat)
    (r s : TReadScriptFile) (msg : List Nat),
    TReadScriptFile.nextTokenLoop L fs fuel r = .thrown msg s →
    ∃ r0, Rounds L fs r r0 ∧ TReadScriptFile.nextTokenRound L fs r0 = .thrown msg s := by
  intro fuel
  induction fuel with
  | zero => intro r s msg h; simp [TReadScriptFile.nextTokenLoop] at h
  | succ fuel ih =>
    intro r s msg h
    unfold TReadScriptFile.nextTokenLoop at h
    cases hr : TReadScriptFile.nextTokenRound L fs r with
    | done b r1 =>
      rw [hr] at h
      cases b with
      | true => cases h
      | false =>
        simp only at h
        obtain ⟨r0, h1, h2⟩ := ih r1 s msg h
        exact ⟨r0, Rounds.next r r1 r0 hr h1, h2⟩
    | thrown m s1 =>
      rw [hr] at h
      simp only [Result.thrown.injEq] at h
      exact ⟨r, Rounds.here r, by rw [hr, h.1, h.2]⟩
    | abort => rw [hr] at h; cases h
    | stuck => rw [hr] at h; cases h

theorem error_thrown {α : Type} (r : TReadScriptFile) (f : Frame) (below : List Frame)
    (hr : r.Frames = f :: below) (Text : List Nat) :
    (TReadScriptFile.error r Text : Result α TReadScriptFile)
      = .thrown (snprintf 100 (errorText (baseName f.Filename) f.Line Text))
          { r with Frames := [] } := by
  simp [TReadScriptFile.error, hr]

/-- C8 (amended). Error contract for a session whose innermost level is `f`:
a typed accessor called on a token of another kind, and `nextToken` whenever
the scan of the then innermost level `f0` fails with one of the lexical
causes, close every level (depth -1) and throw the text
`error in script-file "<base name>", line <line>: <cause>` of that innermost
level, its current line and the cause, cut to the 99 bytes of the message
buffer; the text is whole when name, line and cause take at most 66 bytes. The
only other exceptions of `nextToken` are the two of `open`. -/
theorem error_contract (L : Limits) (fs : FileSystem) (r : TReadScriptFile) (f : Frame)
    (below : List Frame) (hr : r.Frames = f :: below) :
    (∀ Text : List Nat, Text.length + (baseName f.Filename).length + (decimalInt f.Line).length
        ≤ 66 → snprintf 100 (errorText (baseName f.Filename) f.Line Text)
          = errorText (baseName f.Filename) f.Line Text) ∧
    (r.Token ≠ .IDENTIFIER → r.getIdentifier = .thrown
      (snprintf 100 (errorText (baseName f.Filename) f.Line (bytes "identifier expected")))
      { r with Frames := [] }) ∧
    (r.Token ≠ .NUMBER → r.getNumber = .thrown
      (snprintf 100 (errorText (baseName f.Filename) f.Line (bytes "number expected")))
      { r with Frames := [] }) ∧
    (r.Token ≠ .STRING → r.getString = .thrown
      (snprintf 100 (errorText (baseName f.Filename) f.Line (bytes "string expected")))
      { r with Frames := [] }) ∧
    (r.Token ≠ .BYTES → r.getBytesequence L = .thrown
      (snprintf 100 (errorText (baseName f.Filename) f.Line (bytes "byte-sequence expected")))
      { r with Frames := [] }) ∧
    (r.Token ≠ .COORDINATE → r.getCoordinate = .thrown
      (snprintf 100 (errorText (baseName f.Filename) f.Line (bytes "coordinates expected")))
      { r with Frames := [] }) ∧
    (r.Token ≠ .SPECIAL → r.getSpecial = .thrown
      (snprintf 100 (errorText (baseName f.Filename) f.Line (bytes "special-char expected")))
      { r with Frames := [] }) ∧
    (∀ (fuel : Nat) (msg : List Nat) (s : TReadScriptFile),
      TReadScriptFile.nextToken L fs fuel r = .thrown msg s →
      (msg = bytes "Recursion depth too high" ∨ msg = bytes "Cannot open script-file") ∨
      (s.Frames = [] ∧ s.RecursionDepth = -1 ∧
        ∃ (r0 : TReadScriptFile) (f0 : Frame) (below0 : List Frame) (Text : List Nat)
          (p : Payload) (Line : Int),
          Rounds L fs { r with toPayload := r.toPayload.reset } r0 ∧
          r0.Frames = f0 :: below0 ∧
          scan L r0.toPayload f0.File f0.Line = .fail Text p Line ∧
          Text ∈ lexicalCauses ∧
          msg = snprintf 100 (errorText (baseName f0.Filename) Line Text))) := by
  refine ⟨?_, ?_, ?_, ?_, ?_, ?_, ?_, ?_⟩
  · intro Text hlen
    unfold snprintf
    apply List.take_of_length_le
    have h1 : (bytes "error in script-file \"").length = 22 := by decide
    have h2 : (bytes "\", line ").length = 8 := by decide
    have h3 : (bytes ": ").length = 2 := by decide
    simp only [errorText, List.length_append, h1, h2, h3]
    omega
  · intro h
    simp [TReadScriptFile.getIdentifier, h, error_thrown r f below hr]
  · intro h
    simp [TReadScriptFile.getNumber, h, error_thrown r f below hr]
  · intro h
    simp [TReadScriptFile.getString, h, error_thrown r f below hr]
  · intro h
    simp [TReadScriptFile.getBytesequence, h, error_thrown r f below hr]
  · intro h
    simp [TReadScriptFile.getCoordinate, h, error_thrown r f below hr]
  · intro h
    simp [TReadScriptFile.getSpecial, h, error_thrown r f below hr]
  · intro fuel msg s h
    unfold TReadScriptFile.nextToken at h
    simp only [hr, reduceCtorEq, ↓reduceIte] at h
    obtain ⟨r0, hrounds, hround⟩ := nextTokenLoop_thrown L fs fuel _ s msg h
    rcases nextTokenRound_thrown L fs r0 s msg hround with
      ⟨f0, below0, Text, p, Line, h1, h2, h3, h4, h5⟩ | ⟨hm, _⟩
    · right
      refine ⟨by rw [h5], by rw [h5]; simp [TReadScriptFile.RecursionDepth], r0, f0, below0,
        Text, p, Line, ?_, h1, h2, h3, h4⟩
      rw [hr]
      exact hrounds
    · exact Or.inl hm

theorem error_contract_witness :
    (readerOn (bytes "x")).Frames
      = [{ Filename := bytes "dat/in.dat", File := bytes "x", Line := 1 }] ∧
    (readerOn (bytes "x")).Token ≠ .NUMBER ∧
    (readerOn (bytes "x")).getNumber
      = .thrown (bytes "error in script-file \"in.dat\", line 1: number expected")
          { readerOn (bytes "x") with Frames := [] } :=
  ⟨rfl, by decide,
    ((error_contract sampleLimits noFiles (readerOn (bytes "x")) _ [] rfl).2.2.1
      (by decide)).trans (by decide)⟩

/-- C8 (counterexample). In a file whose base name has 100 bytes the message
is cut inside the name: `getNumber` and `getCoordinate` throw the same 99
bytes, which hold neither the line number nor the cause. -/
theorem error_contract_counterexample :
    longNameReader.getNumber
      = .thrown (bytes "error in script-file \"" ++ List.replicate 77 97)
          { longNameReader with Frames := [] } ∧
    longNameReader.getCoordinate
      = .thrown (bytes "error in script-file \"" ++ List.replicate 77 97)
          { longNameReader with Frames := [] } ∧
    errorText (List.replicate 100 97) 3 (bytes "number expected")
      ≠ bytes "error in script-file \"" ++ List.replicate 77 97 := by
  refine ⟨?_, ?_, ?_⟩ <;> decide

theorem nextTokenLoop_again (L : Limits) (fs : FileSystem) (fuel : Nat)
    (r r1 : TReadScriptFile) (h : TReadScriptFile.nextTokenRound L fs r = .done false r1) :
    TReadScriptFile.nextTokenLoop L fs (fuel + 1) r = TReadScriptFile.nextTokenLoop L fs fuel r1 := by
  rw [TReadScriptFile.nextTokenLoop, h]

theorem nextTokenLoop_return (L : Limits) (fs : FileSystem) (fuel : Nat)
    (r r1 : TReadScriptFile) (h : TReadScriptFile.nextTokenRound L fs r = .done true r1) :
    TReadScriptFile.nextTokenLoop L fs (fuel + 1) r = .done () r1 := by
  rw [TReadScriptFile.nextTokenLoop, h]

theorem nextTokenLoop_raise (L : Limits) (fs : FileSystem) (fuel : Nat)
    (r s : TReadScriptFile) (msg : List Nat)
    (h : TReadScriptFile.nextTokenRound L fs r = .thrown msg s) :
    TReadScriptFile.nextTokenLoop L fs (fuel + 1) r = .thrown msg s := by
  rw [TReadScriptFile.nextTokenLoop, h]

theorem nextToken_eq_loop (L : Limits) (fs : FileSystem) (fuel : Nat) (r : TReadScriptFile)
    (h : r.Frames ≠ []) :
    TReadScriptFile.nextToken L fs fuel r
      = TReadScriptFile.nextTokenLoop L fs fuel { r with toPayload := r.toPayload.reset } := by
  simp [TReadScriptFile.nextToken, h]

/-- An error in a twice-nested include closes the three files and names the
innermost one, `c`, at its line 3. -/
theorem nested_include_error :
    TReadScriptFile.nextToken sampleLimits nestedFiles 3 nestedStart = .done () nestedReader ∧
    nestedReader.Frames.length = 3 ∧
    TReadScriptFile.nextToken sampleLimits nestedFiles 1 nestedReader
      = .thrown (bytes "error in script-file \"c\", line 3: syntax error")
          { Token := .NUMBER, String := [], Number := 0, CoordX := 1, CoordY := 0,
            CoordZ := 0, Special := 0, Frames := [] } := by
  refine ⟨?_, by decide, by decide⟩
  rw [nextToken_eq_loop _ _ _ _ (by decide),
    nextTokenLoop_again sampleLimits nestedFiles 2 _
      { Token := .IDENTIFIER, String := [], Number := 0, CoordX := 0, CoordY := 0, CoordZ := 0,
        Special := 0,
        Frames := [{ Filename := bytes "dat/b", File := bytes "\n@\"sub/c\"", Line := 1 },
                   { Filename := bytes "dat/a", File := bytes " y", Line := 1 }] } (by decide),
    nextTokenLoop_again sampleLimits nestedFiles 1 _
      { Token := .IDENTIFIER, String := [], Number := 0, CoordX := 0, CoordY := 0, CoordZ := 0,
        Special := 0,
        Frames := [{ Filename := bytes "dat/sub/c", File := bytes "1\n\n[1,x", Line := 1 },
                   { Filename := bytes "dat/b", File := [], Line := 2 },
                   { Filename := bytes "dat/a", File := bytes " y", Line := 1 }] } (by decide),
    nextTokenLoop_return sampleLimits nestedFiles 0 _ nestedReader (by decide)]

/-! ## Include transparency -/

theorem skipSpace_moved (d : Int) (File : List Nat) : ∀ (Line : Int),
    skipSpace File (Line + d)
      = ((skipSpace File Line).1, (skipSpace File Line).2.1, (skipSpace File Line).2.2 + d) := by
  induction File with
  | nil => intro Line; simp [skipSpace]
  | cons c File ih =>
    intro Line
    by_cases h10 : c = 10
    · subst h10
      have h := ih (Line + 1)
      have e : Line + d + 1 = Line + 1 + d := by ring
      simp only [skipSpace, ↓reduceIte, e, h]
      split <;> rfl
    · simp only [skipSpace, h10, ↓reduceIte, ih Line]
      split <;> rfl

theorem skipComment_moved (d : Int) (File : List Nat) : ∀ (Line : Int),
    skipComment File (Line + d) = ((skipComment File Line).1, (skipComment File Line).2 + d) := by
  induction File with
  | nil => intro Line; simp [skipComment]
  | cons c File ih =>
    intro Line
    by_cases h10 : c = 10
    · subst h10
      simp only [skipComment, ↓reduceIte]
      congr 1
      ring
    · simp only [skipComment, h10, ↓reduceIte, ih Line]

theorem scanInclude_moved (cap : Nat) (t : TOKEN) (d : Int) (Line : Int) (File : List Nat) :
    ∀ (p : Payload), scanInclude cap { p with Token := t } (Line + d) File
      = (scanInclude cap p Line File).moved t d := by
  induction File with
  | nil => intro p; simp [scanInclude, Scan.moved]
  | cons c File ih =>
    intro p
    simp only [scanInclude]
    split
    · simp [Scan.moved]
    · split
      · simp [Scan.moved]
      · exact ih { p with String := p.String ++ [c] }

theorem scanString_moved (cap : Nat) (t : TOKEN) (d : Int) : ∀ (n : Nat) (File : List Nat),
    File.length ≤ n → ∀ (p : Payload) (Line : Int),
    scanString cap { p with Token := t } File (Line + d)
      = (scanString cap p File Line).moved t d := by
  intro n
  induction n with
  | zero =>
    intro File hl p Line
    have : File = [] := List.length_eq_zero.1 (Nat.le_zero.1 hl)
    subst this
    simp [scanString, Scan.moved]
  | succ n ih =>
    intro File hl p Line
    rw [scanString.eq_def, scanString.eq_def cap p]
    cases File with
    | nil => simp [Scan.moved]
    | cons c rest =>
      simp only [List.length_cons] at hl
      simp only
      split
      · cases rest with
        | nil => simp [Scan.moved]
        | cons e rest1 =>
          simp only [List.length_cons] at hl
          simp only
          split
          · simp [Scan.moved]
          · exact ih rest1 (by omega) { p with String := p.String ++ [if e = 110 then 10 else e] }
              Line
      · split
        · split
          · simp only [Scan.moved]
            congr 1
            ring
          · have := ih rest (by omega) { p with String := p.String ++ [c] } (Line + 1)
            have e : Line + d + 1 = Line + 1 + d := by ring
            rw [e]
            exact this
        · split
          · simp [Scan.moved]
          · split
            · simp [Scan.moved]
            · exact ih rest (by omega) { p with String := p.String ++ [c] } Line

theorem scanCoordinate_moved (t : TOKEN) (d : Int) (p : Payload) (Line Sign Coord : Int)
    (rest : List Nat) :
    scanCoordinate { p with Token := t } (Line + d) Sign Coord rest
      = (scanCoordinate p Line Sign Coord rest).moved t d := by
  unfold scanCoordinate
  cases scanCoordDigits 44 rest Coord with
  | error T => simp [Scan.moved]
  | ok vx =>
    obtain ⟨X, rest1⟩ := vx
    simp only
    cases scanCoordComponent 44 rest1 with
    | error T => simp [Scan.moved]
    | ok vy =>
      obtain ⟨Y, rest2⟩ := vy
      simp only
      cases scanCoordComponent 93 rest2 with
      | error T => simp [Scan.moved]
      | ok vz => simp [Scan.moved]

theorem scanIdentifier_moved (cap : Nat) (t : TOKEN) (d : Int) (Line : Int) (File : List Nat) :
    ∀ (p : Payload), scanIdentifier cap { p with Token := t } (Line + d) File
      = (scanIdentifier cap p Line File).moved t d := by
  induction File with
  | nil => intro p; simp [scanIdentifier, Scan.moved]
  | cons c File ih =>
    intro p
    simp only [scanIdentifier]
    split
    · split
      · simp [Scan.moved]
      · exact ih { p with String := p.String ++ [c] }
    · simp [Scan.moved]

theorem scanNumber_moved (cap : Nat) (t : TOKEN) (d : Int) (Line : Int) : ∀ (n : Nat)
    (File : List Nat), File.length ≤ n → ∀ (p : Payload) (Number : Int),
    scanNumber cap { p with Token := t } (Line + d) File Number
      = (scanNumber cap p Line File Number).moved t d := by
  intro n
  induction n with
  | zero =>
    intro File hl p Number
    have : File = [] := List.length_eq_zero.1 (Nat.le_zero.1 hl)
    subst this
    simp only [scanNumber]
    split
    · simp [Scan.moved]
    · split <;> simp [Scan.moved]
  | succ n ih =>
    intro File hl p Number
    rw [scanNumber.eq_def, scanNumber.eq_def cap p]
    cases File with
    | nil =>
      simp only
      split
      · simp [Scan.moved]
      · split <;> simp [Scan.moved]
    | cons c rest =>
      simp only [List.length_cons] at hl
      simp only
      split
      · exact ih rest (by omega) p _
      · split
        · split
          · simp [Scan.moved]
          · cases rest with
            | nil => simp [Scan.moved]
            | cons e rest1 =>
              simp only [List.length_cons] at hl
              simp only
              split
              · simp [Scan.moved]
              · exact ih rest1 (by omega) { p with String := p.String ++ [toUint8 Number] } _
        · split
          · simp [Scan.moved]
          · split <;> simp [Scan.moved]

theorem scanSwitch_moved (L : Limits) (t : TOKEN) (d : Int) (p : Payload) (c : Nat)
    (rest : List Nat) (Line : Int) :
    scanSwitch L { p with Token := t } c rest (Line + d)
      = (scanSwitch L p c rest Line).moved t d := by
  by_cases h35 : c = 35
  · subst h35
    simp only [scanSwitch, ↓reduceIte, skipComment_moved d rest Line, Scan.moved]
  by_cases h64 : c = 64
  · subst h64
    cases rest with
    | nil => simp [scanSwitch, Scan.moved]
    | cons e rest1 =>
      by_cases he : e = 34
      · subst he
        simpa [scanSwitch] using scanInclude_moved L.NSTRING t d Line rest1 p
      · simp [scanSwitch, he, Scan.moved]
  by_cases h34 : c = 34
  · subst h34
    simpa [scanSwitch] using scanString_moved L.NSTRING t d _ rest (le_refl _) p Line
  by_cases h91 : c = 91
  · subst h91
    cases rest with
    | nil => simp [scanSwitch, Scan.moved]
    | cons e rest1 =>
      by_cases hd : isDigit e = true
      · simpa [scanSwitch, hd] using scanCoordinate_moved t d p Line 1 _ rest1
      · by_cases he : e = 45
        · subst he
          simpa [scanSwitch, hd] using scanCoordinate_moved t d p Line (-1) 0 rest1
        · simp [scanSwitch, hd, he, Scan.moved]
  by_cases h60 : c = 60
  · subst h60
    cases rest with
    | nil => simp [scanSwitch, Scan.moved]
    | cons e rest1 =>
      by_cases h1 : e = 61
      · simp [scanSwitch, h1, Scan.moved]
      · by_cases h2 : e = 62
        · simp [scanSwitch, h2, Scan.moved]
        · simp [scanSwitch, h1, h2, Scan.moved]
  by_cases h62 : c = 62
  · subst h62
    cases rest with
    | nil => simp [scanSwitch, Scan.moved]
    | cons e rest1 =>
      by_cases h1 : e = 61
      · simp [scanSwitch, h1, Scan.moved]
      · simp [scanSwitch, h1, Scan.moved]
  by_cases h45 : c = 45
  · subst h45
    cases rest with
    | nil => simp [scanSwitch, Scan.moved]
    | cons e rest1 =>
      by_cases h1 : e = 62
      · simp [scanSwitch, h1, Scan.moved]
      · simp [scanSwitch, h1, Scan.moved]
  by_cases ha : isAlpha c = true
  · simpa [scanSwitch, h35, h64, h34, h91, h60, h62, h45, ha] using
      scanIdentifier_moved L.MAX_IDENT_LENGTH t d Line rest { p with String := [c] }
  by_cases hdg : isDigit c = true
  · simpa [scanSwitch, h35, h64, h34, h91, h60, h62, h45, ha, hdg] using
      scanNumber_moved L.NSTRING t d Line _ rest (le_refl _) p ((c : Int) - 48)
  · simp [scanSwitch, h35, h64, h34, h91, h60, h62, h45, ha, hdg, Scan.moved]

theorem scan_moved (L : Limits) (t : TOKEN) (d : Int) (p : Payload) (File : List Nat)
    (Line : Int) :
    scan L { p with Token := t } File (Line + d) = (scan L p File Line).moved t d := by
  unfold scan
  rw [skipSpace_moved d File Line]
  rcases h : skipSpace File Line with ⟨c, rest, l⟩
  cases c with
  | none => simp [Scan.moved]
  | some c => exact scanSwitch_moved L t d p c rest l


/-- The scan with reset token members is the scan `endsInComment` runs, the
line and the token kind of the previous call apart. -/
theorem scan_of_resetForm (L : Limits) (p : Payload) (hp : ResetForm p) (File : List Nat)
    (Line : Int) :
    scan L p File Line = (scan L closedReader.toPayload File 0).moved p.Token Line := by
  have e : p = { closedReader.toPayload with Token := p.Token } := by
    unfold ResetForm at hp
    rw [hp]
    simp [Payload.reset, closedReader]
  have := scan_moved L p.Token Line closedReader.toPayload File 0
  rw [zero_add, ← e] at this
  exact this

/-- A file that does not end inside a comment: the comment a round finds has
its newline, and what the round leaves does not end inside a comment. -/
theorem EndsOutsideComment.step {L : Limits} {File : List Nat}
    (hc : EndsOutsideComment L File) {p : Payload} (hp : ResetForm p) {Line : Int}
    {F : List Nat}
    (h : ∃ q l, scan L p File Line = .again F l ∨ scan L p File Line = .incl q F l ∨
      scan L p File Line = .token q F l) :
    EndsOutsideComment L F ∧
      ((∃ l, scan L p File Line = .again F l) → 10 ∈ (skipSpace File Line).2.1) := by
  obtain ⟨q, l, h⟩ := h
  rw [scan_of_resetForm L p hp File Line] at h ⊢
  have hrest : (skipSpace File Line).2.1 = (skipSpace File 0).2.1 := by
    have := skipSpace_moved Line File 0
    rw [zero_add] at this
    rw [this]
  rw [hrest]
  cases hs : scan L closedReader.toPayload File 0 with
  | eof l0 => rw [hs] at h; simp [Scan.moved] at h
  | fail T q0 l0 => rw [hs] at h; simp [Scan.moved] at h
  | again F0 l0 =>
    rw [hs] at h
    simp only [Scan.moved, Scan.again.injEq, reduceCtorEq, or_false] at h
    obtain ⟨hF, _⟩ := h
    subst hF
    have h1 := hc 1
    simp only [endsInComment, hs] at h1
    have h10 : 10 ∈ (skipSpace File 0).2.1 := by
      by_contra hn
      rw [if_neg hn] at h1
      cases h1
    refine ⟨?_, fun _ => h10⟩
    intro fuel
    have h2 := hc (fuel + 1)
    simp only [endsInComment, hs, if_pos h10] at h2
    exact h2
  | incl q0 F0 l0 =>
    rw [hs] at h
    simp only [Scan.moved, Scan.incl.injEq, reduceCtorEq, false_or, or_false] at h
    obtain ⟨_, hF, _⟩ := h
    subst hF
    refine ⟨?_, fun hx => ?_⟩
    · intro fuel
      have h2 := hc (fuel + 1)
      simp only [endsInComment, hs] at h2
      exact h2
    · obtain ⟨l1, hx⟩ := hx
      simp [Scan.moved] at hx
  | token q0 F0 l0 =>
    rw [hs] at h
    simp only [Scan.moved, Scan.token.injEq, reduceCtorEq, false_or] at h
    obtain ⟨_, hF, _⟩ := h
    subst hF
    refine ⟨?_, fun hx => ?_⟩
    · intro fuel
      have h2 := hc (fuel + 1)
      simp only [endsInComment, hs] at h2
      exact h2
    · obtain ⟨l1, hx⟩ := hx
      simp [Scan.moved] at hx

theorem skipSpace_some (File : List Nat) : ∀ (Line : Int) (c : Nat) (rest : List Nat) (l : Int),
    skipSpace File Line = (some c, rest, l) →
    (∀ X, skipSpace (File ++ X) Line = (some c, rest ++ X, l)) ∧ rest <:+ File ∧
      (∃ pre, File = pre ++ c :: rest) := by
  induction File with
  | nil => intro Line c rest l h; simp [skipSpace] at h
  | cons a File ih =>
    intro Line c rest l h
    simp only [skipSpace] at h
    split at h
    · obtain ⟨h1, h2, pre, h3⟩ := ih _ c rest l h
      refine ⟨?_, h2.trans (List.suffix_cons a File), a :: pre, by rw [h3]; rfl⟩
      intro X
      simp only [List.cons_append, skipSpace]
      rw [if_pos (by assumption)]
      exact h1 X
    · rename_i hsp
      simp only [Prod.mk.injEq, Option.some.injEq] at h
      obtain ⟨h1, h2, h3⟩ := h
      subst h1 h2 h3
      refine ⟨?_, List.suffix_cons a File, [], rfl⟩
      intro X
      simp only [List.cons_append, skipSpace]
      rw [if_neg hsp]
      rfl

theorem skipSpace_none (File : List Nat) : ∀ (Line : Int) (rest : List Nat) (l : Int),
    skipSpace File Line = (none, rest, l) →
    ∀ X, skipSpace (File ++ X) Line = skipSpace X l := by
  induction File with
  | nil =>
    intro Line rest l h X
    simp only [skipSpace, Prod.mk.injEq, true_and] at h
    rw [← h.2]; rfl
  | cons a File ih =>
    intro Line rest l h X
    simp only [skipSpace] at h
    split at h
    · simp only [List.cons_append, skipSpace]
      rw [if_pos (by assumption)]
      exact ih _ rest l h X
    · simp at h

theorem skipComment_suffix (File : List Nat) : ∀ (Line : Int),
    (skipComment File Line).1 <:+ File := by
  induction File with
  | nil => intro Line; simp [skipComment]
  | cons a File ih =>
    intro Line
    simp only [skipComment]
    split
    · exact List.suffix_cons a File
    · exact (ih Line).trans (List.suffix_cons a File)

theorem skipComment_ext (X : List Nat) (File : List Nat) : ∀ (Line : Int), 10 ∈ File →
    skipComment (File ++ X) Line
      = ((skipComment File Line).1 ++ X, (skipComment File Line).2) := by
  induction File with
  | nil => intro Line h; simp at h
  | cons a File ih =>
    intro Line h
    simp only [List.cons_append, skipComment]
    split
    · rfl
    · rename_i ha
      have : 10 ∈ File := by
        rcases List.mem_cons.1 h with h | h
        · exact absurd h.symm ha
        · exact h
      exact ih Line this

theorem scanInclude_ext (cap : Nat) (X : List Nat) (Line : Int) (File : List Nat) :
    ∀ (p : Payload), (scanInclude cap p Line File).good →
      scanInclude cap p Line (File ++ X) = (scanInclude cap p Line File).extended X ∧
      (scanInclude cap p Line File).rest <:+ File := by
  induction File with
  | nil => intro p h; simp [scanInclude, Scan.good] at h
  | cons c File ih =>
    intro p h
    simp only [scanInclude, List.cons_append] at h ⊢
    split
    · simp [Scan.extended, Scan.rest]
    · rename_i hc
      rw [if_neg hc] at h
      split
      · rename_i hcap
        rw [if_pos hcap] at h
        simp [Scan.good] at h
      · rename_i hcap
        rw [if_neg hcap] at h
        obtain ⟨h1, h2⟩ := ih { p with String := p.String ++ [c] } h
        exact ⟨h1, h2.trans (List.suffix_cons c File)⟩

theorem scanString_cons (cap : Nat) (p : Payload) (c : Nat) (rest : List Nat) (Line : Int) :
    scanString cap p (c :: rest) Line =
      if c = 92 then
        match rest with
        | [] => .fail (bytes "unexpected end of file") p Line
        | esc :: rest1 =>
          if p.String.length ≥ cap - 1 then .fail (bytes "string too long") p Line
          else scanString cap { p with String := p.String ++ [if esc = 110 then 10 else esc] }
            rest1 Line
      else if c = 10 then
        if p.String.length ≥ cap - 1 then .fail (bytes "string too long") p (Line + 1)
        else scanString cap { p with String := p.String ++ [c] } rest (Line + 1)
      else if c = 34 then .token { p with Token := .STRING } rest Line
      else
        if p.String.length ≥ cap - 1 then .fail (bytes "string too long") p Line
        else scanString cap { p with String := p.String ++ [c] } rest Line := by
  rw [scanString.eq_def]

theorem scanString_ext (cap : Nat) (X : List Nat) : ∀ (n : Nat) (File : List Nat),
    File.length ≤ n → ∀ (p : Payload) (Line : Int), (scanString cap p File Line).good →
      scanString cap p (File ++ X) Line = (scanString cap p File Line).extended X ∧
      (scanString cap p File Line).rest <:+ File := by
  intro n
  induction n with
  | zero =>
    intro File hl p Line h
    have : File = [] := List.length_eq_zero.1 (Nat.le_zero.1 hl)
    subst this
    simp [scanString, Scan.good] at h
  | succ n ih =>
    intro File hl p Line h
    cases File with
    | nil => simp [scanString, Scan.good] at h
    | cons c rest =>
      simp only [List.length_cons] at hl
      simp only [List.cons_append, scanString_cons] at h ⊢
      by_cases h92 : c = 92
      · simp only [h92, ↓reduceIte] at h ⊢
        cases rest with
        | nil => simp [Scan.good] at h
        | cons e rest1 =>
          simp only [List.length_cons] at hl
          simp only [List.cons_append] at h ⊢
          by_cases hcap : p.String.length ≥ cap - 1
          · simp only [hcap, ↓reduceIte] at h
            simp [Scan.good] at h
          · simp only [hcap, ↓reduceIte] at h ⊢
            obtain ⟨h1, h2⟩ := ih rest1 (by omega) _ _ h
            exact ⟨h1, h2.trans ((List.suffix_cons e rest1).trans (List.suffix_cons 92 _))⟩
      · simp only [h92, ↓reduceIte] at h ⊢
        by_cases h10 : c = 10
        · simp only [h10, ↓reduceIte] at h ⊢
          by_cases hcap : p.String.length ≥ cap - 1
          · simp only [hcap, ↓reduceIte] at h
            simp [Scan.good] at h
          · simp only [hcap, ↓reduceIte] at h ⊢
            obtain ⟨h1, h2⟩ := ih rest (by omega) _ _ h
            exact ⟨h1, h2.trans (List.suffix_cons _ _)⟩
        · simp only [h10, ↓reduceIte] at h ⊢
          by_cases h34 : c = 34
          · simp only [h34, ↓reduceIte, Scan.extended, Scan.rest, true_and]
            exact List.suffix_cons _ _
          · simp only [h34, ↓reduceIte] at h ⊢
            by_cases hcap : p.String.length ≥ cap - 1
            · simp only [hcap, ↓reduceIte] at h
              simp [Scan.good] at h
            · simp only [hcap, ↓reduceIte] at h ⊢
              obtain ⟨h1, h2⟩ := ih rest (by omega) _ _ h
              exact ⟨h1, h2.trans (List.suffix_cons _ _)⟩

theorem scanCoordDigits_ext (stop : Nat) (X : List Nat) (File : List Nat) :
    ∀ (acc v : Int) (F : List Nat), scanCoordDigits stop File acc = .ok (v, F) →
      scanCoordDigits stop (File ++ X) acc = .ok (v, F ++ X) ∧ F <:+ File := by
  induction File with
  | nil => intro acc v F h; simp [scanCoordDigits] at h
  | cons c File ih =>
    intro acc v F h
    simp only [scanCoordDigits, List.cons_append] at h ⊢
    by_cases hd : isDigit c = true
    · simp only [hd, ↓reduceIte] at h ⊢
      obtain ⟨h1, h2⟩ := ih _ v F h
      exact ⟨h1, h2.trans (List.suffix_cons _ _)⟩
    · simp only [hd] at h ⊢
      by_cases hs : c = stop
      · rw [if_pos hs] at h ⊢
        cases h
        exact ⟨rfl, List.suffix_cons _ _⟩
      · simp [hs] at h

theorem scanCoordComponent_ext (stop : Nat) (X : List Nat) (File : List Nat) (v : Int)
    (F : List Nat) (h : scanCoordComponent stop File = .ok (v, F)) :
    scanCoordComponent stop (File ++ X) = .ok (v, F ++ X) ∧ F <:+ File := by
  cases File with
  | nil => simp [scanCoordComponent] at h
  | cons c rest =>
    simp only [scanCoordComponent, List.cons_append] at h ⊢
    by_cases hd : isDigit c = true
    · simp only [hd, ↓reduceIte] at h ⊢
      cases hx : scanCoordDigits stop rest ((c : Int) - 48) with
      | error T => rw [hx] at h; simp at h
      | ok w =>
        obtain ⟨w1, w2⟩ := w
        rw [hx] at h
        simp only [Except.ok.injEq, Prod.mk.injEq] at h
        obtain ⟨h1, h2⟩ := scanCoordDigits_ext stop X rest _ _ _ hx
        rw [h1]
        simp only [Except.ok.injEq, Prod.mk.injEq]
        exact ⟨⟨h.1, by rw [h.2]⟩, by rw [← h.2]; exact h2.trans (List.suffix_cons _ _)⟩
    · by_cases h45 : c = 45
      · subst h45
        rw [if_neg (by decide)] at h ⊢
        rw [if_neg (by decide)] at h ⊢
        cases hx : scanCoordDigits stop rest 0 with
        | error T => rw [hx] at h; simp at h
        | ok w =>
          obtain ⟨w1, w2⟩ := w
          rw [hx] at h
          simp only [Except.ok.injEq, Prod.mk.injEq] at h
          obtain ⟨h1, h2⟩ := scanCoordDigits_ext stop X rest _ _ _ hx
          rw [h1]
          simp only [Except.ok.injEq, Prod.mk.injEq]
          exact ⟨⟨h.1, by rw [h.2]⟩, by rw [← h.2]; exact h2.trans (List.suffix_cons _ _)⟩
      · simp [hd, h45] at h

theorem scanCoordinate_ext (X : List Nat) (p : Payload) (Line Sign Coord : Int)
    (rest : List Nat) (h : (scanCoordinate p Line Sign Coord rest).good) :
    scanCoordinate p Line Sign Coord (rest ++ X)
        = (scanCoordinate p Line Sign Coord rest).extended X ∧
      (scanCoordinate p Line Sign Coord rest).rest <:+ rest := by
  unfold scanCoordinate at h ⊢
  cases hx : scanCoordDigits 44 rest Coord with
  | error T => rw [hx] at h; simp [Scan.good] at h
  | ok vx =>
    obtain ⟨vX, rest1⟩ := vx
    rw [hx] at h
    obtain ⟨ex, sx⟩ := scanCoordDigits_ext 44 X rest _ _ _ hx
    rw [ex]
    simp only at h ⊢
    cases hy : scanCoordComponent 44 rest1 with
    | error T => rw [hy] at h; simp [Scan.good] at h
    | ok vy =>
      obtain ⟨vY, rest2⟩ := vy
      rw [hy] at h
      obtain ⟨ey, sy⟩ := scanCoordComponent_ext 44 X rest1 _ _ hy
      rw [ey]
      simp only at h ⊢
      cases hz : scanCoordComponent 93 rest2 with
      | error T => rw [hz] at h; simp [Scan.good] at h
      | ok vz =>
        obtain ⟨vZ, rest3⟩ := vz
        obtain ⟨ez, sz⟩ := scanCoordComponent_ext 93 X rest2 _ _ hz
        rw [ez]
        simp only [Scan.extended, Scan.rest, true_and]
        exact sz.trans (sy.trans sx)

theorem scanIdentifier_ext (cap : Nat) (E' : List Nat) (Line : Int) (File : List Nat) :
    ∀ (p : Payload), (scanIdentifier cap p Line File).good →
      scanIdentifier cap p Line (File ++ 64 :: E')
          = (scanIdentifier cap p Line File).extended (64 :: E') ∧
      (scanIdentifier cap p Line File).rest <:+ File := by
  induction File with
  | nil =>
    intro p _
    have h1 : isAlpha 64 = false := by decide
    have h2 : isDigit 64 = false := by decide
    simp [scanIdentifier, Scan.extended, Scan.rest, h1, h2]
  | cons c File ih =>
    intro p h
    simp only [scanIdentifier, List.cons_append] at h ⊢
    by_cases hc : (isAlpha c || isDigit c || decide (c = 95)) = true
    · simp only [hc, ↓reduceIte] at h ⊢
      by_cases hcap : p.String.length ≥ cap - 1
      · simp only [hcap, ↓reduceIte] at h
        simp [Scan.good] at h
      · simp only [hcap, ↓reduceIte] at h ⊢
        obtain ⟨h1, h2⟩ := ih _ h
        exact ⟨h1, h2.trans (List.suffix_cons _ _)⟩
    · simp only [hc, Bool.false_eq_true, ↓reduceIte, Scan.extended, Scan.rest, List.cons_append]
      exact ⟨rfl, List.suffix_refl _⟩

theorem scanNumber_nil (cap : Nat) (p : Payload) (Line : Int) (Number : Int) :
    scanNumber cap p Line [] Number =
      if p.String.length ≤ 0 then .token { p with Token := .NUMBER, Number := Number } [] Line
      else if p.String.length ≥ cap then .fail (bytes "too many bytes") p Line
      else .token { p with Token := .BYTES, String := p.String ++ [toUint8 Number] } [] Line := by
  rw [scanNumber.eq_def]

theorem scanNumber_cons (cap : Nat) (p : Payload) (Line : Int) (c : Nat) (rest : List Nat)
    (Number : Int) :
    scanNumber cap p Line (c :: rest) Number =
      if isDigit c then
        scanNumber cap p Line rest (wrap32 (wrap32 (Number * 10) + ((c : Int) - 48)))
      else if c = 45 then
        if p.String.length ≥ cap then .fail (bytes "too many bytes") p Line
        else
          match rest with
          | [] => .fail (bytes "unexpected end of file")
              { p with String := p.String ++ [toUint8 Number] } Line
          | next1 :: rest1 =>
            if !isDigit next1 then
              .fail (bytes "syntax error") { p with String := p.String ++ [toUint8 Number] } Line
            else scanNumber cap { p with String := p.String ++ [toUint8 Number] } Line rest1
              ((next1 : Int) - 48)
      else
        if p.String.length ≤ 0 then
          .token { p with Token := .NUMBER, Number := Number } (c :: rest) Line
        else if p.String.length ≥ cap then .fail (bytes "too many bytes") p Line
        else
          .token { p with Token := .BYTES, String := p.String ++ [toUint8 Number] }
            (c :: rest) Line := by
  rw [scanNumber.eq_def]

theorem scanNumber_ext (cap : Nat) (E' : List Nat) (Line : Int) : ∀ (n : Nat)
    (File : List Nat), File.length ≤ n → ∀ (p : Payload) (Number : Int),
    (scanNumber cap p Line File Number).good →
      scanNumber cap p Line (File ++ 64 :: E') Number
          = (scanNumber cap p Line File Number).extended (64 :: E') ∧
      (scanNumber cap p Line File Number).rest <:+ File := by
  have hnil : ∀ (p : Payload) (Number : Int), (scanNumber cap p Line [] Number).good →
      scanNumber cap p Line ([] ++ 64 :: E') Number
          = (scanNumber cap p Line [] Number).extended (64 :: E') ∧
      (scanNumber cap p Line [] Number).rest <:+ [] := by
    intro p Number h
    have h1 : isDigit 64 = false := by decide
    simp only [List.nil_append, scanNumber_cons, scanNumber_nil, h1] at h ⊢
    by_cases hz : p.String.length ≤ 0
    · simp [hz, Scan.extended, Scan.rest]
    · simp only [hz, ↓reduceIte] at h ⊢
      by_cases hcap : p.String.length ≥ cap
      · simp only [hcap, ↓reduceIte] at h
        simp [Scan.good] at h
      · simp [hcap, Scan.extended, Scan.rest]
  intro n
  induction n with
  | zero =>
    intro File hl p Number h
    have : File = [] := List.length_eq_zero.1 (Nat.le_zero.1 hl)
    subst this
    exact hnil p Number h
  | succ n ih =>
    intro File hl p Number h
    cases File with
    | nil => exact hnil p Number h
    | cons c rest =>
      simp only [List.length_cons] at hl
      simp only [List.cons_append, scanNumber_cons] at h ⊢
      by_cases hd : isDigit c = true
      · simp only [hd, ↓reduceIte] at h ⊢
        obtain ⟨h1, h2⟩ := ih rest (by omega) _ _ h
        exact ⟨h1, h2.trans (List.suffix_cons _ _)⟩
      · simp only [hd] at h ⊢
        by_cases h45 : c = 45
        · simp only [h45, ↓reduceIte] at h ⊢
          by_cases hcap : p.String.length ≥ cap
          · simp only [hcap, ↓reduceIte] at h
            simp [Scan.good] at h
          · simp only [hcap, ↓reduceIte] at h ⊢
            cases rest with
            | nil => simp [Scan.good] at h
            | cons e rest1 =>
              simp only [List.length_cons] at hl
              simp only [List.cons_append] at h ⊢
              by_cases he : isDigit e = true
              · simp only [he, Bool.not_true, Bool.false_eq_true, ↓reduceIte] at h ⊢
                obtain ⟨h1, h2⟩ := ih rest1 (by omega) _ _ h
                exact ⟨h1, h2.trans ((List.suffix_cons _ _).trans (List.suffix_cons _ _))⟩
              · simp [he, Scan.good] at h
        · simp only [h45, Bool.false_eq_true, ↓reduceIte] at h ⊢
          by_cases hz : p.String.length ≤ 0
          · simp [hz, Scan.extended, Scan.rest]
          · simp only [hz, ↓reduceIte] at h ⊢
            by_cases hcap : p.String.length ≥ cap
            · simp only [hcap, ↓reduceIte] at h
              simp [Scan.good] at h
            · simp [hcap, Scan.extended, Scan.rest]

theorem scanInclude_inclOf (cap : Nat) (Line : Int) (File : List Nat) :
    ∀ (p p0 : Payload), p = { p0 with String := p.String } →
      (scanInclude cap p Line File).inclOf p0 := by
  induction File with
  | nil => intro p p0 _; simp [scanInclude, Scan.inclOf]
  | cons c File ih =>
    intro p p0 hp
    simp only [scanInclude]
    split
    · simpa [Scan.inclOf] using hp
    · split
      · simp [Scan.inclOf]
      · refine ih _ p0 ?_
        rw [hp]

theorem scanString_final (cap : Nat) : ∀ (n : Nat) (File : List Nat), File.length ≤ n →
    ∀ (p : Payload) (Line : Int), (scanString cap p File Line).final := by
  intro n
  induction n with
  | zero =>
    intro File hl p Line
    have : File = [] := List.length_eq_zero.1 (Nat.le_zero.1 hl)
    subst this
    simp [scanString, Scan.final]
  | succ n ih =>
    intro File hl p Line
    cases File with
    | nil => simp [scanString, Scan.final]
    | cons c rest =>
      simp only [List.length_cons] at hl
      rw [scanString_cons]
      split
      · cases rest with
        | nil => simp [Scan.final]
        | cons e rest1 =>
          simp only [List.length_cons] at hl
          simp only
          split
          · simp [Scan.final]
          · exact ih rest1 (by omega) _ _
      · split
        · split
          · simp [Scan.final]
          · exact ih rest (by omega) _ _
        · split
          · simp [Scan.final]
          · split
            · simp [Scan.final]
            · exact ih rest (by omega) _ _

theorem scanCoordinate_final (p : Payload) (Line Sign Coord : Int) (rest : List Nat) :
    (scanCoordinate p Line Sign Coord rest).final := by
  unfold scanCoordinate
  cases scanCoordDigits 44 rest Coord with
  | error T => simp [Scan.final]
  | ok vx =>
    obtain ⟨X, rest1⟩ := vx
    simp only
    cases scanCoordComponent 44 rest1 with
    | error T => simp [Scan.final]
    | ok vy =>
      obtain ⟨Y, rest2⟩ := vy
      simp only
      cases scanCoordComponent 93 rest2 with
      | error T => simp [Scan.final]
      | ok vz => simp [Scan.final]

theorem scanIdentifier_final (cap : Nat) (Line : Int) (File : List Nat) :
    ∀ (p : Payload), (scanIdentifier cap p Line File).final := by
  induction File with
  | nil => intro p; simp [scanIdentifier, Scan.final]
  | cons c File ih =>
    intro p
    simp only [scanIdentifier]
    split
    · split
      · simp [Scan.final]
      · exact ih _
    · simp [Scan.final]

theorem scanNumber_final (cap : Nat) (Line : Int) : ∀ (n : Nat) (File : List Nat),
    File.length ≤ n → ∀ (p : Payload) (Number : Int),
    (scanNumber cap p Line File Number).final := by
  have hnil : ∀ (p : Payload) (Number : Int), (scanNumber cap p Line [] Number).final := by
    intro p Number
    rw [scanNumber_nil]
    split
    · simp [Scan.final]
    · split <;> simp [Scan.final]
  intro n
  induction n with
  | zero =>
    intro File hl p Number
    have : File = [] := List.length_eq_zero.1 (Nat.le_zero.1 hl)
    subst this
    exact hnil p Number
  | succ n ih =>
    intro File hl p Number
    cases File with
    | nil => exact hnil p Number
    | cons c rest =>
      simp only [List.length_cons] at hl
      rw [scanNumber_cons]
      split
      · exact ih rest (by omega) _ _
      · split
        · split
          · simp [Scan.final]
          · cases rest with
            | nil => simp [Scan.final]
            | cons e rest1 =>
              simp only [List.length_cons] at hl
              simp only
              split
              · simp [Scan.final]
              · exact ih rest1 (by omega) _ _
        · split
          · simp [Scan.final]
          · split <;> simp [Scan.final]

/-- Outside a comment and an include directive the switch finds a token or
fails. -/
theorem scanSwitch_final (L : Limits) (p : Payload) (c : Nat) (rest : List Nat) (Line : Int)
    (hc : c ≠ 35) (hi : c ≠ 64) : (scanSwitch L p c rest Line).final := by
  unfold scanSwitch
  rw [if_neg hc, if_neg hi]
  split
  · exact scanString_final _ _ rest (le_refl _) _ _
  split
  · cases rest with
    | nil => simp [Scan.final]
    | cons e rest1 =>
      simp only
      split
      · exact scanCoordinate_final _ _ _ _ _
      · split
        · simp [Scan.final]
        · exact scanCoordinate_final _ _ _ _ _
  split
  · cases rest with
    | nil => simp [Scan.final]
    | cons e rest1 =>
      simp only
      split
      · simp [Scan.final]
      · split <;> simp [Scan.final]
  split
  · cases rest with
    | nil => simp [Scan.final]
    | cons e rest1 =>
      simp only
      split <;> simp [Scan.final]
  split
  · cases rest with
    | nil => simp [Scan.final]
    | cons e rest1 =>
      simp only
      split <;> simp [Scan.final]
  split
  · exact scanIdentifier_final _ _ _ _
  split
  · exact scanNumber_final _ _ _ rest (le_refl _) _ _
  · simp [Scan.final]

/-- At an include directive the switch reads the path or fails. -/
theorem scanSwitch_inclOf (L : Limits) (p : Payload) (rest : List Nat) (Line : Int) :
    (scanSwitch L p 64 rest Line).inclOf p := by
  cases rest with
  | nil => simp [scanSwitch, Scan.inclOf]
  | cons e rest1 =>
    by_cases he : e = 34
    · subst he
      simpa [scanSwitch] using scanInclude_inclOf L.NSTRING Line rest1 p p rfl
    · simp [scanSwitch, he, Scan.inclOf]

/-- What the scan of one round can be, by the first byte after whitespace. -/
theorem scan_cases (L : Limits) (p : Payload) (File : List Nat) (Line : Int) :
    (∃ l, skipSpace File Line = (none, [], l) ∧ scan L p File Line = .eof l) ∨
    (∃ pre rest l0, File = pre ++ 35 :: rest ∧ skipSpace File Line = (some 35, rest, l0) ∧
      scan L p File Line = .again (skipComment rest l0).1 (skipComment rest l0).2) ∨
    (scan L p File Line).inclOf p ∨ (scan L p File Line).final := by
  unfold scan
  rcases hs : skipSpace File Line with ⟨c, rest, l0⟩
  cases c with
  | none =>
    left
    have : rest = [] := by
      have h := skipSpace_none File Line rest l0 hs []
      simp only [List.append_nil, hs, skipSpace] at h
      simpa using congrArg (fun t => t.2.1) h
    subst this
    exact ⟨l0, rfl, rfl⟩
  | some c =>
    simp only
    by_cases hc : c = 35
    · subst hc
      obtain ⟨_, _, pre, hpre⟩ := skipSpace_some File Line 35 rest l0 hs
      right; left
      exact ⟨pre, rest, l0, hpre, rfl, by simp [scanSwitch]⟩
    · by_cases hi : c = 64
      · subst hi
        right; right; left
        exact scanSwitch_inclOf L p rest l0
      · right; right; right
        exact scanSwitch_final L p c rest l0 hc hi

theorem scanSwitch_ext (L : Limits) (E' : List Nat) (p : Payload) (c : Nat) (rest : List Nat)
    (Line : Int) (h : (scanSwitch L p c rest Line).good) :
    scanSwitch L p c (rest ++ 64 :: E') Line
        = (scanSwitch L p c rest Line).extended (64 :: E') ∧
      (scanSwitch L p c rest Line).rest <:+ rest := by
  by_cases h35 : c = 35
  · subst h35
    simp [scanSwitch, Scan.good] at h
  by_cases h64 : c = 64
  · subst h64
    cases rest with
    | nil => simp [scanSwitch, Scan.good] at h
    | cons e rest1 =>
      by_cases he : e = 34
      · subst he
        simp only [scanSwitch, List.cons_append] at h ⊢
        simp only [Nat.reduceEqDiff, ↓reduceIte, ne_eq, not_true_eq_false] at h ⊢
        obtain ⟨h1, h2⟩ := scanInclude_ext L.NSTRING (64 :: E') Line rest1 p h
        exact ⟨h1, h2.trans (List.suffix_cons _ _)⟩
      · simp [scanSwitch, he, Scan.good] at h
  by_cases h34 : c = 34
  · subst h34
    simp only [scanSwitch] at h ⊢
    simp only [Nat.reduceEqDiff, ↓reduceIte] at h ⊢
    exact scanString_ext L.NSTRING (64 :: E') _ rest (le_refl _) p Line h
  by_cases h91 : c = 91
  · subst h91
    cases rest with
    | nil => simp [scanSwitch, Scan.extended, Scan.rest, isDigit]
    | cons e rest1 =>
      simp only [scanSwitch, List.cons_append] at h ⊢
      simp only [Nat.reduceEqDiff, ↓reduceIte] at h ⊢
      by_cases hd : isDigit e = true
      · simp only [hd, ↓reduceIte] at h ⊢
        obtain ⟨h1, h2⟩ := scanCoordinate_ext (64 :: E') p Line 1 _ rest1 h
        exact ⟨h1, h2.trans (List.suffix_cons _ _)⟩
      · by_cases he : e = 45
        · subst he
          simp only [hd, ↓reduceIte, ne_eq, not_true_eq_false] at h ⊢
          obtain ⟨h1, h2⟩ := scanCoordinate_ext (64 :: E') p Line (-1) 0 rest1 h
          exact ⟨h1, h2.trans (List.suffix_cons _ _)⟩
        · simp only [hd, he, ne_eq, not_false_eq_true, ↓reduceIte, Scan.extended, Scan.rest,
            Bool.false_eq_true]
          exact ⟨rfl, List.suffix_refl _⟩
  by_cases h60 : c = 60
  · subst h60
    cases rest with
    | nil => simp [scanSwitch, Scan.extended, Scan.rest]
    | cons e rest1 =>
      by_cases h1 : e = 61
      · simp [scanSwitch, h1, Scan.extended, Scan.rest]
      · by_cases h2 : e = 62
        · simp [scanSwitch, h2, Scan.extended, Scan.rest]
        · simp [scanSwitch, h1, h2, Scan.extended, Scan.rest]
  by_cases h62 : c = 62
  · subst h62
    cases rest with
    | nil => simp [scanSwitch, Scan.extended, Scan.rest]
    | cons e rest1 =>
      by_cases h1 : e = 61
      · simp [scanSwitch, h1, Scan.extended, Scan.rest]
      · simp [scanSwitch, h1, Scan.extended, Scan.rest]
  by_cases h45 : c = 45
  · subst h45
    cases rest with
    | nil => simp [scanSwitch, Scan.extended, Scan.rest]
    | cons e rest1 =>
      by_cases h1 : e = 62
      · simp [scanSwitch, h1, Scan.extended, Scan.rest]
      · simp [scanSwitch, h1, Scan.extended, Scan.rest]
  by_cases ha : isAlpha c = true
  · simp only [scanSwitch, h35, h64, h34, h91, h60, h62, h45, ha, ↓reduceIte] at h ⊢
    exact scanIdentifier_ext L.MAX_IDENT_LENGTH E' Line rest _ h
  by_cases hdg : isDigit c = true
  · simp only [scanSwitch, h35, h64, h34, h91, h60, h62, h45, ha, hdg, ↓reduceIte] at h ⊢
    exact scanNumber_ext L.NSTRING E' Line _ rest (le_refl _) p _ h
  · simp [scanSwitch, h35, h64, h34, h91, h60, h62, h45, ha, hdg, Scan.extended, Scan.rest]

theorem scan_ext_good (L : Limits) (E' : List Nat) (p : Payload) (File : List Nat) (Line : Int)
    (h : (scan L p File Line).good) :
    scan L p (File ++ 64 :: E') Line = (scan L p File Line).extended (64 :: E') ∧
      (scan L p File Line).rest <:+ File := by
  unfold scan at h ⊢
  rcases hs : skipSpace File Line with ⟨c, rest, l⟩
  rw [hs] at h
  cases c with
  | none => simp [Scan.good] at h
  | some c =>
    obtain ⟨h1, h2, _⟩ := skipSpace_some File Line c rest l hs
    rw [h1]
    simp only at h ⊢
    obtain ⟨e1, e2⟩ := scanSwitch_ext L E' p c rest l h
    exact ⟨e1, e2.trans h2⟩

theorem scan_again (L : Limits) (p : Payload) (File : List Nat) (Line : Int) (F : List Nat)
    (l : Int) (h : scan L p File Line = .again F l) :
    ∃ pre rest l0, File = pre ++ 35 :: rest ∧ skipSpace File Line = (some 35, rest, l0) ∧
      skipComment rest l0 = (F, l) := by
  rcases scan_cases L p File Line with ⟨l1, _, h1⟩ | ⟨pre, rest, l0, h1, h2, h3⟩ | h1 | h1
  · rw [h] at h1; cases h1
  · rw [h] at h3
    simp only [Scan.again.injEq] at h3
    exact ⟨pre, rest, l0, h1, h2, Prod.ext h3.1.symm h3.2.symm⟩
  · rw [h] at h1; simp [Scan.inclOf] at h1
  · rw [h] at h1; simp [Scan.final] at h1

theorem scan_again_suffix (L : Limits) (p : Payload) (File : List Nat) (Line : Int)
    (F : List Nat) (l : Int) (h : scan L p File Line = .again F l) : F <:+ File := by
  obtain ⟨pre, rest, l0, h1, _, h3⟩ := scan_again L p File Line F l h
  have := skipComment_suffix rest l0
  rw [h3] at this
  rw [h1]
  exact this.trans ((List.suffix_cons _ _).trans (List.suffix_append _ _))

theorem scan_ext_again (L : Limits) (E' : List Nat) (p : Payload) (File : List Nat)
    (Line : Int) (F : List Nat) (l : Int) (h : scan L p File Line = .again F l)
    (hp : ResetForm p) (hc : EndsOutsideComment L File) :
    scan L p (File ++ 64 :: E') Line = .again (F ++ 64 :: E') l := by
  obtain ⟨pre, rest, l0, h1, h2, h3⟩ := scan_again L p File Line F l h
  have h10 : 10 ∈ rest := by
    have := (hc.step hp ⟨p, l, Or.inl h⟩).2 ⟨l, h⟩
    rw [h2] at this
    exact this
  obtain ⟨e1, _, _⟩ := skipSpace_some File Line 35 rest l0 h2
  unfold scan
  rw [e1]
  simp only [scanSwitch, ↓reduceIte, skipComment_ext (64 :: E') rest l0 h10, h3]

theorem scan_eof (L : Limits) (p : Payload) (File : List Nat) (Line l : Int)
    (h : scan L p File Line = .eof l) :
    ∀ (X : List Nat) (q : Payload), scan L q (File ++ X) Line = scan L q X l := by
  rcases scan_cases L p File Line with ⟨l1, h0, h1⟩ | ⟨pre, rest, l0, _, _, h3⟩ | h1 | h1
  · rw [h] at h1
    simp only [Scan.eof.injEq] at h1
    subst h1
    intro X q
    unfold scan
    rw [skipSpace_none File Line [] l h0 X]
  · rw [h] at h3; cases h3
  · rw [h] at h1; simp [Scan.inclOf] at h1
  · rw [h] at h1; simp [Scan.final] at h1

theorem scan_token_kind (L : Limits) (p q : Payload) (File F : List Nat) (Line l : Int)
    (h : scan L p File Line = .token q F l) : q.Token ≠ .ENDOFFILE := by
  rcases scan_cases L p File Line with ⟨l1, _, h1⟩ | ⟨pre, rest, l0, _, _, h3⟩ | h1 | h1
  · rw [h] at h1; cases h1
  · rw [h] at h3; cases h3
  · rw [h] at h1; simp [Scan.inclOf] at h1
  · rw [h] at h1; exact h1

theorem scan_incl_payload (L : Limits) (p q : Payload) (File F : List Nat) (Line l : Int)
    (h : scan L p File Line = .incl q F l) : q = { p with String := q.String } := by
  rcases scan_cases L p File Line with ⟨l1, _, h1⟩ | ⟨pre, rest, l0, _, _, h3⟩ | h1 | h1
  · rw [h] at h1; cases h1
  · rw [h] at h3; cases h3
  · rw [h] at h1; exact h1
  · rw [h] at h1; simp [Scan.final] at h1

theorem scan_limits (L1 L2 : Limits) (h1 : L2.NSTRING = L1.NSTRING)
    (h2 : L2.MAX_IDENT_LENGTH = L1.MAX_IDENT_LENGTH) (p : Payload) (File : List Nat)
    (Line : Int) : scan L2 p File Line = scan L1 p File Line := by
  simp only [scan, scanSwitch, h1, h2]

theorem FramesRel.ne_nil {L1 : Limits} {E : List Nat} {B : List Frame} {name : List Nat}
    {F F' : List Frame} (h : FramesRel L1 E B name F F') : F ≠ [] ∧ F' ≠ [] := by
  cases h <;> simp

theorem FramesRel.length {L1 : Limits} {E : List Nat} {B : List Frame} {name : List Nat}
    {F F' : List Frame} (h : FramesRel L1 E B name F F') : F'.length = F.length + B.length := by
  induction h with
  | bottom g g' _ _ _ _ => simp; omega
  | above f f' F F' _ _ _ ih => simp [ih]; omega

theorem Scan.extended_nil (R : Scan) : R.extended [] = R := by
  cases R <;> simp [Scan.extended]

/-- The scan of related top levels: the second finds what the first finds. -/
theorem scan_rel (L1 L2 : Limits) (h1 : L2.NSTRING = L1.NSTRING)
    (h2 : L2.MAX_IDENT_LENGTH = L1.MAX_IDENT_LENGTH) (px py : Payload)
    (hp : PayloadRel px py) (hpx : ResetForm px) (f f' : Frame) (Etop : List Nat)
    (hfile : f'.File = f.File ++ Etop)
    (hE : Etop = [] ∨ ((∃ E', Etop = 64 :: E') ∧ EndsOutsideComment L1 f.File))
    (hR : (scan L1 px f.File f.Line).good ∨ (∃ F l, scan L1 px f.File f.Line = .again F l) ∨
      ((∃ l, scan L1 px f.File f.Line = .eof l) ∧ Etop = [])) :
    scan L2 py f'.File f'.Line
      = ((scan L1 px f.File f.Line).extended Etop).moved py.Token (f'.Line - f.Line) := by
  unfold PayloadRel at hp
  have hline : f'.Line = f.Line + (f'.Line - f.Line) := by ring
  rw [scan_limits L1 L2 h1 h2, hp, hfile]
  conv => lhs; rw [hline]
  rw [scan_moved]
  congr 1
  rcases hE with hE | ⟨⟨E', hE'⟩, hc⟩
  · subst hE
    rw [List.append_nil, Scan.extended_nil]
  · subst hE'
    rcases hR with hg | ⟨F, l, ha⟩ | ⟨_, he⟩
    · exact (scan_ext_good L1 E' px f.File f.Line hg).1
    · rw [scan_ext_again L1 E' px f.File f.Line F l ha hpx hc, ha]
      rfl
    · simp at he

theorem round_eq (L : Limits) (fs : FileSystem) (r : TReadScriptFile) (f : Frame)
    (below : List Frame) (hr : r.Frames = f :: below) :
    TReadScriptFile.nextTokenRound L fs r =
      match scan L r.toPayload f.File f.Line with
      | .eof Line =>
        if below = [] then
          .done true { r with Token := .ENDOFFILE, Frames := [f.advance [] Line] }
        else
          .done false (TReadScriptFile.close { r with Frames := f.advance [] Line :: below })
      | .again File Line => .done false { r with Frames := f.advance File Line :: below }
      | .incl p File Line =>
        match TReadScriptFile.open L fs
            { toPayload := p, Frames := f.advance File Line :: below } (cstr p.String) with
        | .done _ r1 => .done false { r1 with String := [] }
        | .thrown msg r1 => .thrown msg r1
        | .abort => .abort
        | .stuck => .stuck
      | .token p File Line =>
        .done true { toPayload := p, Frames := f.advance File Line :: below }
      | .fail Text p Line =>
        TReadScriptFile.error { toPayload := p, Frames := f.advance f.File Line :: below }
          Text := by
  simp only [TReadScriptFile.nextTokenRound, hr]

theorem open_done (L : Limits) (fs : FileSystem) (r r1 : TReadScriptFile) (FileName : List Nat)
    (u : Unit) (h : TReadScriptFile.open L fs r FileName = .done u r1) :
    ¬ (r.Frames.length + 1 ≥ L.NFILE) ∧ ∃ content,
      fs (resolvePath r.Frames FileName) = some content ∧
      r1 = { r with Frames := Frame.mk (resolvePath r.Frames FileName) content 1 :: r.Frames } := by
  unfold TReadScriptFile.open at h
  simp only at h
  by_cases hd : r.Frames.length + 1 ≥ L.NFILE
  · rw [if_pos hd] at h; cases h
  · rw [if_neg hd] at h
    refine ⟨hd, ?_⟩
    cases hf : fs (resolvePath r.Frames FileName) with
    | none => rw [hf] at h; cases h
    | some content =>
      rw [hf] at h
      simp only [Result.done.injEq, true_and] at h
      exact ⟨content, rfl, h.symm⟩

theorem open_of (L : Limits) (fs : FileSystem) (r : TReadScriptFile) (FileName : List Nat)
    (content : List Nat) (hd : ¬ (r.Frames.length + 1 ≥ L.NFILE))
    (hf : fs (resolvePath r.Frames FileName) = some content) :
    TReadScriptFile.open L fs r FileName = .done ()
      { r with Frames := Frame.mk (resolvePath r.Frames FileName) content 1 :: r.Frames } := by
  unfold TReadScriptFile.open
  simp only [hd, ↓reduceIte, hf]

theorem resolvePath_head (f f' : Frame) (F F' : List Frame) (FileName : List Nat)
    (h : f'.Filename = f.Filename) :
    resolvePath (f' :: F') FileName = resolvePath (f :: F) FileName := by
  simp only [resolvePath, h]

/-- One round on related sessions whose top levels are `ft` and `ft'`. -/
theorem round_sim_core (L1 L2 : Limits) (fs : FileSystem) (E : List Nat) (B : List Frame)
    (name : List Nat) (hL : L2.NFILE = L1.NFILE + B.length) (h1 : L2.NSTRING = L1.NSTRING)
    (h2 : L2.MAX_IDENT_LENGTH = L1.MAX_IDENT_LENGTH) (x y : TReadScriptFile)
    (ft ft' : Frame) (Fx Fy : List Frame) (Etop : List Nat)
    (hx : x.Frames = ft :: Fx) (hy : y.Frames = ft' :: Fy)
    (hname : ft'.Filename = ft.Filename) (hfile : ft'.File = ft.File ++ Etop)
    (hEtop : Etop = [] ∨ ((∃ E', Etop = 64 :: E') ∧ EndsOutsideComment L1 ft.File))
    (hbelow : Fx ≠ [] → Etop = [] ∧ FramesRel L1 E B name Fx Fy)
    (hlen : Fy.length = Fx.length + B.length)
    (hp : PayloadRel x.toPayload y.toPayload) (hstr : ResetForm x.toPayload)
    (hframes : ∀ (File1 : List Nat) (l l1 : Int),
      (∃ q l0, scan L1 x.toPayload ft.File ft.Line = .again File1 l0 ∨
        scan L1 x.toPayload ft.File ft.Line = .incl q File1 l0 ∨
        scan L1 x.toPayload ft.File ft.Line = .token q File1 l0) →
      FramesRel L1 E B name (ft.advance File1 l :: Fx) (ft'.advance (File1 ++ Etop) l1 :: Fy)) :
    (∀ x1, TReadScriptFile.nextTokenRound L1 fs x = .done false x1 →
      ∃ y1, TReadScriptFile.nextTokenRound L2 fs y = .done false y1 ∧ SessRel L1 E B name x1 y1) ∧
    (∀ x1, TReadScriptFile.nextTokenRound L1 fs x = .done true x1 → x1.Token ≠ .ENDOFFILE →
      ∃ y1, TReadScriptFile.nextTokenRound L2 fs y = .done true y1 ∧
        FramesRel L1 E B name x1.Frames y1.Frames ∧ y1.toPayload = x1.toPayload) := by
  have hrel := scan_rel L1 L2 h1 h2 x.toPayload y.toPayload hp hstr ft ft' Etop hfile hEtop
  rw [round_eq L1 fs x ft Fx hx, round_eq L2 fs y ft' Fy hy]
  cases hs : scan L1 x.toPayload ft.File ft.Line with
  | eof l =>
    rw [hs] at hrel
    constructor
    · intro x1 hx1
      by_cases hF : Fx = []
      · simp [hF] at hx1
      · obtain ⟨hE0, hFr⟩ := hbelow hF
        have hy' := hrel (Or.inr (Or.inr ⟨⟨l, rfl⟩, hE0⟩))
        have hFy : Fy ≠ [] := hFr.ne_nil.2
        simp only [hF, ↓reduceIte, Result.done.injEq, true_and] at hx1
        rw [hy']
        simp only [Scan.extended, Scan.moved, hFy, ↓reduceIte]
        refine ⟨_, rfl, ?_⟩
        rw [← hx1]
        exact ⟨by simpa [TReadScriptFile.close] using hFr,
          by simpa [TReadScriptFile.close] using hp,
          by simpa [TReadScriptFile.close] using hstr⟩
    · intro x1 hx1 hne
      by_cases hF : Fx = []
      · simp only [hF, ↓reduceIte, Result.done.injEq, true_and] at hx1
        rw [← hx1] at hne
        simp at hne
      · simp [hF] at hx1
  | again File1 l =>
    rw [hs] at hrel
    have hy' := hrel (Or.inr (Or.inl ⟨File1, l, rfl⟩))
    have hsuf : ∃ q l0, scan L1 x.toPayload ft.File ft.Line = .again File1 l0 ∨
        scan L1 x.toPayload ft.File ft.Line = .incl q File1 l0 ∨
        scan L1 x.toPayload ft.File ft.Line = .token q File1 l0 :=
      ⟨x.toPayload, l, Or.inl hs⟩
    rw [hy']
    simp only [Scan.extended, Scan.moved]
    constructor
    · intro x1 hx1
      simp only [Result.done.injEq, true_and] at hx1
      refine ⟨_, rfl, ?_⟩
      rw [← hx1]
      exact ⟨hframes File1 l _ hsuf, hp, hstr⟩
    · intro x1 hx1
      simp at hx1
  | incl p File1 l =>
    rw [hs] at hrel
    have hg : (Scan.incl p File1 l).good := by simp [Scan.good]
    have hy' := hrel (Or.inl hg)
    have hsuf : ∃ q l0, scan L1 x.toPayload ft.File ft.Line = .again File1 l0 ∨
        scan L1 x.toPayload ft.File ft.Line = .incl q File1 l0 ∨
        scan L1 x.toPayload ft.File ft.Line = .token q File1 l0 :=
      ⟨p, l, Or.inr (Or.inl hs)⟩
    rw [hy']
    simp only [Scan.extended, Scan.moved]
    constructor
    · intro x1 hx1
      cases ho : TReadScriptFile.open L1 fs
          { toPayload := p, Frames := ft.advance File1 l :: Fx } (cstr p.String) with
      | done u r1 =>
        rw [ho] at hx1
        simp only [Result.done.injEq, true_and] at hx1
        obtain ⟨hd, content, hfs, hr1⟩ := open_done L1 fs _ _ _ _ ho
        simp only at hd hfs hr1
        have hres : resolvePath (ft'.advance (File1 ++ Etop) (l + (ft'.Line - ft.Line)) :: Fy)
            (cstr p.String) = resolvePath (ft.advance File1 l :: Fx) (cstr p.String) :=
          resolvePath_head _ _ _ _ _ (by simpa [Frame.advance] using hname)
        have hd2 : ¬ ((ft'.advance (File1 ++ Etop) (l + (ft'.Line - ft.Line)) :: Fy).length + 1
            ≥ L2.NFILE) := by
          simp only [List.length_cons] at hd ⊢
          omega
        rw [open_of L2 fs _ _ content hd2 (by simpa [hres] using hfs)]
        refine ⟨_, rfl, ?_⟩
        rw [← hx1, hr1]
        refine ⟨?_, ?_, ?_⟩
        · simp only [hres]
          exact FramesRel.above _ _ _ _ rfl rfl (hframes File1 l _ hsuf)
        · simp [PayloadRel]
        · have hq := scan_incl_payload L1 _ _ _ _ _ _ hs
          unfold ResetForm at hstr ⊢
          rw [hq, hstr]
          simp [Payload.reset]
      | thrown m s => rw [ho] at hx1; cases hx1
      | abort => rw [ho] at hx1; cases hx1
      | stuck => rw [ho] at hx1; cases hx1
    · intro x1 hx1
      cases ho : TReadScriptFile.open L1 fs
          { toPayload := p, Frames := ft.advance File1 l :: Fx } (cstr p.String) with
      | done u r1 => rw [ho] at hx1; simp at hx1
      | thrown m s => rw [ho] at hx1; cases hx1
      | abort => rw [ho] at hx1; cases hx1
      | stuck => rw [ho] at hx1; cases hx1
  | token q File1 l =>
    rw [hs] at hrel
    have hg : (Scan.token q File1 l).good := by simp [Scan.good]
    have hy' := hrel (Or.inl hg)
    have hsuf : ∃ q0 l0, scan L1 x.toPayload ft.File ft.Line = .again File1 l0 ∨
        scan L1 x.toPayload ft.File ft.Line = .incl q0 File1 l0 ∨
        scan L1 x.toPayload ft.File ft.Line = .token q0 File1 l0 :=
      ⟨q, l, Or.inr (Or.inr hs)⟩
    rw [hy']
    simp only [Scan.extended, Scan.moved]
    constructor
    · intro x1 hx1
      simp at hx1
    · intro x1 hx1 _
      simp only [Result.done.injEq, true_and] at hx1
      refine ⟨_, rfl, ?_⟩
      rw [← hx1]
      exact ⟨hframes File1 l _ hsuf, rfl⟩
  | fail Text q l =>
    constructor
    · intro x1 hx1
      simp only [TReadScriptFile.error] at hx1
      cases hx1
    · intro x1 hx1
      simp only [TReadScriptFile.error] at hx1
      cases hx1

theorem round_sim (L1 L2 : Limits) (fs : FileSystem) (E : List Nat) (B : List Frame)
    (name : List Nat) (hL : L2.NFILE = L1.NFILE + B.length) (h1 : L2.NSTRING = L1.NSTRING)
    (h2 : L2.MAX_IDENT_LENGTH = L1.MAX_IDENT_LENGTH) (hE : E = [] ∨ ∃ E', E = 64 :: E')
    (x y : TReadScriptFile) (hrel : SessRel L1 E B name x y) :
    (∀ x1, TReadScriptFile.nextTokenRound L1 fs x = .done false x1 →
      ∃ y1, TReadScriptFile.nextTokenRound L2 fs y = .done false y1 ∧ SessRel L1 E B name x1 y1) ∧
    (∀ x1, TReadScriptFile.nextTokenRound L1 fs x = .done true x1 → x1.Token ≠ .ENDOFFILE →
      ∃ y1, TReadScriptFile.nextTokenRound L2 fs y = .done true y1 ∧
        FramesRel L1 E B name x1.Frames y1.Frames ∧ y1.toPayload = x1.toPayload) := by
  obtain ⟨hF, hp, hstr⟩ := hrel
  cases hFr : x.Frames with
  | nil => rw [hFr] at hF; cases hF
  | cons ft Fx =>
    cases hFy : y.Frames with
    | nil => rw [hFy] at hF; exact absurd rfl hF.ne_nil.2
    | cons ft' Fy =>
      rw [hFr, hFy] at hF
      cases hF with
      | bottom g g' hg hg' hfile hc =>
        refine round_sim_core L1 L2 fs E B name hL h1 h2 x y ft ft' [] B E hFr hFy
          (by rw [hg, hg']) hfile ?_ (fun h => absurd rfl h) (by simp) hp hstr ?_
        · rcases hE with hE | hE
          · exact Or.inl hE
          · refine Or.inr ⟨hE, hc ?_⟩
            obtain ⟨E', hE'⟩ := hE
            rw [hE']; simp
        · intro File1 l l1 hsuf
          exact FramesRel.bottom _ _ (by simpa [Frame.advance] using hg)
            (by simpa [Frame.advance] using hg') (by simp [Frame.advance])
            (fun hne => ((hc hne).step hstr hsuf).1)
      | above f f' F F' hn hf hrest =>
        refine round_sim_core L1 L2 fs E B name hL h1 h2 x y ft ft' Fx Fy [] hFr hFy hn
          (by simpa using hf) (Or.inl rfl) (fun _ => ⟨rfl, hrest⟩) hrest.length hp hstr ?_
        intro File1 l l1 _
        exact FramesRel.above _ _ _ _ (by simpa [Frame.advance] using hn)
          (by simp [Frame.advance]) hrest

/-- A round that returns ENDOFFILE found the end of the only open file. -/
theorem round_eof (L : Limits) (fs : FileSystem) (x x1 : TReadScriptFile)
    (h : TReadScriptFile.nextTokenRound L fs x = .done true x1) (he : x1.Token = .ENDOFFILE) :
    ∃ g l, x.Frames = [g] ∧ scan L x.toPayload g.File g.Line = .eof l ∧
      x1 = { x with Token := .ENDOFFILE, Frames := [g.advance [] l] } := by
  cases hFr : x.Frames with
  | nil => simp [TReadScriptFile.nextTokenRound, hFr] at h
  | cons f below =>
    rw [round_eq L fs x f below hFr] at h
    cases hs : scan L x.toPayload f.File f.Line with
    | eof l =>
      rw [hs] at h
      by_cases hb : below = []
      · subst hb
        simp only [↓reduceIte, Result.done.injEq, true_and] at h
        exact ⟨f, l, rfl, hs, h.symm⟩
      · simp [hb] at h
    | again File1 l => rw [hs] at h; simp at h
    | incl p File1 l =>
      rw [hs] at h
      simp only at h
      cases ho : TReadScriptFile.open L fs
          { toPayload := p, Frames := f.advance File1 l :: below } (cstr p.String) with
      | done u r1 => rw [ho] at h; simp at h
      | thrown m s => rw [ho] at h; cases h
      | abort => rw [ho] at h; cases h
      | stuck => rw [ho] at h; cases h
    | token q File1 l =>
      rw [hs] at h
      simp only [Result.done.injEq, true_and] at h
      have := scan_token_kind L _ _ _ _ _ _ hs
      rw [← h] at he
      exact absurd he this
    | fail Text q l =>
      rw [hs] at h
      simp only [TReadScriptFile.error] at h
      cases h

theorem rounds_sim (L1 L2 : Limits) (fs : FileSystem) (E : List Nat) (B : List Frame)
    (name : List Nat) (hL : L2.NFILE = L1.NFILE + B.length) (h1 : L2.NSTRING = L1.NSTRING)
    (h2 : L2.MAX_IDENT_LENGTH = L1.MAX_IDENT_LENGTH) (hE : E = [] ∨ ∃ E', E = 64 :: E')
    (x x0 : TReadScriptFile) (hr : Rounds L1 fs x x0) :
    ∀ y, SessRel L1 E B name x y → ∃ y0, Rounds L2 fs y y0 ∧ SessRel L1 E B name x0 y0 := by
  induction hr with
  | here r => intro y hy; exact ⟨y, Rounds.here y, hy⟩
  | next r r1 r2 hstep _ ih =>
    intro y hy
    obtain ⟨y1, hy1, hrel1⟩ := (round_sim L1 L2 fs E B name hL h1 h2 hE r y hy).1 r1 hstep
    obtain ⟨y0, hy0, hrel0⟩ := ih y1 hrel1
    exact ⟨y0, Rounds.next y y1 y0 hy1 hy0, hrel0⟩

theorem Rounds.trans {L : Limits} {fs : FileSystem} {a b c : TReadScriptFile}
    (h1 : Rounds L fs a b) (h2 : Rounds L fs b c) : Rounds L fs a c := by
  induction h1 with
  | here r => exact h2
  | next r r1 r2 hstep _ ih => exact Rounds.next r r1 c hstep (ih h2)

theorem Completes.prependRounds {L : Limits} {fs : FileSystem} {a b r1 : TReadScriptFile}
    (h1 : Rounds L fs a b) (h2 : Completes L fs b r1) : Completes L fs a r1 := by
  obtain ⟨r0, h3, h4⟩ := h2
  exact ⟨r0, h1.trans h3, h4⟩

theorem LexesLoop.afterRounds {L : Limits} {fs : FileSystem} {a b rEnd : TReadScriptFile}
    {ts : List Payload} (h1 : Rounds L fs a b) (h2 : LexesLoop L fs b ts rEnd) :
    LexesLoop L fs a ts rEnd := by
  cases h2 with
  | eof _ r1 hc he => exact LexesLoop.eof a rEnd (Completes.prependRounds h1 hc) he
  | token _ r1 _ ts' hc hne hrest =>
    exact LexesLoop.token a r1 rEnd ts' (Completes.prependRounds h1 hc) hne hrest

/-- The tokens of the first session are read by the second; where the first
finds the end of its outermost file, the second stands before the bytes `E`
and goes on as `K` says. -/
theorem lexesLoop_sim (L1 L2 : Limits) (fs : FileSystem) (E : List Nat) (B : List Frame)
    (name : List Nat) (hL : L2.NFILE = L1.NFILE + B.length) (h1 : L2.NSTRING = L1.NSTRING)
    (h2 : L2.MAX_IDENT_LENGTH = L1.MAX_IDENT_LENGTH) (hE : E = [] ∨ ∃ E', E = 64 :: E')
    (ts2 : List Payload) (Q : TReadScriptFile → Prop)
    (K : ∀ (y0 : TReadScriptFile) (g' : Frame) (l2 : Int),
      y0.Frames = g' :: B → g'.Filename = name →
      scan L2 y0.toPayload g'.File g'.Line = scan L2 y0.toPayload E l2 →
      ResetForm y0.toPayload → ∃ rEnd, LexesLoop L2 fs y0 ts2 rEnd ∧ Q rEnd)
    (x xe : TReadScriptFile) (ts : List Payload) (hlex : LexesLoop L1 fs x ts xe) :
    ∀ y, SessRel L1 E B name x y → ∃ rEnd, LexesLoop L2 fs y (ts ++ ts2) rEnd ∧ Q rEnd := by
  induction hlex with
  | eof r r1 hc he =>
    intro y hy
    obtain ⟨x0, hr0, hround⟩ := hc
    obtain ⟨y0, hy0, hrel0⟩ := rounds_sim L1 L2 fs E B name hL h1 h2 hE r x0 hr0 y hy
    obtain ⟨g, l, hg, hscan, _⟩ := round_eof L1 fs x0 r1 hround he
    obtain ⟨hF, hp, hstr⟩ := hrel0
    rw [hg] at hF
    have hys : ResetForm y0.toPayload := by
      unfold PayloadRel at hp
      unfold ResetForm at hstr ⊢
      rw [hp, hstr]
      simp [Payload.reset]
    generalize hyF : y0.Frames = Fy at hF
    cases hF with
    | bottom _ g' hn hn' hfile _ =>
      have hline : g'.Line = g.Line + (g'.Line - g.Line) := by ring
      have hs0 : scan L2 y0.toPayload g'.File g'.Line
          = scan L2 y0.toPayload E (l + (g'.Line - g.Line)) := by
        unfold PayloadRel at hp
        rw [scan_limits L1 L2 h1 h2, scan_limits L1 L2 h1 h2, hp, hfile]
        conv => lhs; rw [hline]
        rw [scan_moved, scan_moved, scan_eof L1 _ _ _ _ hscan E x0.toPayload]
      obtain ⟨rEnd, hlex, hQ⟩ := K y0 g' _ hyF hn' hs0 hys
      exact ⟨rEnd, LexesLoop.afterRounds hy0 hlex, hQ⟩
    | above f f' F F' _ _ hrest => exact absurd rfl hrest.ne_nil.1
  | token r r1 r2 ts' hc hne _ ih =>
    intro y hy
    obtain ⟨x0, hr0, hround⟩ := hc
    obtain ⟨y0, hy0, hrel0⟩ := rounds_sim L1 L2 fs E B name hL h1 h2 hE r x0 hr0 y hy
    obtain ⟨y1, hy1, hF1, hp1⟩ :=
      (round_sim L1 L2 fs E B name hL h1 h2 hE x0 y0 hrel0).2 r1 hround hne
    have hrel1 : SessRel L1 E B name r1.restart y1.restart := by
      refine ⟨by simpa [TReadScriptFile.restart] using hF1, ?_, ?_⟩
      · simp [TReadScriptFile.restart, PayloadRel, hp1]
      · simp [TReadScriptFile.restart, Payload.reset, ResetForm]
    obtain ⟨rEnd, hlex, hQ⟩ := ih y1.restart hrel1
    refine ⟨rEnd, ?_, hQ⟩
    rw [← hp1]
    exact LexesLoop.token y y1 rEnd (ts' ++ ts2) ⟨y0, hy0, hy1⟩ (by rw [hp1]; exact hne) hlex

theorem loop_done (L : Limits) (fs : FileSystem) : ∀ (fuel : Nat) (r r1 : TReadScriptFile),
    TReadScriptFile.nextTokenLoop L fs fuel r = .done () r1 → Completes L fs r r1 := by
  intro fuel
  induction fuel with
  | zero => intro r r1 h; simp [TReadScriptFile.nextTokenLoop] at h
  | succ fuel ih =>
    intro r r1 h
    unfold TReadScriptFile.nextTokenLoop at h
    cases hr : TReadScriptFile.nextTokenRound L fs r with
    | done b r2 =>
      rw [hr] at h
      cases b with
      | true =>
        simp only [Result.done.injEq, true_and] at h
        subst h
        exact ⟨r, Rounds.here r, hr⟩
      | false =>
        simp only at h
        exact Completes.prependRounds (Rounds.next r r2 r2 hr (Rounds.here r2)) (ih r2 r1 h)
    | thrown m s => rw [hr] at h; cases h
    | abort => rw [hr] at h; cases h
    | stuck => rw [hr] at h; cases h

theorem completes_loop (L : Limits) (fs : FileSystem) (r r0 r1 : TReadScriptFile)
    (hr : Rounds L fs r r0) (h : TReadScriptFile.nextTokenRound L fs r0 = .done true r1) :
    ∃ fuel, TReadScriptFile.nextTokenLoop L fs fuel r = .done () r1 := by
  induction hr with
  | here r => exact ⟨1, nextTokenLoop_return L fs 0 r r1 h⟩
  | next r r2 r3 hstep _ ih =>
    obtain ⟨fuel, hf⟩ := ih h
    exact ⟨fuel + 1, by rw [nextTokenLoop_again L fs fuel r r2 hstep]; exact hf⟩

theorem round_frames (L : Limits) (fs : FileSystem) (r r1 : TReadScriptFile) (b : Bool)
    (h : TReadScriptFile.nextTokenRound L fs r = .done b r1) : r1.Frames ≠ [] := by
  cases hFr : r.Frames with
  | nil => simp [TReadScriptFile.nextTokenRound, hFr] at h
  | cons f below =>
    rw [round_eq L fs r f below hFr] at h
    cases hs : scan L r.toPayload f.File f.Line with
    | eof l =>
      rw [hs] at h
      by_cases hb : below = []
      · simp only [hb, ↓reduceIte, Result.done.injEq] at h
        rw [← h.2]; simp
      · simp only [hb, ↓reduceIte, Result.done.injEq] at h
        rw [← h.2]; simpa [TReadScriptFile.close] using hb
    | again File1 l =>
      rw [hs] at h
      simp only [Result.done.injEq] at h
      rw [← h.2]; simp
    | incl p File1 l =>
      rw [hs] at h
      simp only at h
      cases ho : TReadScriptFile.open L fs
          { toPayload := p, Frames := f.advance File1 l :: below } (cstr p.String) with
      | done u r2 =>
        rw [ho] at h
        obtain ⟨_, content, _, hr2⟩ := open_done L fs _ _ _ _ ho
        simp only [Result.done.injEq] at h
        rw [← h.2, hr2]; simp
      | thrown m s => rw [ho] at h; cases h
      | abort => rw [ho] at h; cases h
      | stuck => rw [ho] at h; cases h
    | token q File1 l =>
      rw [hs] at h
      simp only [Result.done.injEq] at h
      rw [← h.2]; simp
    | fail Text q l =>
      rw [hs] at h
      simp only [TReadScriptFile.error] at h
      cases h

theorem nextToken_iff (L : Limits) (fs : FileSystem) (r r1 : TReadScriptFile)
    (hne : r.Frames ≠ []) :
    (∃ fuel, TReadScriptFile.nextToken L fs fuel r = .done () r1) ↔
      Completes L fs r.restart r1 := by
  constructor
  · rintro ⟨fuel, h⟩
    rw [nextToken_eq_loop L fs fuel r hne] at h
    exact loop_done L fs fuel _ r1 h
  · rintro ⟨r0, h1, h2⟩
    obtain ⟨fuel, hf⟩ := completes_loop L fs _ r0 r1 h1 h2
    exact ⟨fuel, by rw [nextToken_eq_loop L fs fuel r hne]; exact hf⟩

theorem Completes.frames {L : Limits} {fs : FileSystem} {r r1 : TReadScriptFile}
    (h : Completes L fs r r1) : r1.Frames ≠ [] := by
  obtain ⟨r0, _, h2⟩ := h
  exact round_frames L fs r0 r1 true h2

theorem lexes_to_loop (L : Limits) (fs : FileSystem) (r rEnd : TReadScriptFile)
    (ts : List Payload) (h : Lexes L fs r ts rEnd) :
    r.Frames ≠ [] → LexesLoop L fs r.restart ts rEnd := by
  induction h with
  | eof r r1 hy he =>
    intro hne
    exact LexesLoop.eof _ _ ((nextToken_iff L fs r r1 hne).1 hy) he
  | token r r1 r2 ts' hy hk _ ih =>
    intro hne
    have hc := (nextToken_iff L fs r r1 hne).1 hy
    exact LexesLoop.token _ r1 r2 ts' hc hk (ih hc.frames)

theorem loop_to_lexes (L : Limits) (fs : FileSystem) (x rEnd : TReadScriptFile)
    (ts : List Payload) (h : LexesLoop L fs x ts rEnd) :
    ∀ r, x = r.restart → r.Frames ≠ [] → Lexes L fs r ts rEnd := by
  induction h with
  | eof x r1 hc he =>
    intro r hx hne
    subst hx
    exact Lexes.eof r r1 ((nextToken_iff L fs r r1 hne).2 hc) he
  | token x r1 r2 ts' hc hk _ ih =>
    intro r hx hne
    subst hx
    exact Lexes.token r r1 r2 ts' ((nextToken_iff L fs r r1 hne).2 hc) hk
      (ih r1 rfl hc.frames)

theorem Lexes.kinds {L : Limits} {fs : FileSystem} {r rEnd : TReadScriptFile}
    {ts : List Payload} (h : Lexes L fs r ts rEnd) :
    (∀ t ∈ ts, t.Token ≠ .ENDOFFILE) ∧ rEnd.Token = .ENDOFFILE := by
  induction h with
  | eof r r1 _ he => exact ⟨by simp, he⟩
  | token r r1 r2 ts' _ hk _ ih =>
    refine ⟨?_, ih.2⟩
    intro t ht
    rcases List.mem_cons.1 ht with h | h
    · rw [h]; exact hk
    · exact ih.1 t h

theorem resetForm_restart (r : TReadScriptFile) : ResetForm r.restart.toPayload := by
  simp [TReadScriptFile.restart, Payload.reset, ResetForm]

theorem payloadRel_of_resetForm {p q : Payload} (hp : ResetForm p) (hq : ResetForm q) :
    PayloadRel p q := by
  unfold ResetForm at hp hq
  unfold PayloadRel
  rw [hq, hp]
  simp [Payload.reset]

theorem ResetForm.clear {p : Payload} (h : ResetForm p) (c : List Nat) :
    ({ ({ p with String := c } : Payload) with String := [] } : Payload) = p := by
  cases p
  simp only [ResetForm, Payload.reset, Payload.mk.injEq, true_and] at h ⊢
  simp [h.1]

/-- The tokens of `S` read at depth 0 are read from any session that stands at
`S` in the same file, at whatever line. -/
theorem lexes_tail (L : Limits) (fs : FileSystem) (a S : List Nat) (pS : Payload) (lS : Int)
    (tsS : List Payload) (eS : TReadScriptFile)
    (hS : Lexes L fs (session pS a S lS) tsS eS) (y : TReadScriptFile) (l : Int)
    (hy : y.Frames = [Frame.mk a S l]) (hr : ResetForm y.toPayload) :
    ∃ rEnd, LexesLoop L fs y tsS rEnd ∧ AtEnd rEnd := by
  have hloop := lexes_to_loop L fs _ _ _ hS (by simp [session])
  have hrel : SessRel L [] [] a (session pS a S lS).restart y := by
    refine ⟨?_, payloadRel_of_resetForm (resetForm_restart _) hr, resetForm_restart _⟩
    rw [hy]
    exact FramesRel.bottom _ _ rfl rfl (by simp) (fun h => absurd rfl h)
  have := lexesLoop_sim L L fs [] [] a (by simp) rfl rfl (Or.inl rfl) [] AtEnd ?_ _ _ _ hloop y hrel
  · simpa using this
  · intro y0 g' l2 hF _ hscan _
    have hround : TReadScriptFile.nextTokenRound L fs y0
        = .done true { y0 with Token := .ENDOFFILE, Frames := [g'.advance [] l2] } := by
      rw [round_eq L fs y0 g' [] hF, hscan, scan_nil]
      simp
    exact ⟨_, LexesLoop.eof y0 _ ⟨y0, Rounds.here y0, hround⟩ rfl, rfl, by simp [Frame.advance]⟩

/-- The tokens of the child read at depth 0 with one level less, followed by
those of `S`, are read from a session that has just opened the child above the
level standing at `S`. -/
theorem lexes_child (L : Limits) (fs : FileSystem) (a S cp C : List Nat) (hN : 1 ≤ L.NFILE)
    (pC pS : Payload) (lS : Int) (tsC tsS : List Payload) (eC eS : TReadScriptFile)
    (hC : Lexes { L with NFILE := L.NFILE - 1 } fs (session pC cp C 1) tsC eC)
    (hS : Lexes L fs (session pS a S lS) tsS eS) (y : TReadScriptFile) (l : Int)
    (hy : y.Frames = [Frame.mk cp C 1, Frame.mk a S l]) (hr : ResetForm y.toPayload) :
    ∃ rEnd, LexesLoop L fs y (tsC ++ tsS) rEnd ∧ AtEnd rEnd := by
  have hloop := lexes_to_loop _ fs _ _ _ hC (by simp [session])
  have hrel : SessRel { L with NFILE := L.NFILE - 1 } [] [Frame.mk a S l] cp
      (session pC cp C 1).restart y := by
    refine ⟨?_, payloadRel_of_resetForm (resetForm_restart _) hr, resetForm_restart _⟩
    rw [hy]
    exact FramesRel.bottom _ _ rfl rfl (by simp) (fun h => absurd rfl h)
  refine lexesLoop_sim { L with NFILE := L.NFILE - 1 } L fs [] [Frame.mk a S l] cp
    (by simp; omega) rfl rfl (Or.inl rfl) tsS AtEnd ?_ _ _ _ hloop y hrel
  intro y0 g' l2 hF _ hscan hr0
  have hround : TReadScriptFile.nextTokenRound L fs y0
      = .done false { y0 with Frames := [Frame.mk a S l] } := by
    rw [round_eq L fs y0 g' _ hF, hscan, scan_nil]
    simp [TReadScriptFile.close]
  obtain ⟨rEnd, h1, h2⟩ := lexes_tail L fs a S pS lS tsS eS hS
    { y0 with Frames := [Frame.mk a S l] } l rfl hr0
  exact ⟨rEnd, LexesLoop.afterRounds (Rounds.next _ _ _ hround (Rounds.here _)) h1, h2⟩

/-- C6 (amended). Include transparency: let the top-level file `a` hold `P`,
the directive `@"c"` and `S`, where `P` does not end inside a comment, the
quoted path `c` has no quote and fits the string buffer, the disk holds the
child at the path `c` resolves to, and at least three levels exist. If
repeated `nextToken` calls read the tokens `tsP` from `P` alone, `tsC` from the
child alone with one level less available, and `tsS` from `S` alone, each
without an exception, then on the whole file they return `tsP`, then `tsC`,
then `tsS`, none of kind ENDOFFILE, and only then ENDOFFILE, with the
top-level file, the one level left, at its end. -/
theorem include_transparency (L : Limits) (fs : FileSystem) (a c P S C : List Nat)
    (p0 pC pS : Payload) (l0 lS : Int) (tsP tsC tsS : List Payload)
    (eP eC eS : TReadScriptFile)
    (hN : 3 ≤ L.NFILE)
    (hquote : ∀ b ∈ c, b ≠ 34) (hlen : c.length ≤ L.NSTRING - 1)
    (hfs : fs (resolvePath [Frame.mk a [] 1] (cstr c)) = some C)
    (hP : Lexes L fs (session p0 a P l0) tsP eP) (hcomment : EndsOutsideComment L P)
    (hC : Lexes { L with NFILE := L.NFILE - 1 } fs
      (session pC (resolvePath [Frame.mk a [] 1] (cstr c)) C 1) tsC eC)
    (hS : Lexes L fs (session pS a S lS) tsS eS) :
    ∃ rEnd, Lexes L fs (session p0 a (P ++ includeText c ++ S) l0) (tsP ++ tsC ++ tsS) rEnd ∧
      (∀ t ∈ tsP ++ tsC ++ tsS, t.Token ≠ .ENDOFFILE) ∧
      rEnd.Token = .ENDOFFILE ∧ rEnd.Frames.map Frame.File = [[]] := by
  have hloop := lexes_to_loop L fs _ _ _ hP (by simp [session])
  have hfile : P ++ includeText c ++ S = P ++ 64 :: 34 :: (c ++ 34 :: S) := by
    simp [includeText]
  have hrel : SessRel L (64 :: 34 :: (c ++ 34 :: S)) [] a (session p0 a P l0).restart
      (session p0 a (P ++ includeText c ++ S) l0).restart := by
    refine ⟨?_, payloadRel_of_resetForm (resetForm_restart _) (resetForm_restart _),
      resetForm_restart _⟩
    exact FramesRel.bottom _ _ rfl rfl (by simp [hfile]) (fun _ => hcomment)
  have hmain := lexesLoop_sim L L fs (64 :: 34 :: (c ++ 34 :: S)) [] a (by simp) rfl rfl
    (Or.inr ⟨_, rfl⟩) (tsC ++ tsS) AtEnd ?_ _ _ _ hloop _ hrel
  · obtain ⟨rEnd, h1, h2, h3⟩ := hmain
    have hlex := loop_to_lexes L fs _ _ _ h1 (session p0 a (P ++ includeText c ++ S) l0) rfl
      (by simp [session])
    rw [← List.append_assoc] at hlex
    exact ⟨rEnd, hlex, hlex.kinds.1, h2, h3⟩
  · intro y0 g' l2 hF hname hscan hr0
    have hstr : y0.toPayload.String = [] := by
      unfold ResetForm at hr0
      rw [hr0]
      simp [Payload.reset]
    have hinc := scan_include L y0.toPayload l2 c S hstr hquote hlen
    have hdepth : ¬ ((g'.advance S l2 :: ([] : List Frame)).length + 1 ≥ L.NFILE) := by
      simp only [List.length_cons, List.length_nil]
      omega
    have hpath : resolvePath [g'.advance S l2] (cstr c)
        = resolvePath [Frame.mk a [] 1] (cstr c) :=
      resolvePath_head _ _ _ _ _ (by simpa [Frame.advance] using hname)
    have hopen := open_of L fs
      { toPayload := { y0.toPayload with String := c }, Frames := [g'.advance S l2] } (cstr c) C
      hdepth (by simpa [hpath] using hfs)
    have hround : TReadScriptFile.nextTokenRound L fs y0
        = .done false { toPayload := y0.toPayload,
                        Frames := [Frame.mk (resolvePath [Frame.mk a [] 1] (cstr c)) C 1,
                                   Frame.mk a S l2] } := by
      rw [round_eq L fs y0 g' [] hF, hscan, hinc]
      simp only [hopen, hpath]
      have hg : g'.advance S l2 = Frame.mk a S l2 := by
        simp [Frame.advance, hname]
      rw [hg]
      have hcl := hr0.clear c
      simp only at hcl ⊢
      rw [hcl]
    obtain ⟨rEnd, h1, h2⟩ := lexes_child L fs a S (resolvePath [Frame.mk a [] 1] (cstr c)) C
      (by omega) pC pS lS tsC tsS eC eS hC hS
      { toPayload := y0.toPayload,
        Frames := [Frame.mk (resolvePath [Frame.mk a [] 1] (cstr c)) C 1, Frame.mk a S l2] }
      l2 rfl hr0
    exact ⟨rEnd, LexesLoop.afterRounds (Rounds.next _ _ _ hround (Rounds.here _)) h1, h2⟩

/-- A file with one token: two calls, the token and ENDOFFILE. -/
theorem lexes_one (L : Limits) (fs : FileSystem) (r r1 r2 : TReadScriptFile)
    (h1 : TReadScriptFile.nextToken L fs 1 r = .done () r1) (hk : r1.Token ≠ .ENDOFFILE)
    (h2 : TReadScriptFile.nextToken L fs 1 r1 = .done () r2) (he : r2.Token = .ENDOFFILE) :
    Lexes L fs r [r1.toPayload] r2 :=
  Lexes.token r r1 r2 [] ⟨1, h1⟩ hk (Lexes.eof r1 r2 ⟨1, h2⟩ he)

theorem include_transparency_witness :
    3 ≤ sampleLimits.NFILE ∧ (∀ b ∈ bytes "b", b ≠ 34) ∧
    (bytes "b").length ≤ sampleLimits.NSTRING - 1 ∧
    includeFiles (resolvePath [Frame.mk (bytes "dat/a") [] 1] (cstr (bytes "b")))
      = some (bytes "7") ∧
    Lexes sampleLimits includeFiles (session endToken (bytes "dat/a") (bytes "\"#\" ") 1)
      [stringToken (bytes "#")]
      { toPayload := endToken, Frames := [Frame.mk (bytes "dat/a") [] 1] } ∧
    EndsOutsideComment sampleLimits (bytes "\"#\" ") ∧
    Lexes { sampleLimits with NFILE := sampleLimits.NFILE - 1 } includeFiles
      (session endToken (resolvePath [Frame.mk (bytes "dat/a") [] 1] (cstr (bytes "b")))
        (bytes "7") 1)
      [numberToken 7]
      { toPayload := endToken, Frames := [Frame.mk (bytes "dat/b") [] 1] } ∧
    Lexes sampleLimits includeFiles (session endToken (bytes "dat/a") (bytes " y") 1)
      [identifierToken (bytes "y")]
      { toPayload := endToken, Frames := [Frame.mk (bytes "dat/a") [] 1] } ∧
    ∃ rEnd, Lexes sampleLimits includeFiles
        (session endToken (bytes "dat/a")
          (bytes "\"#\" " ++ includeText (bytes "b") ++ bytes " y") 1)
        ([stringToken (bytes "#")] ++ [numberToken 7] ++ [identifierToken (bytes "y")])
        rEnd ∧
      (∀ t ∈ [stringToken (bytes "#")] ++ [numberToken 7] ++ [identifierToken (bytes "y")],
        t.Token ≠ .ENDOFFILE) ∧
      rEnd.Token = .ENDOFFILE ∧ rEnd.Frames.map Frame.File = [[]] :=
  have hP : Lexes sampleLimits includeFiles
      (session endToken (bytes "dat/a") (bytes "\"#\" ") 1)
      [stringToken (bytes "#")]
      { toPayload := endToken, Frames := [Frame.mk (bytes "dat/a") [] 1] } :=
    lexes_one _ _ _
      { toPayload := stringToken (bytes "#"),
        Frames := [Frame.mk (bytes "dat/a") (bytes " ") 1] } _
      (by decide) (by decide) (by decide) (by decide)
  have hC : Lexes { sampleLimits with NFILE := sampleLimits.NFILE - 1 } includeFiles
      (session endToken (resolvePath [Frame.mk (bytes "dat/a") [] 1] (cstr (bytes "b")))
        (bytes "7") 1)
      [numberToken 7]
      { toPayload := endToken, Frames := [Frame.mk (bytes "dat/b") [] 1] } :=
    lexes_one _ _ _
      { toPayload := numberToken 7, Frames := [Frame.mk (bytes "dat/b") [] 1] } _
      (by decide) (by decide) (by decide) (by decide)
  have hS : Lexes sampleLimits includeFiles (session endToken (bytes "dat/a") (bytes " y") 1)
      [identifierToken (bytes "y")]
      { toPayload := endToken, Frames := [Frame.mk (bytes "dat/a") [] 1] } :=
    lexes_one _ _ _
      { toPayload := identifierToken (bytes "y"), Frames := [Frame.mk (bytes "dat/a") [] 1] } _
      (by decide) (by decide) (by decide) (by decide)
  have hc : EndsOutsideComment sampleLimits (bytes "\"#\" ") := fun fuel =>
    match fuel with
    | 0 => rfl
    | 1 => rfl
    | _ + 2 => rfl
  ⟨by decide, by decide, by decide, by decide, hP, hc, hC, hS,
    include_transparency sampleLimits includeFiles (bytes "dat/a") (bytes "b")
      (bytes "\"#\" ") (bytes " y") (bytes "7") endToken endToken endToken 1 1 _ _ _ _ _ _
      (by decide) (by decide) (by decide) (by decide) hP hc hC hS⟩

/-- C6 (counterexample). With room for two levels, the child `dat/b` (which
includes `c`) lexes alone without error, giving the number 7 and then
ENDOFFILE, but the top-level file `@"b"` throws the depth error on its first
call: the child's own include needs the level the parent takes. -/
theorem include_transparency_counterexample :
    (TReadScriptFile.nextToken tinyLimits chainFiles 2
        (session endToken (bytes "dat/b") (includeText (bytes "c")) 1)
      = .done () { toPayload := numberToken 7,
                   Frames := [Frame.mk (bytes "dat/c") [] 1, Frame.mk (bytes "dat/b") [] 1] }) ∧
    (TReadScriptFile.nextToken tinyLimits chainFiles 2
        { toPayload := numberToken 7,
          Frames := [Frame.mk (bytes "dat/c") [] 1, Frame.mk (bytes "dat/b") [] 1] }
      = .done () { toPayload := endToken, Frames := [Frame.mk (bytes "dat/b") [] 1] }) ∧
    (TReadScriptFile.nextToken tinyLimits chainFiles 2
        (session endToken (bytes "dat/a") (includeText (bytes "b")) 1)
      = .thrown (bytes "Recursion depth too high")
          { Token := .ENDOFFILE, String := bytes "c", Number := 0, CoordX := 0, CoordY := 0,
            CoordZ := 0, Special := 0,
            Frames := [Frame.mk (bytes "dat/b") [] 1, Frame.mk (bytes "dat/a") [] 1] }) := by
  refine ⟨?_, ?_, ?_⟩ <;> decide

/-! ## Numbers and byte sequences -/

/-- C11. Number versus bytes: when the unread input of the current file begins
with a maximal run of decimal digits whose value fits in a signed 32-bit
integer, and the byte after the run is no minus sign (or the input ends
there), `nextToken` returns the token NUMBER with that value and leaves the
bytes after the run unread; the input `42` gives NUMBER 42 and the input
`1-2-3` gives BYTES with the bytes 1, 2, 3. -/
theorem nextToken_number_run (L : Limits) (fs : FileSystem) (fuel : Nat) (r : TReadScriptFile)
    (f : Frame) (below : List Frame) (d : Nat) (ds tail : List Nat)
    (hr : r.Frames = f :: below) (hf : f.File = d :: ds ++ tail)
    (hd : ∀ c ∈ d :: ds, isDigit c = true)
    (htail : ∀ c t, tail = c :: t → isDigit c = false ∧ c ≠ 45)
    (hv : digitsValue 0 (d :: ds) < 2147483648) :
    TReadScriptFile.nextToken L fs (fuel + 1) r
      = .done () { toPayload := { r.toPayload.reset with
                      Token := .NUMBER, Number := digitsValue 0 (d :: ds) },
                   Frames := f.advance tail f.Line :: below } ∧
    (∃ r1, TReadScriptFile.nextToken sampleLimits noFiles 1 (readerOn (bytes "42"))
        = .done () r1 ∧ r1.Token = .NUMBER ∧ r1.Number = 42) ∧
    (∃ r1, TReadScriptFile.nextToken sampleLimits noFiles 1 (readerOn (bytes "1-2-3"))
        = .done () r1 ∧ r1.Token = .BYTES ∧ r1.String = [1, 2, 3]) := by
  refine ⟨?_, ⟨_, rfl, by decide, by decide⟩, ⟨_, rfl, by decide, by decide⟩⟩
  apply nextToken_of_scan_token L fs fuel r f below _ tail f.Line hr
  have hd0 : isDigit d = true := hd d (List.mem_cons_self _ _)
  have hds : ∀ c ∈ ds, isDigit c = true := fun c hc => hd c (List.mem_cons_of_mem _ hc)
  rw [hf, List.cons_append, scan_digit L _ d (ds ++ tail) f.Line hd0,
    scanNumber_digits L _ f.Line ds tail _ hds, scanNumber_stop L _ f.Line tail _ htail]
  have hval : digitsWrapped ((d : Int) - 48) ds = digitsValue 0 (d :: ds) := by
    have h48 := (isDigit_iff d).1 hd0
    have e : digitsValue 0 (d :: ds) = digitsValue ((d : Int) - 48) ds := by
      simp [digitsValue]
    rw [e] at hv ⊢
    exact digitsWrapped_eq ds _ (by omega) hds hv
  simp [Payload.reset, hval]

theorem nextToken_number_run_witness :
    digitsValue 0 [48, 48, 55] < 2147483648 ∧
    TReadScriptFile.nextToken sampleLimits noFiles 1 (readerOn [48, 48, 55, 32, 120])
      = .done () { toPayload := { (readerOn [48, 48, 55, 32, 120]).toPayload.reset with
                      Token := .NUMBER, Number := digitsValue 0 [48, 48, 55] },
                   Frames := [Frame.advance (Frame.mk (bytes "dat/in.dat") [48, 48, 55, 32, 120] 1)
                      [32, 120] 1] } :=
  ⟨by decide, (nextToken_number_run sampleLimits noFiles 0 (readerOn [48, 48, 55, 32, 120])
    (Frame.mk (bytes "dat/in.dat") [48, 48, 55, 32, 120] 1) [] 48 [48, 55] [32, 120]
    rfl rfl (by decide) (by intro c t h; cases h; decide) (by decide)).1⟩

/-! ## Identifiers -/

theorem strLower_of_no_nul (t : List Nat) (h : ∀ c ∈ t, c ≠ 0) : strLower t = lowerText t := by
  simp [strLower, lowerText, cstr_of_no_nul t h]

theorem lowerText_no_nul (t : List Nat) (h : ∀ c ∈ t, c ≠ 0) : ∀ c ∈ lowerText t, c ≠ 0 := by
  intro c hc
  simp only [lowerText, List.mem_map] at hc
  obtain ⟨a, ha, rfl⟩ := hc
  have := h a ha
  split <;> omega

theorem lowerText_idem (t : List Nat) : lowerText (lowerText t) = lowerText t := by
  simp only [lowerText, List.map_map]
  apply List.map_congr_left
  intro a _
  simp only [Function.comp]
  by_cases h : 65 ≤ a ∧ a ≤ 90
  · rw [if_pos h, if_neg (by omega)]
  · rw [if_neg h, if_neg h]

theorem isIdentByte_ne_zero (c : Nat) (h : isIdentByte c = true) : c ≠ 0 := by
  intro h0
  subst h0
  simp [isIdentByte, isAlpha, isDigit] at h

theorem scanIdentifier_body (M : Nat) (Line : Int) (tail : List Nat)
    (htail : ∀ b t, tail = b :: t → isIdentByte b = false) (body : List Nat) :
    ∀ (p : Payload), (∀ b ∈ body, isIdentByte b = true) →
      (body = [] ∨ p.String.length + body.length + 1 ≤ M) →
      scanIdentifier M p Line (body ++ tail)
        = .token { p with String := p.String ++ body, Token := .IDENTIFIER } tail Line := by
  induction body with
  | nil =>
    intro p _ _
    cases tail with
    | nil => simp [scanIdentifier]
    | cons b t =>
      have hb := htail b t rfl
      simp only [isIdentByte] at hb
      simp [scanIdentifier, hb]
  | cons b body ih =>
    intro p hb hlen
    have hb0 := hb b (List.mem_cons_self _ _)
    simp only [isIdentByte] at hb0
    have hlen1 : p.String.length + (b :: body).length + 1 ≤ M := by
      rcases hlen with h | h
      · cases h
      · exact h
    simp only [List.length_cons] at hlen1
    have hlt : ¬ p.String.length ≥ M - 1 := by omega
    have := ih { p with String := p.String ++ [b] }
      (fun x hx => hb x (List.mem_cons_of_mem _ hx))
      (Or.inr (by simp; omega))
    rw [List.cons_append, scanIdentifier]
    simp only [hb0, ↓reduceIte, hlt]
    rw [this]
    simp

theorem scan_alpha (L : Limits) (p : Payload) (c : Nat) (rest : List Nat) (Line : Int)
    (hc : isAlpha c = true) :
    scan L p (c :: rest) Line
      = scanIdentifier L.MAX_IDENT_LENGTH { p with String := [c] } Line rest := by
  have h : (65 ≤ c ∧ c ≤ 90) ∨ (97 ≤ c ∧ c ≤ 122) := by
    simpa [isAlpha] using hc
  have hs : isSpace c = false := by
    simp [isSpace]; omega
  simp only [scan, skipSpace_nonspace c rest Line hs (by omega)]
  have h1 : c ≠ 35 := by omega
  have h2 : c ≠ 64 := by omega
  have h3 : c ≠ 34 := by omega
  have h4 : c ≠ 91 := by omega
  have h5 : c ≠ 60 := by omega
  have h6 : c ≠ 62 := by omega
  have h7 : c ≠ 45 := by omega
  simp [scanSwitch, h1, h2, h3, h4, h5, h6, h7, hc]

/-- C12. Case folding: when the unread input begins with an identifier (a
letter, then letters, digits and underscores, within the identifier buffer),
`nextToken` returns the token IDENTIFIER and stores the scanned text unchanged;
`getIdentifier` then returns that text with every uppercase ASCII letter
replaced by its lowercase counterpart and every other byte unchanged, and a
second `getIdentifier` returns the same text and changes nothing. -/
theorem getIdentifier_case_folding (L : Limits) (fs : FileSystem) (fuel : Nat) (r : TReadScriptFile)
    (f : Frame) (below : List Frame) (c : Nat) (body tail : List Nat)
    (hr : r.Frames = f :: below) (hf : f.File = c :: body ++ tail)
    (hc : isAlpha c = true) (hbody : ∀ b ∈ body, isIdentByte b = true)
    (htail : ∀ b t, tail = b :: t → isIdentByte b = false)
    (hlen : body = [] ∨ body.length + 2 ≤ L.MAX_IDENT_LENGTH) :
    ∃ r1 r2, TReadScriptFile.nextToken L fs (fuel + 1) r = .done () r1 ∧
      r1.Token = .IDENTIFIER ∧ r1.String = c :: body ∧
      r1.Frames = f.advance tail f.Line :: below ∧
      r1.getIdentifier = .done (lowerText (c :: body)) r2 ∧
      r2.getIdentifier = .done (lowerText (c :: body)) r2 := by
  have hscan : scan L r.toPayload.reset f.File f.Line
      = .token { r.toPayload.reset with String := c :: body, Token := .IDENTIFIER } tail
          f.Line := by
    rw [hf, List.cons_append, scan_alpha L _ c _ f.Line hc,
      scanIdentifier_body L.MAX_IDENT_LENGTH f.Line tail htail body _ hbody
        (by rcases hlen with h | h
            · exact Or.inl h
            · right; simp; omega)]
    rfl
  have hnn : ∀ b ∈ c :: body, b ≠ 0 := by
    intro b hb
    rcases List.mem_cons.1 hb with rfl | hb
    · exact isIdentByte_ne_zero b (by simp [isIdentByte, hc])
    · exact isIdentByte_ne_zero b (hbody b hb)
  refine ⟨_, { toPayload := { r.toPayload.reset with
                  String := lowerText (c :: body), Token := .IDENTIFIER },
                Frames := f.advance tail f.Line :: below },
    nextToken_of_scan_token L fs fuel r f below _ tail f.Line hr hscan,
    rfl, rfl, rfl, ?_, ?_⟩
  · simp only [TReadScriptFile.getIdentifier, ne_eq, not_true_eq_false, ↓reduceIte,
      strLower_of_no_nul _ hnn, cstr_of_no_nul _ (lowerText_no_nul _ hnn)]
  · simp only [TReadScriptFile.getIdentifier, ne_eq, not_true_eq_false, ↓reduceIte,
      strLower_of_no_nul _ (lowerText_no_nul _ hnn), lowerText_idem,
      cstr_of_no_nul _ (lowerText_no_nul _ hnn)]

theorem getIdentifier_case_folding_witness :
    lowerText (bytes "MonsteR") = bytes "monster" ∧
    ∃ r1 r2, TReadScriptFile.nextToken sampleLimits noFiles 1
        (readerOn [77, 111, 110, 115, 116, 101, 82]) = .done () r1 ∧
      r1.Token = .IDENTIFIER ∧ r1.String = 77 :: [111, 110, 115, 116, 101, 82] ∧
      r1.Frames = Frame.advance (Frame.mk (bytes "dat/in.dat")
        [77, 111, 110, 115, 116, 101, 82] 1) [] 1 :: [] ∧
      r1.getIdentifier = .done (lowerText (77 :: [111, 110, 115, 116, 101, 82])) r2 ∧
      r2.getIdentifier = .done (lowerText (77 :: [111, 110, 115, 116, 101, 82])) r2 :=
  ⟨by decide, getIdentifier_case_folding sampleLimits noFiles 0 (readerOn [77, 111, 110, 115, 116, 101, 82])
    (Frame.mk (bytes "dat/in.dat") [77, 111, 110, 115, 116, 101, 82] 1) [] 77
    [111, 110, 115, 116, 101, 82] [] rfl rfl (by decide) (by decide)
    (by intro b t h; cases h) (Or.inr (by decide))⟩

/-! ## Binary reader: short reads -/

theorem copyLoop_eq (n : Nat) : ∀ (Source Dest : List Nat), Source.length ≤ n →
    copyLoop Source Dest = Dest ++ Source := by
  induction n with
  | zero =>
    intro Source Dest h
    have : Source = [] := List.length_eq_zero.1 (by omega)
    subst this
    rw [copyLoop]
    simp
  | succ n ih =>
    intro Source Dest h
    rw [copyLoop]
    by_cases h0 : (Source.take (KB 16)).length = 0
    · have : Source = [] := by
        simp only [List.length_take, KB] at h0
        exact List.length_eq_zero.1 (by omega)
      subst this
      simp
    · simp only [h0, ↓reduceIte]
      have hlt : (Source.drop (KB 16)).length ≤ n := by
        simp only [List.length_take, KB] at h0
        simp only [List.length_drop, KB]
        omega
      rw [ih _ _ hlt, List.append_assoc, List.take_append_drop]

theorem saveFile_backup (disk : FileSystem) (name contents : List Nat)
    (hdisk : disk name = some contents) :
    SaveFile disk (some name) (name ++ [35]) = some contents ∧
    ∀ path, path ≠ name ++ [35] → SaveFile disk (some name) path = disk path := by
  constructor
  · simp [SaveFile, hdisk, copyLoop_eq contents.length contents [] (Nat.le_refl _)]
  · intro path hp
    simp [SaveFile, hdisk, hp]

/-- C13. Corruption backup on short read: on an open binary read session
whose file exists on disk, whenever `readByte` or `readBytes(Count)` transfers
fewer bytes than requested (for `readBytes` the count is no negative `int`, or
the length of the open file fits an `int`), the call throws the read error in
a state where the handle is closed and the file named by the session's path
and `#` holds the full contents of the file at that path, for contents of any
length; the rest of the disk is unchanged. -/
theorem read_short_backup (b : TReadBinaryFile) (disk : FileSystem) (s : Stream)
    (contents : List Nat) (hopen : b.File = some s)
    (hdisk : disk b.Filename = some contents) :
    ((s.fread 1).1.length < 1 →
      ∃ disk1, b.readByte disk
          = .thrown (snprintf 100 (binaryErrorText b.Filename (bytes "Error while reading byte")))
              ({ b with File := none }, disk1) ∧
        disk1 (b.Filename ++ [35]) = some contents ∧
        ∀ path, path ≠ b.Filename ++ [35] → disk1 path = disk path) ∧
    (∀ Count : Int, -2147483648 ≤ Count → Count < 2147483648 →
      (0 ≤ Count ∨ s.data.length < 2147483648) →
      (s.fread (Count % 18446744073709551616).toNat).1.length
        < (Count % 18446744073709551616).toNat →
      ∃ disk1, b.readBytes disk Count
          = .thrown (snprintf 100 (binaryErrorText b.Filename (bytes "Error while reading bytes")))
              ({ b with File := none }, disk1) ∧
        disk1 (b.Filename ++ [35]) = some contents ∧
        ∀ path, path ≠ b.Filename ++ [35] → disk1 path = disk path) := by
  have hsave := saveFile_backup disk b.Filename contents hdisk
  constructor
  · intro hshort
    refine ⟨SaveFile disk (some b.Filename), ?_, hsave.1, hsave.2⟩
    have h0 : (s.fread 1).1.length = 0 := by omega
    simp [TReadBinaryFile.readByte, hopen, h0, wrap32, TReadBinaryFile.error]
  · intro Count hc0 hc1 hfit hshort
    refine ⟨SaveFile disk (some b.Filename), ?_, hsave.1, hsave.2⟩
    have hle : (s.fread (Count % 18446744073709551616).toNat).1.length ≤ s.data.length := by
      simp only [Stream.fread, List.length_take, List.length_drop]
      omega
    have hne : wrap32 ((s.fread (Count % 18446744073709551616).toNat).1.length : Int)
        ≠ Count := by
      rcases hfit with h | h
      · rw [wrap32_of_range _ (by omega) (by omega)]
        omega
      · rw [wrap32_of_range _ (by omega) (by omega)]
        omega
    simp [TReadBinaryFile.readBytes, hopen, hne, TReadBinaryFile.error]

theorem read_short_backup_witness :
    (sampleBinary.File = some { data := [7, 8], pos := 2 } ∧
      sampleDisk sampleBinary.Filename = some [7, 8] ∧
      (Stream.fread { data := [7, 8], pos := 2 } 1).1.length < 1) ∧
    ∃ disk1, sampleBinary.readByte sampleDisk
        = .thrown (snprintf 100
            (binaryErrorText sampleBinary.Filename (bytes "Error while reading byte")))
            ({ sampleBinary with File := none }, disk1) ∧
      disk1 (sampleBinary.Filename ++ [35]) = some [7, 8] ∧
      ∀ path, path ≠ sampleBinary.Filename ++ [35] → disk1 path = sampleDisk path :=
  ⟨⟨rfl, by decide, by decide⟩,
    (read_short_backup sampleBinary sampleDisk { data := [7, 8], pos := 2 } [7, 8] rfl
      (by decide)).1 (by decide)⟩

/-- C14 (the code at the failing input). The session of `sampleBinary` is at
the end of its file: `readByte` throws the read error and leaves the handle
null. On that closed session `readByte` and `readBytes` pass the null handle
to `fread`, while `seek` checks the handle and throws its not-open error. -/
theorem readByte_closed_session :
    (∃ disk1, sampleBinary.readByte sampleDisk
        = .thrown (bytes "error in binary-file \"a.bin\": Error while reading byte.")
            ({ sampleBinary with File := none }, disk1)) ∧
    TReadBinaryFile.readByte { sampleBinary with File := none } sampleDisk = .abort ∧
    TReadBinaryFile.readBytes { sampleBinary with File := none } sampleDisk 1 = .abort ∧
    TReadBinaryFile.seek { sampleBinary with File := none } sampleDisk 0
      = .thrown (bytes "error in binary-file \"a.bin\": File not open for seek.")
          ({ sampleBinary with File := none }, sampleDisk) := by
  refine ⟨⟨SaveFile sampleDisk (some (bytes "a.bin")), ?_⟩, rfl, rfl, ?_⟩
  · rfl
  · rfl

/-! ## Path resolution -/

theorem findLast_of_not_mem (s : List Nat) (c : Nat) (h : c ∉ s) : findLast s c = none := by
  induction s with
  | nil => rfl
  | cons x xs ih =>
    have hx : x ≠ c := fun e => h (e ▸ List.mem_cons_self _ _)
    have hxs : c ∉ xs := fun e => h (List.mem_cons_of_mem _ e)
    simp [findLast, ih hxs, hx]

theorem findLast_of_last (dir base : List Nat) (c : Nat) (h : c ∉ base) :
    findLast (dir ++ c :: base) c = some dir.length := by
  induction dir with
  | nil => simp [findLast, findLast_of_not_mem base c h]
  | cons x xs ih => simp [findLast, ih]

/-- C15. Include path resolution: below the depth bound, `open` opens one path
and names the new level after it (or throws when the disk has no such file,
leaving the session as it was). With no level open the path is the argument
itself. With a level open whose path is `q`, it is the argument itself when
that begins with a slash; otherwise it is the part of `q` up to and including
its last slash followed by the argument, or the argument itself when `q` has
no slash. -/
theorem open_resolves_path (L : Limits) (fs : FileSystem) (r : TReadScriptFile)
    (p : List Nat) (hdepth : r.Frames.length + 1 < L.NFILE) :
    ∃ path,
      (TReadScriptFile.open L fs r p =
        match fs path with
        | none => .thrown (bytes "Cannot open script-file") r
        | some content => .done () { r with Frames := Frame.mk path content 1 :: r.Frames }) ∧
      (r.Frames = [] → path = p) ∧
      (∀ (q : Frame) (below : List Frame), r.Frames = q :: below →
        (p.head? = some 47 → path = p) ∧
        (p.head? ≠ some 47 → ∀ dir base : List Nat, q.Filename = dir ++ 47 :: base →
          47 ∉ base → path = dir ++ 47 :: p) ∧
        (p.head? ≠ some 47 → 47 ∉ q.Filename → path = p)) := by
  refine ⟨resolvePath r.Frames p, ?_, ?_, ?_⟩
  · have : ¬ r.Frames.length + 1 ≥ L.NFILE := by omega
    simp only [TReadScriptFile.open, this, ↓reduceIte]
  · intro h
    simp [h, resolvePath]
  · intro q below h
    refine ⟨?_, ?_, ?_⟩
    · intro hp
      simp [h, resolvePath, hp]
    · intro hp dir base hq hbase
      have htake : List.take (dir.length + 1) (dir ++ 47 :: base) = dir ++ [47] := by
        have e : dir ++ 47 :: base = (dir ++ [47]) ++ base := by simp
        rw [e]
        exact List.take_left' (by simp)
      simp [h, resolvePath, hp, hq, findLast_of_last dir base 47 hbase, htake]
    · intro hp hq
      simp [h, resolvePath, hp, findLast_of_not_mem _ 47 hq]

theorem open_resolves_path_witness :
    (readerOn []).Frames.length + 1 < sampleLimits.NFILE ∧
    ∃ path,
      (TReadScriptFile.open sampleLimits noFiles (readerOn []) (bytes "x.dat") =
        match noFiles path with
        | none => .thrown (bytes "Cannot open script-file") (readerOn [])
        | some content =>
          .done () { readerOn [] with Frames := Frame.mk path content 1 :: (readerOn []).Frames }) ∧
      ((readerOn []).Frames = [] → path = bytes "x.dat") ∧
      (∀ (q : Frame) (below : List Frame), (readerOn []).Frames = q :: below →
        ((bytes "x.dat").head? = some 47 → path = bytes "x.dat") ∧
        ((bytes "x.dat").head? ≠ some 47 → ∀ dir base : List Nat,
          q.Filename = dir ++ 47 :: base → 47 ∉ base → path = dir ++ 47 :: bytes "x.dat") ∧
        ((bytes "x.dat").head? ≠ some 47 → 47 ∉ q.Filename → path = bytes "x.dat")) :=
  ⟨by decide, open_resolves_path sampleLimits noFiles (readerOn []) (bytes "x.dat") (by decide)⟩

/-! ## Two-character operators -/

theorem scanInclude_noSpecial (cap : Nat) (Line : Int) (File : List Nat) :
    ∀ (p : Payload), (scanInclude cap p Line File).noSpecial := by
  induction File with
  | nil => intro p; simp [scanInclude, Scan.noSpecial]
  | cons c File ih =>
    intro p
    simp only [scanInclude]
    split
    · simp [Scan.noSpecial]
    · split
      · simp [Scan.noSpecial]
      · exact ih _

theorem scanString_noSpecial (cap : Nat) : ∀ (n : Nat) (File : List Nat), File.length ≤ n →
    ∀ (p : Payload) (Line : Int), (scanString cap p File Line).noSpecial := by
  intro n
  induction n with
  | zero =>
    intro File hl p Line
    have : File = [] := List.length_eq_zero.1 (Nat.le_zero.1 hl)
    subst this
    simp [scanString, Scan.noSpecial]
  | succ n ih =>
    intro File hl p Line
    cases File with
    | nil => simp [scanString, Scan.noSpecial]
    | cons c rest =>
      simp only [List.length_cons] at hl
      rw [scanString_cons]
      split
      · cases rest with
        | nil => simp [Scan.noSpecial]
        | cons e rest1 =>
          simp only [List.length_cons] at hl
          simp only
          split
          · simp [Scan.noSpecial]
          · exact ih rest1 (by omega) _ _
      · split
        · split
          · simp [Scan.noSpecial]
          · exact ih rest (by omega) _ _
        · split
          · simp [Scan.noSpecial]
          · split
            · simp [Scan.noSpecial]
            · exact ih rest (by omega) _ _

theorem scanCoordinate_noSpecial (p : Payload) (Line Sign Coord : Int) (rest : List Nat) :
    (scanCoordinate p Line Sign Coord rest).noSpecial := by
  unfold scanCoordinate
  cases scanCoordDigits 44 rest Coord with
  | error T => simp [Scan.noSpecial]
  | ok vx =>
    obtain ⟨X, rest1⟩ := vx
    simp only
    cases scanCoordComponent 44 rest1 with
    | error T => simp [Scan.noSpecial]
    | ok vy =>
      obtain ⟨Y, rest2⟩ := vy
      simp only
      cases scanCoordComponent 93 rest2 with
      | error T => simp [Scan.noSpecial]
      | ok vz => simp [Scan.noSpecial]

theorem scanIdentifier_noSpecial (cap : Nat) (Line : Int) (File : List Nat) :
    ∀ (p : Payload), (scanIdentifier cap p Line File).noSpecial := by
  induction File with
  | nil => intro p; simp [scanIdentifier, Scan.noSpecial]
  | cons c File ih =>
    intro p
    simp only [scanIdentifier]
    split
    · split
      · simp [Scan.noSpecial]
      · exact ih _
    · simp [Scan.noSpecial]

theorem scanNumber_noSpecial (cap : Nat) (Line : Int) : ∀ (n : Nat) (File : List Nat),
    File.length ≤ n → ∀ (p : Payload) (Number : Int),
    (scanNumber cap p Line File Number).noSpecial := by
  have hnil : ∀ (p : Payload) (Number : Int),
      (scanNumber cap p Line [] Number).noSpecial := by
    intro p Number
    rw [scanNumber_nil]
    split
    · simp [Scan.noSpecial]
    · split <;> simp [Scan.noSpecial]
  intro n
  induction n with
  | zero =>
    intro File hl p Number
    have : File = [] := List.length_eq_zero.1 (Nat.le_zero.1 hl)
    subst this
    exact hnil p Number
  | succ n ih =>
    intro File hl p Number
    cases File with
    | nil => exact hnil p Number
    | cons c rest =>
      simp only [List.length_cons] at hl
      rw [scanNumber_cons]
      split
      · exact ih rest (by omega) _ _
      · split
        · split
          · simp [Scan.noSpecial]
          · cases rest with
            | nil => simp [Scan.noSpecial]
            | cons e rest1 =>
              simp only [List.length_cons] at hl
              simp only
              split
              · simp [Scan.noSpecial]
              · exact ih rest1 (by omega) _ _
        · split
          · simp [Scan.noSpecial]
          · split <;> simp [Scan.noSpecial]

/-- A SPECIAL token with the payload of a two-character operator comes from
the two bytes of that operator. -/
theorem scanSwitch_operator (L : Limits) (p q : Payload) (c : Nat) (rest F : List Nat)
    (Line l : Int) (h : scanSwitch L p c rest Line = .token q F l)
    (hk : q.Token = .SPECIAL) (op : Nat) (hop : op ∈ [76, 78, 71, 73]) (hs : q.Special = op) :
    ∃ b, rest = b :: F ∧ (c, b, op) ∈ operatorTable := by
  have hns : ∀ s : Scan, s.noSpecial → s = .token q F l → False := by
    intro s h1 h2
    rw [h2] at h1
    exact h1 hk
  unfold scanSwitch at h
  by_cases h35 : c = 35
  · rw [if_pos h35] at h
    cases h
  rw [if_neg h35] at h
  by_cases h64 : c = 64
  · rw [if_pos h64] at h
    cases rest with
    | nil => cases h
    | cons e rest1 =>
      simp only at h
      split at h
      · cases h
      · exact (hns _ (scanInclude_noSpecial _ _ _ _) h).elim
  rw [if_neg h64] at h
  by_cases h34 : c = 34
  · rw [if_pos h34] at h
    exact (hns _ (scanString_noSpecial _ _ rest (le_refl _) _ _) h).elim
  rw [if_neg h34] at h
  by_cases h91 : c = 91
  · rw [if_pos h91] at h
    cases rest with
    | nil =>
      simp only [Scan.token.injEq] at h
      obtain ⟨rfl, _, _⟩ := h
      simp at hs
      subst hs
      simp at hop
    | cons e rest1 =>
      simp only at h
      split at h
      · exact (hns _ (scanCoordinate_noSpecial _ _ _ _ _) h).elim
      · split at h
        · simp only [Scan.token.injEq] at h
          obtain ⟨rfl, _, _⟩ := h
          simp at hs
          subst hs
          simp at hop
        · exact (hns _ (scanCoordinate_noSpecial _ _ _ _ _) h).elim
  rw [if_neg h91] at h
  by_cases h60 : c = 60
  · rw [if_pos h60] at h
    subst h60
    cases rest with
    | nil =>
      simp only [Scan.token.injEq] at h
      obtain ⟨rfl, _, _⟩ := h
      simp at hs
      subst hs
      simp at hop
    | cons e rest1 =>
      simp only at h
      split at h
      · simp only [Scan.token.injEq] at h
        obtain ⟨rfl, rfl, _⟩ := h
        simp at hs
        subst hs
        exact ⟨_, rfl, by simp_all [operatorTable]⟩
      · split at h
        · simp only [Scan.token.injEq] at h
          obtain ⟨rfl, rfl, _⟩ := h
          simp at hs
          subst hs
          exact ⟨_, rfl, by simp_all [operatorTable]⟩
        · simp only [Scan.token.injEq] at h
          obtain ⟨rfl, _, _⟩ := h
          simp at hs
          subst hs
          simp at hop
  rw [if_neg h60] at h
  by_cases h62 : c = 62
  · rw [if_pos h62] at h
    subst h62
    cases rest with
    | nil =>
      simp only [Scan.token.injEq] at h
      obtain ⟨rfl, _, _⟩ := h
      simp at hs
      subst hs
      simp at hop
    | cons e rest1 =>
      simp only at h
      split at h
      · simp only [Scan.token.injEq] at h
        obtain ⟨rfl, rfl, _⟩ := h
        simp at hs
        subst hs
        exact ⟨_, rfl, by simp_all [operatorTable]⟩
      · simp only [Scan.token.injEq] at h
        obtain ⟨rfl, _, _⟩ := h
        simp at hs
        subst hs
        simp at hop
  rw [if_neg h62] at h
  by_cases h45 : c = 45
  · rw [if_pos h45] at h
    subst h45
    cases rest with
    | nil =>
      simp only [Scan.token.injEq] at h
      obtain ⟨rfl, _, _⟩ := h
      simp at hs
      subst hs
      simp at hop
    | cons e rest1 =>
      simp only at h
      split at h
      · simp only [Scan.token.injEq] at h
        obtain ⟨rfl, rfl, _⟩ := h
        simp at hs
        subst hs
        exact ⟨_, rfl, by simp_all [operatorTable]⟩
      · simp only [Scan.token.injEq] at h
        obtain ⟨rfl, _, _⟩ := h
        simp at hs
        subst hs
        simp at hop
  rw [if_neg h45] at h
  by_cases ha : isAlpha c = true
  · rw [if_pos ha] at h
    exact (hns _ (scanIdentifier_noSpecial _ _ _ _) h).elim
  rw [if_neg ha] at h
  by_cases hd : isDigit c = true
  · rw [if_pos hd] at h
    exact (hns _ (scanNumber_noSpecial _ _ _ rest (le_refl _) _ _) h).elim
  rw [if_neg hd] at h
  simp only [Scan.token.injEq] at h
  obtain ⟨rfl, _, _⟩ := h
  simp only at hs
  subst hs
  simp only [List.mem_cons, List.mem_singleton, List.not_mem_nil, or_false] at hop
  rcases hop with rfl | rfl | rfl | rfl <;> simp [isAlpha] at ha

theorem skipSpace_spaces (File : List Nat) : ∀ (Line : Int) (c : Nat) (rest : List Nat) (l : Int),
    skipSpace File Line = (some c, rest, l) →
    ∃ pre, File = pre ++ c :: rest ∧ (∀ b ∈ pre, isSpace b = true) ∧ isSpace c = false := by
  induction File with
  | nil => intro Line c rest l h; simp [skipSpace] at h
  | cons a File ih =>
    intro Line c rest l h
    simp only [skipSpace] at h
    by_cases ha : isSpace a = true
    · rw [if_pos ha] at h
      obtain ⟨pre, h1, h2, h3⟩ := ih _ c rest l h
      refine ⟨a :: pre, by rw [h1]; rfl, ?_, h3⟩
      intro b hb
      rcases List.mem_cons.1 hb with rfl | hb
      · exact ha
      · exact h2 b hb
    · rw [if_neg ha] at h
      simp only [Prod.mk.injEq, Option.some.injEq] at h
      obtain ⟨rfl, rfl, _⟩ := h
      exact ⟨[], rfl, by simp, by simpa using ha⟩

/-- A round that returns a SPECIAL token found it in the current file. -/
theorem round_special (L : Limits) (fs : FileSystem) (r0 r1 : TReadScriptFile)
    (h : TReadScriptFile.nextTokenRound L fs r0 = .done true r1) (hk : r1.Token = .SPECIAL) :
    ∃ f below q F l, r0.Frames = f :: below ∧
      scan L r0.toPayload f.File f.Line = .token q F l ∧
      r1 = { toPayload := q, Frames := f.advance F l :: below } := by
  unfold TReadScriptFile.nextTokenRound at h
  cases hF : r0.Frames with
  | nil => rw [hF] at h; cases h
  | cons f below =>
    rw [hF] at h
    simp only at h
    cases hs : scan L r0.toPayload f.File f.Line with
    | eof Line =>
      rw [hs] at h
      simp only at h
      split at h
      · simp only [Result.done.injEq, true_and] at h
        rw [← h] at hk
        cases hk
      · cases h
    | again File Line => rw [hs] at h; cases h
    | incl p File Line =>
      rw [hs] at h
      simp only at h
      split at h <;> cases h
    | token p File Line =>
      rw [hs] at h
      simp only [Result.done.injEq, true_and] at h
      exact ⟨f, below, p, File, Line, rfl, hs, h.symm⟩
    | fail Text p Line =>
      rw [hs] at h
      simp only [TReadScriptFile.error] at h
      cases h

theorem scan_operator (L : Limits) (p : Payload) (a b op : Nat) (rest : List Nat) (Line : Int)
    (h : (a, b, op) ∈ operatorTable) :
    scan L p (a :: b :: rest) Line
      = .token { p with Special := op, Token := .SPECIAL } rest Line := by
  simp only [operatorTable, List.mem_cons, Prod.mk.injEq, List.mem_singleton,
    List.not_mem_nil, or_false] at h
  rcases h with ⟨rfl, rfl, rfl⟩ | ⟨rfl, rfl, rfl⟩ | ⟨rfl, rfl, rfl⟩ | ⟨rfl, rfl, rfl⟩ <;>
    simp [scan, skipSpace, isSpace, scanSwitch]

theorem scan_single (L : Limits) (p : Payload) (a : Nat) (rest : List Nat) (Line : Int)
    (ha : a ∈ [60, 62, 45])
    (hrest : ∀ b t, rest = b :: t → ∀ op, (a, b, op) ∉ operatorTable) :
    scan L p (a :: rest) Line
      = .token { p with Special := a, Token := .SPECIAL } rest Line := by
  simp only [List.mem_cons, List.mem_singleton, List.not_mem_nil, or_false] at ha
  cases rest with
  | nil => rcases ha with rfl | rfl | rfl <;> simp [scan, skipSpace, isSpace, scanSwitch]
  | cons b t =>
    have hb := hrest b t rfl
    rcases ha with rfl | rfl | rfl
    · have h1 : b ≠ 61 := fun e => hb 76 (by simp [operatorTable, e])
      have h2 : b ≠ 62 := fun e => hb 78 (by simp [operatorTable, e])
      simp [scan, skipSpace, isSpace, scanSwitch, h1, h2]
    · have h1 : b ≠ 61 := fun e => hb 71 (by simp [operatorTable, e])
      simp [scan, skipSpace, isSpace, scanSwitch, h1]
    · have h1 : b ≠ 62 := fun e => hb 73 (by simp [operatorTable, e])
      simp [scan, skipSpace, isSpace, scanSwitch, h1]

/-- C16. Two-character operators: the inputs `<=`, `<>`, `>=` and `->` each
lex as one SPECIAL token that consumes both bytes, with the payloads `L`, `N`,
`G` and `I`, which differ from each other and from `<`, `>` and `-`; when `<`,
`>` or `-` is followed by a byte that completes no operator (or by the end of
the file) the token is SPECIAL with the first byte alone and the following
byte stays unread; and a SPECIAL token with one of the four operator payloads
is only returned by a round of `nextToken` that read, after whitespace, the
two bytes of that operator from the current file. -/
theorem nextToken_operators (L : Limits) (fs : FileSystem) (fuel : Nat) (r : TReadScriptFile)
    (f : Frame) (below : List Frame) (hr : r.Frames = f :: below) :
    (∀ a b op rest, (a, b, op) ∈ operatorTable → f.File = a :: b :: rest →
      TReadScriptFile.nextToken L fs (fuel + 1) r
        = .done () { toPayload := { r.toPayload.reset with Special := op, Token := .SPECIAL },
                     Frames := f.advance rest f.Line :: below }) ∧
    operatorTable = [(60, 61, 76), (60, 62, 78), (62, 61, 71), (45, 62, 73)] ∧
    (operatorPayloads ++ [60, 62, 45]).Nodup ∧
    (∀ a rest, a ∈ [60, 62, 45] → f.File = a :: rest →
      (∀ b t, rest = b :: t → ∀ op, (a, b, op) ∉ operatorTable) →
      TReadScriptFile.nextToken L fs (fuel + 1) r
        = .done () { toPayload := { r.toPayload.reset with Special := a, Token := .SPECIAL },
                     Frames := f.advance rest f.Line :: below }) ∧
    (∀ r1 op, TReadScriptFile.nextToken L fs fuel r = .done () r1 → r1.Token = .SPECIAL →
      op ∈ operatorPayloads → r1.Special = op →
      ∃ r0 g under pre a b rest l, Rounds L fs r.restart r0 ∧ r0.Frames = g :: under ∧
        g.File = pre ++ a :: b :: rest ∧ (∀ x ∈ pre, isSpace x = true) ∧
        (a, b, op) ∈ operatorTable ∧ r1.Frames = g.advance rest l :: under) := by
  refine ⟨?_, rfl, by decide, ?_, ?_⟩
  · intro a b op rest hop hf
    apply nextToken_of_scan_token L fs fuel r f below _ rest f.Line hr
    rw [hf]
    exact scan_operator L _ a b op rest f.Line hop
  · intro a rest ha hf hrest
    apply nextToken_of_scan_token L fs fuel r f below _ rest f.Line hr
    rw [hf]
    exact scan_single L _ a rest f.Line ha hrest
  · intro r1 op hdone hk hop hs
    have hne : r.Frames ≠ [] := by rw [hr]; simp
    rw [nextToken_eq_loop L fs fuel r hne] at hdone
    obtain ⟨r0, hrounds, hround⟩ := loop_done L fs fuel _ r1 hdone
    obtain ⟨g, under, q, F, l, hg, hscan, hr1⟩ := round_special L fs r0 r1 hround hk
    have hq : q = r1.toPayload := by rw [hr1]
    simp only [scan] at hscan
    cases hsk : skipSpace g.File g.Line with
    | mk c0 tl =>
      obtain ⟨rest0, l0⟩ := tl
      rw [hsk] at hscan
      cases c0 with
      | none => cases hscan
      | some c =>
        simp only at hscan
        obtain ⟨pre, hpre, hsp, _⟩ := skipSpace_spaces g.File g.Line c rest0 l0 hsk
        have hop1 : op ∈ [76, 78, 71, 73] := by simpa [operatorPayloads, operatorTable] using hop
        obtain ⟨b, hb, htab⟩ := scanSwitch_operator L _ q c rest0 F l0 l hscan
          (by rw [hq]; exact hk) op hop1 (by rw [hq]; exact hs)
        refine ⟨r0, g, under, pre, c, b, F, l, hrounds, hg, ?_, hsp, htab, ?_⟩
        · rw [hpre, hb]
        · rw [hr1]

theorem nextToken_operators_witness :
    (readerOn [60, 61, 120]).Frames = [Frame.mk (bytes "dat/in.dat") [60, 61, 120] 1] ∧
    (60, 61, 76) ∈ operatorTable ∧
    TReadScriptFile.nextToken sampleLimits noFiles 1 (readerOn [60, 61, 120])
      = .done () { toPayload := { (readerOn [60, 61, 120]).toPayload.reset with
                      Special := 76, Token := .SPECIAL },
                   Frames := [Frame.advance (Frame.mk (bytes "dat/in.dat") [60, 61, 120] 1)
                      [120] 1] } :=
  ⟨rfl, by decide, (nextToken_operators sampleLimits noFiles 0 (readerOn [60, 61, 120])
    (Frame.mk (bytes "dat/in.dat") [60, 61, 120] 1) [] rfl).1 60 61 76 [120] (by decide) rfl⟩

/-! ## Writer: errors -/

/-- C17. Writer requires an open session: when no file is open, each of
`writeLn`, `writeText`, `writeNumber`, `writeString`, `writeCoordinate` and
`writeBytesequence` throws for every argument and leaves the session as it
was, with no file open and nothing written. -/
theorem writer_requires_open (w : TWriteScriptFile) (h : w.File = none) :
    w.writeLn = .thrown (bytes "Cannot write linefeed") w ∧
    (∀ Text, w.writeText Text = .thrown (bytes "Cannot write text") w) ∧
    (∀ Number, w.writeNumber Number = .thrown (bytes "Cannot write number") w) ∧
    (∀ Text, w.writeString Text = .thrown (bytes "Cannot write string") w) ∧
    (∀ x y z, w.writeCoordinate x y z = .thrown (bytes "Cannot write coordinate") w) ∧
    (∀ Sequence Length, w.writeBytesequence Sequence Length
      = .thrown (bytes "Cannot write bytesequence") w) := by
  refine ⟨?_, ?_, ?_, ?_, ?_, ?_⟩
  · simp [TWriteScriptFile.writeLn, h]
  · intro Text; simp [TWriteScriptFile.writeText, h]
  · intro Number; simp [TWriteScriptFile.writeNumber, h]
  · intro Text; simp [TWriteScriptFile.writeString, h]
  · intro x y z; simp [TWriteScriptFile.writeCoordinate, h]
  · intro Sequence Length; simp [TWriteScriptFile.writeBytesequence, h]

theorem writer_requires_open_witness :
    closedWriter.File = none ∧
    closedWriter.writeLn = .thrown (bytes "Cannot write linefeed") closedWriter ∧
    (∀ Text, closedWriter.writeText Text = .thrown (bytes "Cannot write text") closedWriter) ∧
    (∀ Number, closedWriter.writeNumber Number
      = .thrown (bytes "Cannot write number") closedWriter) ∧
    (∀ Text, closedWriter.writeString Text
      = .thrown (bytes "Cannot write string") closedWriter) ∧
    (∀ x y z, closedWriter.writeCoordinate x y z
      = .thrown (bytes "Cannot write coordinate") closedWriter) ∧
    (∀ Sequence Length, closedWriter.writeBytesequence Sequence Length
      = .thrown (bytes "Cannot write bytesequence") closedWriter) :=
  ⟨rfl, writer_requires_open closedWriter rfl⟩

theorem writeText_open (w : TWriteScriptFile) (out t : List Nat) (hw : w.File = some out) :
    w.writeText (some t) = .done () { w with File := some (out ++ cstr t) } := by
  simp [TWriteScriptFile.writeText, hw, puts_eq]

theorem writeBytesLoop_open (bs : List Nat) : ∀ (w : TWriteScriptFile) (i : Nat)
    (out : List Nat), w.File = some out → ∃ w1, w.writeBytesLoop i bs = .done () w1 := by
  induction bs with
  | nil => intro w i out _; exact ⟨w, rfl⟩
  | cons b bs ih =>
    intro w i out hw
    simp only [TWriteScriptFile.writeBytesLoop]
    by_cases hi : i > 0
    · rw [if_pos hi]
      have h1 : (w.putc 45).File = some (out ++ [45]) := by
        simp [TWriteScriptFile.putc, hw]
      rw [writeText_open _ _ _ h1]
      exact ih _ (i + 1) _ rfl
    · rw [if_neg hi, writeText_open _ _ _ hw]
      exact ih _ (i + 1) _ rfl

/-- C20 (amended). Writer errors: `TWriteScriptFile::error` closes the file of
the session, while every error thrown by a write operation of an open session
leaves the session as it was, its file still open: so `writeCoordinate` with
a negative component, `writeBytesequence` with a null or empty sequence and
`writeText` or `writeString` with null text. -/
theorem writer_errors_keep_file (w : TWriteScriptFile) (out : List Nat)
    (hw : w.File = some out) :
    (∀ Text, ∃ msg, w.error Text = .thrown msg { w with File := none }) ∧
    (∀ msg s, (w.writeLn = .thrown msg s ∨ (∃ Text, w.writeText Text = .thrown msg s) ∨
        (∃ Number, w.writeNumber Number = .thrown msg s) ∨
        (∃ Text, w.writeString Text = .thrown msg s) ∨
        (∃ x y z, w.writeCoordinate x y z = .thrown msg s) ∨
        (∃ Sequence Length, w.writeBytesequence Sequence Length = .thrown msg s)) →
      s = w ∧ s.File = some out) ∧
    (∀ x y z, x < 0 ∨ y < 0 ∨ z < 0 →
      w.writeCoordinate x y z = .thrown (bytes "Invalid coordinates") w) ∧
    (∀ Length, w.writeBytesequence none Length
      = .thrown (bytes "Cannot write bytesequence") w) ∧
    (∀ Sequence Length, Length ≤ 0 → w.writeBytesequence Sequence Length
      = .thrown (bytes "Cannot write bytesequence") w) ∧
    w.writeText none = .thrown (bytes "Cannot write text") w ∧
    w.writeString none = .thrown (bytes "Cannot write string") w := by
  have hne : w.File ≠ none := by rw [hw]; simp
  refine ⟨fun Text => ⟨_, rfl⟩, ?_, ?_, ?_, ?_, ?_, ?_⟩
  · intro msg s h
    have key : s = w → s = w ∧ s.File = some out := fun e => ⟨e, by rw [e]; exact hw⟩
    rcases h with h | ⟨Text, h⟩ | ⟨Number, h⟩ | ⟨Text, h⟩ | ⟨x, y, z, h⟩ | ⟨Sequence, Length, h⟩
    · simp [TWriteScriptFile.writeLn, hne] at h
    · cases Text with
      | none =>
        simp [TWriteScriptFile.writeText, hne] at h
        exact key h.2.symm
      | some t => simp [TWriteScriptFile.writeText, hne] at h
    · simp [TWriteScriptFile.writeNumber, TWriteScriptFile.writeText, hne] at h
    · cases Text with
      | none =>
        simp [TWriteScriptFile.writeString, hne] at h
        exact key h.2.symm
      | some t => simp [TWriteScriptFile.writeString, hne] at h
    · simp only [TWriteScriptFile.writeCoordinate, hne, ↓reduceIte] at h
      by_cases hneg : x < 0 ∨ y < 0 ∨ z < 0
      · rw [if_pos hneg] at h
        simp only [Result.thrown.injEq] at h
        exact key h.2.symm
      · rw [if_neg hneg] at h
        simp [TWriteScriptFile.writeText, hne] at h
    · cases Sequence with
      | none =>
        simp [TWriteScriptFile.writeBytesequence, hne] at h
        exact key h.2.symm
      | some seq =>
        simp only [TWriteScriptFile.writeBytesequence, hne, ↓reduceIte] at h
        by_cases hl : Length ≤ 0
        · rw [if_pos hl] at h
          simp only [Result.thrown.injEq] at h
          exact key h.2.symm
        · rw [if_neg hl] at h
          obtain ⟨w1, h1⟩ := writeBytesLoop_open (seq.take Length.toNat) w 0 out hw
          rw [h1] at h
          cases h
  · intro x y z hneg
    simp [TWriteScriptFile.writeCoordinate, hne, hneg]
  · intro Length
    simp [TWriteScriptFile.writeBytesequence, hne]
  · intro Sequence Length hl
    cases Sequence <;> simp [TWriteScriptFile.writeBytesequence, hne, hl]
  · simp [TWriteScriptFile.writeText, hne]
  · simp [TWriteScriptFile.writeString, hne]

theorem writer_errors_keep_file_witness :
    sampleWriter.File = some [] ∧
    sampleWriter.writeCoordinate (-1) 0 0
      = .thrown (bytes "Invalid coordinates") sampleWriter :=
  ⟨rfl, (writer_errors_keep_file sampleWriter [] rfl).2.2.1 (-1) 0 0 (Or.inl (by decide))⟩

/-- C20 (counterexample). On a writer that has just opened its file,
`writeCoordinate(-1, 0, 0)`, `writeBytesequence` with an empty sequence and
`writeText` with null text each throw and the file is still open when the
error reaches the caller. -/
theorem writer_errors_close_counterexample :
    sampleWriter.File = some [] ∧
    (∃ msg s, sampleWriter.writeCoordinate (-1) 0 0 = .thrown msg s ∧ s.File = some []) ∧
    (∃ msg s, sampleWriter.writeBytesequence (some []) 0 = .thrown msg s ∧
      s.File = some []) ∧
    (∃ msg s, sampleWriter.writeText none = .thrown msg s ∧ s.File = some []) :=
  ⟨rfl, ⟨_, _, rfl, rfl⟩, ⟨_, _, rfl, rfl⟩, ⟨_, _, rfl, rfl⟩⟩

/-! ## End of input -/

/-- C19 (amended). Session lifecycle at end of input: when `nextToken` on an
open session returns ENDOFFILE, the top-level file is exhausted and that one
level is still open, at its end, the depth being 0; a following `close`
leaves no level open and the depth -1, and a following `nextToken` returns
ENDOFFILE again on the same open level. -/
theorem nextToken_endOfFile_session (L : Limits) (fs : FileSystem) (fuel : Nat)
    (r r1 : TReadScriptFile) (hne : r.Frames ≠ [])
    (h : TReadScriptFile.nextToken L fs fuel r = .done () r1)
    (hk : r1.Token = .ENDOFFILE) :
    (∃ g, r1.Frames = [g] ∧ g.File = []) ∧ r1.RecursionDepth = 0 ∧
    r1.close.Frames = [] ∧ r1.close.RecursionDepth = -1 ∧
    (∀ fuel1, ∃ r2, TReadScriptFile.nextToken L fs (fuel1 + 1) r1 = .done () r2 ∧
      r2.Token = .ENDOFFILE ∧ r2.Frames = r1.Frames) := by
  rw [nextToken_eq_loop L fs fuel r hne] at h
  obtain ⟨r0, _, hround⟩ := loop_done L fs fuel _ r1 h
  obtain ⟨g, l, _, _, hr1⟩ := round_eof L fs r0 r1 hround hk
  have hF : r1.Frames = [g.advance [] l] := by rw [hr1]
  refine ⟨⟨_, hF, rfl⟩, ?_, ?_, ?_, ?_⟩
  · simp [TReadScriptFile.RecursionDepth, hF]
  · simp [TReadScriptFile.close, hF]
  · simp [TReadScriptFile.RecursionDepth, TReadScriptFile.close, hF]
  · intro fuel1
    refine ⟨_, nextToken_of_scan_eof L fs fuel1 r1 (g.advance [] l) l hF
      (by simp [Frame.advance, scan_nil]), rfl, ?_⟩
    rw [hF]
    rfl

theorem nextToken_endOfFile_session_witness :
    (readerOn []).Frames ≠ [] ∧
    (∃ g, (readerOn []).Frames = [g] ∧ g.File = []) ∧ (readerOn []).RecursionDepth = 0 ∧
    (readerOn []).close.Frames = [] ∧ (readerOn []).close.RecursionDepth = -1 ∧
    (∀ fuel1, ∃ r2, TReadScriptFile.nextToken sampleLimits noFiles (fuel1 + 1) (readerOn [])
        = .done () r2 ∧
      r2.Token = .ENDOFFILE ∧ r2.Frames = (readerOn []).Frames) :=
  ⟨by decide, nextToken_endOfFile_session sampleLimits noFiles 1 (readerOn []) (readerOn [])
    (by decide) (by decide) rfl⟩

/-- C19 (counterexample). On a session whose top-level file is empty,
`nextToken` returns ENDOFFILE and the session still has its one level open:
the depth is 0, not -1. -/
theorem nextToken_endOfFile_counterexample :
    ∃ r1, TReadScriptFile.nextToken sampleLimits noFiles 1 (readerOn []) = .done () r1 ∧
      r1.Token = .ENDOFFILE ∧ r1.Frames.length = 1 ∧ r1.RecursionDepth = 0 :=
  ⟨_, rfl, rfl, rfl, rfl⟩

/-! ## Coordinate components -/

theorem scanCoordDigits_inv (stop : Nat) (File : List Nat) :
    ∀ (acc v : Int) (rest : List Nat), scanCoordDigits stop File acc = .ok (v, rest) →
      ∃ ds, File = ds ++ stop :: rest ∧ (∀ d ∈ ds, isDigit d = true) ∧
        v = digitsWrapped acc ds := by
  induction File with
  | nil => intro acc v rest h; simp [scanCoordDigits] at h
  | cons c File ih =>
    intro acc v rest h
    simp only [scanCoordDigits] at h
    by_cases hd : isDigit c = true
    · rw [if_pos hd] at h
      obtain ⟨ds, h1, h2, h3⟩ := ih _ v rest h
      refine ⟨c :: ds, by rw [h1]; rfl, ?_, by simpa [digitsWrapped] using h3⟩
      intro d hd1
      rcases List.mem_cons.1 hd1 with rfl | hd1
      · exact hd
      · exact h2 d hd1
    · rw [if_neg hd] at h
      by_cases hs : c = stop
      · rw [if_pos hs] at h
        simp only [Except.ok.injEq, Prod.mk.injEq] at h
        obtain ⟨rfl, rfl⟩ := h
        exact ⟨[], by simp [hs], by simp, rfl⟩
      · rw [if_neg hs] at h
        cases h

theorem scanCoordDigits_cause (stop : Nat) (File : List Nat) :
    ∀ (acc : Int) (Text : List Nat), scanCoordDigits stop File acc = .error Text →
      Text ∈ coordinateCauses := by
  induction File with
  | nil =>
    intro acc Text h
    simp only [scanCoordDigits, Except.error.injEq] at h
    simp [coordinateCauses, ← h]
  | cons c File ih =>
    intro acc Text h
    simp only [scanCoordDigits] at h
    by_cases hd : isDigit c = true
    · rw [if_pos hd] at h
      exact ih _ Text h
    · rw [if_neg hd] at h
      by_cases hs : c = stop
      · rw [if_pos hs] at h
        cases h
      · rw [if_neg hs] at h
        simp only [Except.error.injEq] at h
        simp [coordinateCauses, ← h]

theorem scanCoordComponent_ok (stop : Nat) (hstop : isDigit stop = false) (c rest : List Nat)
    (hc : isComponent c = true) :
    scanCoordComponent stop (c ++ stop :: rest) = .ok (componentValue c, rest) := by
  cases c with
  | nil => simp [isComponent] at hc
  | cons a ds =>
    simp only [isComponent, Bool.and_eq_true, Bool.or_eq_true, decide_eq_true_eq,
      List.all_eq_true] at hc
    obtain ⟨ha, hds⟩ := hc
    by_cases hd : isDigit a = true
    · simp [scanCoordComponent, hd, scanCoordDigits_digits stop hstop ds rest _ hds,
        componentValue]
    · have h45 : a = 45 := by
        rcases ha with h | h
        · exact absurd h hd
        · exact h
      subst h45
      simp [scanCoordComponent, isDigit, scanCoordDigits_digits stop hstop ds rest _ hds,
        componentValue]

theorem scanCoordComponent_inv (stop : Nat) (File rest : List Nat) (v : Int)
    (h : scanCoordComponent stop File = .ok (v, rest)) :
    ∃ c, File = c ++ stop :: rest ∧ isComponent c = true ∧ v = componentValue c := by
  cases File with
  | nil => simp [scanCoordComponent] at h
  | cons a File =>
    simp only [scanCoordComponent] at h
    by_cases hd : isDigit a = true
    · rw [if_pos hd] at h
      cases hs : scanCoordDigits stop File ((a : Int) - 48) with
      | error T => rw [hs] at h; cases h
      | ok w =>
        obtain ⟨Coord, rest1⟩ := w
        rw [hs] at h
        simp only [Except.ok.injEq, Prod.mk.injEq] at h
        obtain ⟨hv, hrest⟩ := h
        obtain ⟨ds, h1, h2, h3⟩ := scanCoordDigits_inv stop File _ _ _ hs
        refine ⟨a :: ds, by rw [h1, hrest]; rfl, ?_, ?_⟩
        · simp only [isComponent, Bool.and_eq_true, Bool.or_eq_true, decide_eq_true_eq,
            List.all_eq_true]
          exact ⟨Or.inl hd, h2⟩
        · simp [componentValue, hd, ← hv, h3]
    · rw [if_neg hd] at h
      by_cases h45 : a = 45
      · subst h45
        simp only [ne_eq, not_true_eq_false, ↓reduceIte] at h
        cases hs : scanCoordDigits stop File 0 with
        | error T => rw [hs] at h; cases h
        | ok w =>
          obtain ⟨Coord, rest1⟩ := w
          rw [hs] at h
          simp only [Except.ok.injEq, Prod.mk.injEq] at h
          obtain ⟨hv, hrest⟩ := h
          obtain ⟨ds, h1, h2, h3⟩ := scanCoordDigits_inv stop File _ _ _ hs
          refine ⟨45 :: ds, by rw [h1, hrest]; rfl, ?_, ?_⟩
          · simp only [isComponent, Bool.and_eq_true, Bool.or_eq_true, decide_eq_true_eq,
              List.all_eq_true]
            exact ⟨Or.inr trivial, h2⟩
          · simp [componentValue, isDigit, ← hv, h3]
      · simp [h45] at h

theorem scanCoordComponent_cause (stop : Nat) (File : List Nat) (Text : List Nat)
    (h : scanCoordComponent stop File = .error Text) : Text ∈ coordinateCauses := by
  cases File with
  | nil =>
    simp only [scanCoordComponent, Except.error.injEq] at h
    simp [coordinateCauses, ← h]
  | cons a File =>
    simp only [scanCoordComponent] at h
    by_cases hd : isDigit a = true
    · rw [if_pos hd] at h
      cases hs : scanCoordDigits stop File ((a : Int) - 48) with
      | error T =>
        rw [hs] at h
        simp only [Except.error.injEq] at h
        rw [← h]
        exact scanCoordDigits_cause stop File _ T hs
      | ok w => rw [hs] at h; cases h
    · rw [if_neg hd] at h
      by_cases h45 : a = 45
      · subst h45
        simp only [ne_eq, not_true_eq_false, ↓reduceIte] at h
        cases hs : scanCoordDigits stop File 0 with
        | error T =>
          rw [hs] at h
          simp only [Except.error.injEq] at h
          rw [← h]
          exact scanCoordDigits_cause stop File _ T hs
        | ok w => rw [hs] at h; cases h
      · simp only [ne_eq, h45, not_false_eq_true, ↓reduceIte, Except.error.injEq] at h
        simp [coordinateCauses, ← h]

theorem nextToken_of_scan_fail (L : Limits) (fs : FileSystem) (fuel : Nat)
    (r : TReadScriptFile) (f : Frame) (below : List Frame) (p : Payload)
    (Text : List Nat) (Line : Int) (hr : r.Frames = f :: below)
    (hscan : scan L r.toPayload.reset f.File f.Line = .fail Text p Line) :
    TReadScriptFile.nextToken L fs (fuel + 1) r
      = .thrown (snprintf 100 (errorText (baseName f.Filename) Line Text))
          { toPayload := p, Frames := [] } := by
  unfold TReadScriptFile.nextToken
  simp only [hr, reduceCtorEq, ↓reduceIte]
  unfold TReadScriptFile.nextTokenLoop TReadScriptFile.nextTokenRound
  simp only [hscan, TReadScriptFile.error, Frame.advance]

theorem scan_bracket (L : Limits) (p : Payload) (n : Nat) (rest0 : List Nat) (Line : Int) :
    scan L p (91 :: n :: rest0) Line = scanSwitch L p 91 (n :: rest0) Line := by
  simp only [scan, skipSpace_nonspace 91 _ Line (by decide) (by decide)]

/-- C18 (amended). Coordinate components: in an input starting with `[`
followed by a digit or a minus sign, `nextToken` returns a COORDINATE token
exactly when the text up to the closing bracket is three components
separated by commas, each a run of one or more digits or a minus sign
followed by digits, possibly none; a minus sign alone has the value 0. Every
other such input (an empty component, or a byte that is no digit where a digit
or separator is expected) makes `nextToken` throw a syntax error, or the
end-of-file error when the input ends first. -/
theorem nextToken_coordinate_components (L : Limits) (fs : FileSystem) (fuel : Nat)
    (r : TReadScriptFile) (f : Frame) (below : List Frame) (n : Nat) (rest0 : List Nat)
    (hr : r.Frames = f :: below) (hf : f.File = 91 :: n :: rest0)
    (hn : isDigit n = true ∨ n = 45) :
    (∀ c1 c2 c3 rest, isComponent c1 = true → isComponent c2 = true →
      isComponent c3 = true → n :: rest0 = c1 ++ 44 :: (c2 ++ 44 :: (c3 ++ 93 :: rest)) →
      TReadScriptFile.nextToken L fs (fuel + 1) r
        = .done () { toPayload := { r.toPayload.reset with
                        CoordX := componentValue c1, CoordY := componentValue c2,
                        CoordZ := componentValue c3, Token := .COORDINATE },
                     Frames := f.advance rest f.Line :: below }) ∧
    ((¬ ∃ c1 c2 c3 rest, isComponent c1 = true ∧ isComponent c2 = true ∧
        isComponent c3 = true ∧ n :: rest0 = c1 ++ 44 :: (c2 ++ 44 :: (c3 ++ 93 :: rest))) →
      ∃ cause s, cause ∈ coordinateCauses ∧
        TReadScriptFile.nextToken L fs (fuel + 1) r
          = .thrown (snprintf 100 (errorText (baseName f.Filename) f.Line cause)) s ∧
        s.Frames = []) ∧
    isComponent [45] = true ∧ componentValue [45] = 0 ∧ isComponent [] = false := by
  have hscan : scan L r.toPayload.reset f.File f.Line
      = scanSwitch L r.toPayload.reset 91 (n :: rest0) f.Line := by
    rw [hf]
    exact scan_bracket L _ n rest0 f.Line
  rw [scanSwitch_bracket L _ f.Line n rest0 hn] at hscan
  refine ⟨?_, ?_, by decide, by decide, by decide⟩
  · intro c1 c2 c3 rest h1 h2 h3 htext
    apply nextToken_of_scan_token L fs fuel r f below _ rest f.Line hr
    rw [hscan, htext, scanCoordComponent_ok 44 (by decide) c1 _ h1]
    simp only
    rw [scanCoordComponent_ok 44 (by decide) c2 _ h2]
    simp only
    rw [scanCoordComponent_ok 93 (by decide) c3 _ h3]
  · intro hnot
    cases hX : scanCoordComponent 44 (n :: rest0) with
    | error T =>
      rw [hX] at hscan
      exact ⟨T, _, scanCoordComponent_cause 44 _ T hX,
        nextToken_of_scan_fail L fs fuel r f below _ T f.Line hr hscan, rfl⟩
    | ok vx =>
      obtain ⟨X, rest2⟩ := vx
      rw [hX] at hscan
      simp only at hscan
      cases hY : scanCoordComponent 44 rest2 with
      | error T =>
        rw [hY] at hscan
        exact ⟨T, _, scanCoordComponent_cause 44 _ T hY,
          nextToken_of_scan_fail L fs fuel r f below _ T f.Line hr hscan, rfl⟩
      | ok vy =>
        obtain ⟨Y, rest3⟩ := vy
        rw [hY] at hscan
        simp only at hscan
        cases hZ : scanCoordComponent 93 rest3 with
        | error T =>
          rw [hZ] at hscan
          exact ⟨T, _, scanCoordComponent_cause 93 _ T hZ,
            nextToken_of_scan_fail L fs fuel r f below _ T f.Line hr hscan, rfl⟩
        | ok vz =>
          obtain ⟨Z, rest4⟩ := vz
          exfalso
          obtain ⟨c1, e1, k1, _⟩ := scanCoordComponent_inv 44 _ _ _ hX
          obtain ⟨c2, e2, k2, _⟩ := scanCoordComponent_inv 44 _ _ _ hY
          obtain ⟨c3, e3, k3, _⟩ := scanCoordComponent_inv 93 _ _ _ hZ
          exact hnot ⟨c1, c2, c3, rest4, k1, k2, k3, by rw [e1, e2, e3]⟩

theorem nextToken_coordinate_components_witness :
    (readerOn [91, 45, 44, 49, 44, 50, 93]).Frames
      = [Frame.mk (bytes "dat/in.dat") [91, 45, 44, 49, 44, 50, 93] 1] ∧
    TReadScriptFile.nextToken sampleLimits noFiles 1 (readerOn [91, 45, 44, 49, 44, 50, 93])
      = .done () { toPayload := { (readerOn [91, 45, 44, 49, 44, 50, 93]).toPayload.reset with
                      CoordX := componentValue [45], CoordY := componentValue [49],
                      CoordZ := componentValue [50], Token := .COORDINATE },
                   Frames := [Frame.advance
                      (Frame.mk (bytes "dat/in.dat") [91, 45, 44, 49, 44, 50, 93] 1) [] 1] } :=
  ⟨rfl, (nextToken_coordinate_components sampleLimits noFiles 0
    (readerOn [91, 45, 44, 49, 44, 50, 93])
    (Frame.mk (bytes "dat/in.dat") [91, 45, 44, 49, 44, 50, 93] 1) [] 45 [44, 49, 44, 50, 93]
    rfl rfl (Or.inr rfl)).1 [45] [49] [50] [] (by decide) (by decide) (by decide) rfl⟩

/-- C18 (counterexample). The inputs `[-,1,2]` and `[1,-,2]`, each with a
component that has no digit, raise no error: `nextToken` returns COORDINATE
tokens, with the values (0, 1, 2) and (1, 0, 2). -/
theorem nextToken_coordinate_digits_counterexample :
    (∃ r1, TReadScriptFile.nextToken sampleLimits noFiles 1 (readerOn (bytes "[-,1,2]"))
        = .done () r1 ∧ r1.Token = .COORDINATE ∧
      r1.getCoordinate = .done (0, 1, 2) r1) ∧
    (∃ r1, TReadScriptFile.nextToken sampleLimits noFiles 1 (readerOn (bytes "[1,-,2]"))
        = .done () r1 ∧ r1.Token = .COORDINATE ∧
      r1.getCoordinate = .done (1, 0, 2) r1) :=
  ⟨⟨_, rfl, by decide, by decide⟩, ⟨_, rfl, by decide, by decide⟩⟩

/-! ## Byte-sequence values -/

theorem digitsWrapped_group (d : Nat) (ds : List Nat) (hd : isDigit d = true)
    (hds : ∀ c ∈ ds, isDigit c = true) (hv : digitsValue 0 (d :: ds) < 2147483648) :
    digitsWrapped ((d : Int) - 48) ds = digitsValue 0 (d :: ds) := by
  have h48 := (isDigit_iff d).1 hd
  have e : digitsValue 0 (d :: ds) = digitsValue ((d : Int) - 48) ds := by
    simp [digitsValue]
  rw [e] at hv ⊢
  exact digitsWrapped_eq ds _ (by omega) hds hv

/-- The digit loop on the rest of a byte sequence: after the value `acc`, the
groups `gs` of digits, each after a minus sign. -/
theorem scanNumber_digit_groups (L : Limits) (Line : Int) (tail : List Nat)
    (htail : ∀ c t, tail = c :: t → isDigit c = false ∧ c ≠ 45) (gs : List (List Nat)) :
    ∀ (p : Payload) (acc : Int), p.String.length + gs.length + 1 ≤ L.NSTRING →
      (gs ≠ [] ∨ p.String ≠ []) →
      (∀ x ∈ gs, x ≠ [] ∧ (∀ c ∈ x, isDigit c = true) ∧ digitsValue 0 x < 2147483648) →
      scanNumber L.NSTRING p Line (gs.flatMap (fun x => 45 :: x) ++ tail) acc
        = .token { p with Token := .BYTES,
                          String := p.String ++ toUint8 acc :: gs.map groupByte } tail
            Line := by
  induction gs with
  | nil =>
    intro p acc hcap hne _
    have hp : p.String ≠ [] := by
      rcases hne with h | h
      · exact absurd rfl h
      · exact h
    have hlen : 0 < p.String.length := List.length_pos.2 hp
    simp only [List.flatMap_nil, List.nil_append, scanNumber_stop L p Line tail acc htail]
    simp only [List.length_nil] at hcap
    rw [if_neg (by omega), if_neg (by omega)]
    simp
  | cons g gs ih =>
    intro p acc hcap _ hg
    obtain ⟨hne, hdig, hval⟩ := hg g (List.mem_cons_self _ _)
    cases g with
    | nil => exact absurd rfl hne
    | cons d ds =>
      have hd : isDigit d = true := hdig d (List.mem_cons_self _ _)
      have hds : ∀ c ∈ ds, isDigit c = true := fun c hc => hdig c (List.mem_cons_of_mem _ hc)
      simp only [List.length_cons] at hcap
      simp only [List.flatMap_cons, List.cons_append, List.append_assoc]
      rw [scanNumber_cons_minus L p Line d _ acc hd (by omega),
        scanNumber_digits L _ Line ds _ _ hds, digitsWrapped_group d ds hd hds hval,
        ih _ _ (by simp; omega) (Or.inr (by simp))
          (fun x hx => hg x (List.mem_cons_of_mem _ hx))]
      simp [groupByte, toUint8]

/-- C22. Byte-sequence values: when the unread input begins with two or more
groups of decimal digits joined by single minus signs, at most as many as the
byte buffer holds, each with a value that fits a signed 32-bit integer, and the
byte after the last group is neither a digit nor a minus sign (or the input
ends), `nextToken` returns one BYTES token that holds one byte per group, the
decimal value of the group modulo 256, whatever the value. -/
theorem nextToken_byte_groups (L : Limits) (fs : FileSystem) (fuel : Nat)
    (r : TReadScriptFile) (f : Frame) (below : List Frame) (g : List Nat)
    (gs : List (List Nat)) (tail : List Nat)
    (hr : r.Frames = f :: below) (hf : f.File = groupsText (g :: gs) ++ tail)
    (hk : gs ≠ []) (hcap : (g :: gs).length ≤ L.NSTRING)
    (hg : ∀ x ∈ g :: gs, x ≠ [] ∧ (∀ c ∈ x, isDigit c = true) ∧
      digitsValue 0 x < 2147483648)
    (htail : ∀ c t, tail = c :: t → isDigit c = false ∧ c ≠ 45) :
    ∃ r1, TReadScriptFile.nextToken L fs (fuel + 1) r = .done () r1 ∧
      r1.Token = .BYTES ∧ r1.String = (g :: gs).map groupByte ∧
      r1.String.length = (g :: gs).length ∧
      r1.getBytesequence L = .done ((g :: gs).map groupByte
        ++ List.replicate (L.NSTRING - (g :: gs).length) 0) r1 ∧
      r1.Frames = f.advance tail f.Line :: below := by
  obtain ⟨hne, hdig, hval⟩ := hg g (List.mem_cons_self _ _)
  cases g with
  | nil => exact absurd rfl hne
  | cons d ds =>
    have hd : isDigit d = true := hdig d (List.mem_cons_self _ _)
    have hds : ∀ c ∈ ds, isDigit c = true := fun c hc => hdig c (List.mem_cons_of_mem _ hc)
    have hscan : scan L r.toPayload.reset f.File f.Line
        = .token { r.toPayload.reset with
            Token := .BYTES, String := ((d :: ds) :: gs).map groupByte } tail f.Line := by
      simp only [List.length_cons] at hcap
      rw [hf]
      simp only [groupsText, List.cons_append, List.append_assoc]
      rw [scan_digit L _ d _ f.Line hd, scanNumber_digits L _ f.Line ds _ _ hds,
        digitsWrapped_group d ds hd hds hval,
        scanNumber_digit_groups L f.Line tail htail gs _ _
          (by simp [Payload.reset]; omega) (Or.inl hk)
          (fun x hx => hg x (List.mem_cons_of_mem _ hx))]
      simp [Payload.reset, groupByte, toUint8]
    refine ⟨_, nextToken_of_scan_token L fs fuel r f below _ tail f.Line hr hscan,
      rfl, rfl, by simp, ?_, rfl⟩
    simp [TReadScriptFile.getBytesequence]

theorem nextToken_byte_groups_witness :
    (∀ x ∈ [[51, 48, 48], [48, 55]], x ≠ [] ∧ (∀ c ∈ x, isDigit c = true) ∧
      digitsValue 0 x < 2147483648) ∧
    groupByte [51, 48, 48] = 44 ∧
    ∃ r1, TReadScriptFile.nextToken sampleLimits noFiles 1
        (readerOn [51, 48, 48, 45, 48, 55, 32]) = .done () r1 ∧
      r1.Token = .BYTES ∧ r1.String = [[51, 48, 48], [48, 55]].map groupByte ∧
      r1.String.length = [[51, 48, 48], [48, 55]].length ∧
      r1.getBytesequence sampleLimits = .done ([[51, 48, 48], [48, 55]].map groupByte
        ++ List.replicate (sampleLimits.NSTRING - [[51, 48, 48], [48, 55]].length) 0) r1 ∧
      r1.Frames = [Frame.advance
        (Frame.mk (bytes "dat/in.dat") [51, 48, 48, 45, 48, 55, 32] 1) [32] 1] :=
  ⟨by decide, by decide,
    nextToken_byte_groups sampleLimits noFiles 0 (readerOn [51, 48, 48, 45, 48, 55, 32])
      (Frame.mk (bytes "dat/in.dat") [51, 48, 48, 45, 48, 55, 32] 1) [] [51, 48, 48]
      [[48, 55]] [32] rfl rfl (by decide) (by decide) (by decide)
      (by intro c t h; cases h; decide)⟩

/-! ## Include path -/

theorem scanString_plain (L : Limits) (body : List Nat) :
    ∀ (p : Payload) (rest : List Nat) (Line : Int), (∀ c ∈ body, c ≠ 34 ∧ c ≠ 92) →
      p.String.length + body.length ≤ L.NSTRING - 1 →
      scanString L.NSTRING p (body ++ 34 :: rest) Line
        = .token { p with String := p.String ++ body, Token := .STRING } rest
            (Line + body.count 10) := by
  induction body with
  | nil =>
    intro p rest Line _ _
    rw [List.nil_append, scanString_cons]
    simp
  | cons c body ih =>
    intro p rest Line hb hlen
    obtain ⟨h34, h92⟩ := hb c (List.mem_cons_self _ _)
    simp only [List.length_cons] at hlen
    have hcap : ¬ p.String.length ≥ L.NSTRING - 1 := by omega
    rw [List.cons_append, scanString_cons, if_neg h92]
    by_cases h10 : c = 10
    · subst h10
      rw [if_pos rfl, if_neg hcap,
        ih _ rest _ (fun x hx => hb x (List.mem_cons_of_mem _ hx)) (by simp; omega)]
      simp only [List.append_assoc, List.singleton_append, List.count_cons_self,
        Nat.cast_add, Nat.cast_one, Scan.token.injEq, true_and]
      omega
    · rw [if_neg h10, if_neg h34, if_neg hcap,
        ih _ rest _ (fun x hx => hb x (List.mem_cons_of_mem _ hx)) (by simp; omega)]
      have : List.count 10 (c :: body) = List.count 10 body := by
        rw [List.count_cons_of_ne (fun e => h10 e.symm)]
      simp [this]

/-- C21 (amended). Include path: the bytes between the quotes of an include
directive are passed to `open` as they are, up to the next double quote, with
no escape decoding (a backslash is a byte of the path like any other); the
path is the payload `nextToken` produces for the same quoted text read as a
STRING token whenever that text holds no backslash. -/
theorem include_path_verbatim (L : Limits) (fs : FileSystem) (fuel : Nat)
    (r : TReadScriptFile) (f : Frame) (below : List Frame) (body rest : List Nat)
    (hr : r.Frames = f :: below) (hq : ∀ c ∈ body, c ≠ 34)
    (hlen : body.length ≤ L.NSTRING - 1) :
    (f.File = 64 :: 34 :: (body ++ 34 :: rest) → r.Frames.length + 1 < L.NFILE →
      TReadScriptFile.nextTokenRound L fs r.restart =
        match fs (resolvePath (f :: below) (cstr body)) with
        | none => .thrown (bytes "Cannot open script-file")
            { toPayload := { r.toPayload.reset with String := body },
              Frames := f.advance rest f.Line :: below }
        | some content => .done false
            { toPayload := r.toPayload.reset,
              Frames := Frame.mk (resolvePath (f :: below) (cstr body)) content 1
                :: f.advance rest f.Line :: below }) ∧
    (f.File = 34 :: (body ++ 34 :: rest) → (∀ c ∈ body, c ≠ 92) →
      ∃ r1, TReadScriptFile.nextToken L fs (fuel + 1) r = .done () r1 ∧
        r1.Token = .STRING ∧ r1.getString = .done (cstr body) r1) := by
  constructor
  · intro hf hdepth
    have hscan := scan_include L r.toPayload.reset f.Line body rest rfl hq hlen
    rw [← hf] at hscan
    have hr0 : r.restart.Frames = f :: below := hr
    rw [round_eq L fs r.restart f below hr0]
    have hp : r.restart.toPayload = r.toPayload.reset := rfl
    rw [hp, hscan]
    simp only
    have hd : ¬ ((f.advance rest f.Line :: below).length + 1 ≥ L.NFILE) := by
      rw [hr] at hdepth
      simp only [List.length_cons] at hdepth ⊢
      omega
    have hres : resolvePath (f.advance rest f.Line :: below) (cstr body)
        = resolvePath (f :: below) (cstr body) := resolvePath_head _ _ _ _ _ rfl
    simp only [TReadScriptFile.open, hd, ↓reduceIte, hres]
    cases fs (resolvePath (f :: below) (cstr body)) with
    | none => rfl
    | some content => simp [Payload.reset]
  · intro hf h92
    have hscan : scan L r.toPayload.reset f.File f.Line
        = .token { r.toPayload.reset with String := body, Token := .STRING } rest
            (f.Line + body.count 10) := by
      rw [hf]
      simp only [scan, skipSpace_nonspace 34 _ f.Line (by decide) (by decide)]
      have := scanString_plain L body r.toPayload.reset rest f.Line
        (fun c hc => ⟨hq c hc, h92 c hc⟩) (by simpa [Payload.reset] using hlen)
      simpa [scanSwitch, Payload.reset] using this
    refine ⟨_, nextToken_of_scan_token L fs fuel r f below _ rest _ hr hscan, rfl, ?_⟩
    simp [TReadScriptFile.getString]

theorem include_path_verbatim_witness :
    (readerOn (bytes "\"x.dat\"")).Frames
      = [Frame.mk (bytes "dat/in.dat") (bytes "\"x.dat\"") 1] ∧
    ∃ r1, TReadScriptFile.nextToken sampleLimits noFiles 1 (readerOn (bytes "\"x.dat\""))
        = .done () r1 ∧
      r1.Token = .STRING ∧ r1.getString = .done (cstr (bytes "x.dat")) r1 :=
  ⟨rfl, (include_path_verbatim sampleLimits noFiles 0 (readerOn (bytes "\"x.dat\""))
    (Frame.mk (bytes "dat/in.dat") (bytes "\"x.dat\"") 1) [] (bytes "x.dat") [] rfl
    (by decide) (by decide)).2 (by decide) (by decide)⟩

/-- C21 (counterexample). The quoted text `"x\ny"`, with a backslash and the
letter `n`: read as a STRING token its payload is `x`, a newline, `y`; in an
include directive the path passed to `open` is `x\ny` with the backslash, so
the file of that name is opened. And in `@"a\"b"` the path ends at the quote
after the backslash. -/
theorem include_path_escape_counterexample :
    (∃ r1, TReadScriptFile.nextToken sampleLimits noFiles 1 (readerOn (bytes "\"x\\ny\""))
        = .done () r1 ∧ r1.getString = .done [120, 10, 121] r1) ∧
    (∃ r1, TReadScriptFile.nextTokenRound sampleLimits rawPathFiles
        (readerOn (bytes "@\"x\\ny\"")) = .done false r1 ∧
      r1.Frames.map Frame.Filename = [[100, 97, 116, 47, 120, 92, 110, 121],
        bytes "dat/in.dat"]) ∧
    scan sampleLimits (readerOn []).toPayload (bytes "@\"a\\\"b\"") 1
      = .incl { (readerOn []).toPayload with String := [97, 92] } (bytes "b\"") 1 := by
  refine ⟨⟨_, rfl, by decide⟩, ⟨_, rfl, by decide⟩, by decide⟩

/-! ## Termination -/

theorem loop_more_fuel (L : Limits) (fs : FileSystem) : ∀ (fuel : Nat) (r : TReadScriptFile),
    (TReadScriptFile.nextTokenLoop L fs fuel r).returns →
    ∀ k, TReadScriptFile.nextTokenLoop L fs (fuel + k) r
      = TReadScriptFile.nextTokenLoop L fs fuel r := by
  intro fuel
  induction fuel with
  | zero => intro r h; simp [TReadScriptFile.nextTokenLoop, Result.returns] at h
  | succ fuel ih =>
    intro r h k
    have e : fuel + 1 + k = (fuel + k) + 1 := by omega
    rw [e]
    simp only [TReadScriptFile.nextTokenLoop] at h ⊢
    cases hround : TReadScriptFile.nextTokenRound L fs r with
    | done b r1 =>
      cases b with
      | true => rfl
      | false =>
        rw [hround] at h
        exact ih r1 h k
    | thrown msg s => rfl
    | abort => rfl
    | stuck => rfl

theorem ends_of_rounds (L : Limits) (fs : FileSystem) (r r1 : TReadScriptFile)
    (h : Rounds L fs r r1) : Ends L fs r1 → Ends L fs r := by
  induction h with
  | here r => exact id
  | next r r1 r2 hround _ ih =>
    intro he
    obtain ⟨fuel, hf⟩ := ih he
    refine ⟨fuel + 1, ?_⟩
    rw [nextTokenLoop_again L fs fuel r r1 hround]
    exact hf

theorem ends_of_return (L : Limits) (fs : FileSystem) (r r1 : TReadScriptFile)
    (h : TReadScriptFile.nextTokenRound L fs r = .done true r1) : Ends L fs r := by
  refine ⟨1, ?_⟩
  rw [nextTokenLoop_return L fs 0 r r1 h]
  trivial

theorem ends_of_raise (L : Limits) (fs : FileSystem) (r s : TReadScriptFile) (msg : List Nat)
    (h : TReadScriptFile.nextTokenRound L fs r = .thrown msg s) : Ends L fs r := by
  refine ⟨1, ?_⟩
  rw [nextTokenLoop_raise L fs 0 r s msg h]
  trivial

/-- An include directive takes bytes from the file. -/
theorem scan_incl_shorter (L : Limits) (p q : Payload) (File F : List Nat) (Line l : Int)
    (h : scan L p File Line = .incl q F l) : F.length < File.length := by
  simp only [scan] at h
  cases hsk : skipSpace File Line with
  | mk c0 tl =>
    obtain ⟨rest, l0⟩ := tl
    rw [hsk] at h
    cases c0 with
    | none => cases h
    | some c =>
      simp only at h
      obtain ⟨_, _, pre, hpre⟩ := skipSpace_some File Line c rest l0 hsk
      have hgood : (scanSwitch L p c rest l0).good := by rw [h]; trivial
      have hsuf := (scanSwitch_ext L [] p c rest l0 hgood).2
      rw [h] at hsuf
      have hle : F.length ≤ rest.length := hsuf.length_le
      rw [hpre]
      simp only [List.length_append, List.length_cons]
      omega

/-- A comment takes bytes from the file. -/
theorem scan_again_shorter (L : Limits) (p : Payload) (File F : List Nat) (Line l : Int)
    (h : scan L p File Line = .again F l) : F.length < File.length := by
  obtain ⟨pre, rest, l0, hpre, _, hc⟩ := scan_again L p File Line F l h
  have hsuf := skipComment_suffix rest l0
  rw [hc] at hsuf
  have hle : F.length ≤ rest.length := hsuf.length_le
  rw [hpre]
  simp only [List.length_append, List.length_cons]
  omega

theorem open_cases (L : Limits) (fs : FileSystem) (r : TReadScriptFile) (FileName : List Nat) :
    (∃ r1, TReadScriptFile.open L fs r FileName = .done () r1) ∨
    (∃ msg, TReadScriptFile.open L fs r FileName = .thrown msg r) := by
  unfold TReadScriptFile.open
  simp only
  split
  · exact Or.inr ⟨_, rfl⟩
  · cases fs (resolvePath r.Frames FileName) with
    | none => exact Or.inr ⟨_, rfl⟩
    | some content => exact Or.inl ⟨_, rfl⟩

/-- The loop started with the level `f` on top ends, or it comes to close that
level and goes on in the levels below. `k` bounds the levels still free and
`n` the bytes left in the top level. -/
theorem level_ends (L : Limits) (fs : FileSystem) : ∀ (k n : Nat) (r : TReadScriptFile)
    (f : Frame) (below : List Frame), r.Frames = f :: below →
    L.NFILE - 1 - r.Frames.length ≤ k → f.File.length ≤ n →
    Ends L fs r ∨ (below ≠ [] ∧ ∃ r1, Rounds L fs r r1 ∧ r1.Frames = below) := by
  intro k
  induction k using Nat.strong_induction_on with
  | _ k ihk =>
    intro n
    induction n using Nat.strong_induction_on with
    | _ n ihn =>
      intro r f below hr hk hn
      have hround := round_eq L fs r f below hr
      cases hs : scan L r.toPayload f.File f.Line with
      | eof Line =>
        rw [hs] at hround
        simp only at hround
        by_cases hb : below = []
        · rw [if_pos hb] at hround
          exact Or.inl (ends_of_return L fs r _ hround)
        · rw [if_neg hb] at hround
          exact Or.inr ⟨hb, _, Rounds.next r _ _ hround (Rounds.here _), rfl⟩
      | again F l =>
        rw [hs] at hround
        simp only at hround
        have hlt := scan_again_shorter L _ _ _ _ _ hs
        have hone := Rounds.next r _ _ hround (Rounds.here _)
        rcases ihn F.length (by omega) { r with Frames := f.advance F l :: below }
            (f.advance F l) below rfl (by simpa [hr] using hk) (le_refl _) with h | ⟨hb, r1, h1, h2⟩
        · exact Or.inl (ends_of_rounds L fs r _ hone h)
        · exact Or.inr ⟨hb, r1, hone.trans h1, h2⟩
      | incl p F l =>
        rw [hs] at hround
        simp only at hround
        have hlt := scan_incl_shorter L _ _ _ _ _ _ hs
        rcases open_cases L fs { toPayload := p, Frames := f.advance F l :: below }
            (cstr p.String) with ⟨r1, ho⟩ | ⟨msg, ho⟩
        · rw [ho] at hround
          simp only at hround
          obtain ⟨hd, content, _, hr1⟩ := open_done L fs _ r1 _ () ho
          simp only [List.length_cons] at hd
          have hone := Rounds.next r _ _ hround (Rounds.here _)
          have hlen : r.Frames.length = below.length + 1 := by rw [hr]; rfl
          have hF2 : ({ r1 with String := [] } : TReadScriptFile).Frames
              = Frame.mk (resolvePath (f.advance F l :: below) (cstr p.String)) content 1
                :: (f.advance F l :: below) := by
            rw [hr1]
          rcases ihk (k - 1) (by omega) content.length { r1 with String := [] } _ _ hF2
              (by rw [hF2]; simp only [List.length_cons]; omega) (le_refl _)
            with h | ⟨_, r3, h1, h2⟩
          · exact Or.inl (ends_of_rounds L fs r _ hone h)
          · have hr3 := hone.trans h1
            rcases ihn F.length (by omega) r3 (f.advance F l) below h2
                (by rw [h2]; simp only [List.length_cons]; omega) (le_refl _)
              with h | ⟨hb, r4, h3, h4⟩
            · exact Or.inl (ends_of_rounds L fs r _ hr3 h)
            · exact Or.inr ⟨hb, r4, hr3.trans h3, h4⟩
        · rw [ho] at hround
          simp only at hround
          exact Or.inl (ends_of_raise L fs r _ _ hround)
      | token p F l =>
        rw [hs] at hround
        exact Or.inl (ends_of_return L fs r _ hround)
      | fail Text p l =>
        rw [hs] at hround
        simp only [TReadScriptFile.error] at hround
        exact Or.inl (ends_of_raise L fs r _ _ hround)

/-- The loop of `nextToken` ends from every session with a level open. -/
theorem loop_ends (L : Limits) (fs : FileSystem) : ∀ (m : Nat) (r : TReadScriptFile),
    r.Frames.length ≤ m → r.Frames ≠ [] → Ends L fs r := by
  intro m
  induction m with
  | zero =>
    intro r hm hne
    exact absurd (List.length_eq_zero.1 (Nat.le_zero.1 hm)) hne
  | succ m ih =>
    intro r hm hne
    cases hF : r.Frames with
    | nil => exact absurd hF hne
    | cons f below =>
      rcases level_ends L fs _ _ r f below hF (le_refl _) (le_refl _) with h | ⟨hb, r1, h1, h2⟩
      · exact h
      · refine ends_of_rounds L fs r r1 h1 (ih r1 ?_ (by rw [h2]; exact hb))
        rw [h2]
        rw [hF] at hm
        simp only [List.length_cons] at hm
        omega

/-- C23. Termination: on every disk and from every session state, `nextToken`
returns a token or throws after finitely many rounds of its loop, and the
result is the same for any larger number of rounds; every round takes bytes
from the current file, closes a level, or opens a level below the depth bound.
So a file that includes itself ends in the depth error: in the session opened
on it, seven rounds give the exception. -/
theorem nextToken_terminates (L : Limits) (fs : FileSystem) (r : TReadScriptFile) :
    (∃ fuel res, (∀ k, TReadScriptFile.nextToken L fs (fuel + k) r = res) ∧
      ((∃ r1, res = .done () r1) ∨ (∃ msg s, res = .thrown msg s))) ∧
    (∃ r1 s, TReadScriptFile.open sampleLimits selfIncluding closedReader (bytes "a")
        = .done () r1 ∧
      ∀ k, TReadScriptFile.nextToken sampleLimits selfIncluding (7 + k) r1
        = .thrown (bytes "Recursion depth too high") s) := by
  constructor
  · by_cases hne : r.Frames = []
    · refine ⟨0, .done () { r with Token := .ENDOFFILE }, ?_, Or.inl ⟨_, rfl⟩⟩
      intro k
      simp [TReadScriptFile.nextToken, hne]
    · obtain ⟨fuel, hf⟩ := loop_ends L fs r.restart.Frames.length r.restart (le_refl _) hne
      refine ⟨fuel, TReadScriptFile.nextTokenLoop L fs fuel r.restart, ?_, ?_⟩
      · intro k
        rw [nextToken_eq_loop L fs (fuel + k) r hne]
        exact loop_more_fuel L fs fuel r.restart hf k
      · cases hres : TReadScriptFile.nextTokenLoop L fs fuel r.restart with
        | done u r1 => exact Or.inl ⟨r1, rfl⟩
        | thrown msg s => exact Or.inr ⟨msg, s, rfl⟩
        | abort => rw [hres] at hf; exact hf.elim
        | stuck => rw [hres] at hf; exact hf.elim
  · obtain ⟨r1, h1⟩ : ∃ r1, TReadScriptFile.open sampleLimits selfIncluding closedReader
        (bytes "a") = .done () r1 := ⟨_, rfl⟩
    obtain ⟨s, hs⟩ : ∃ s, TReadScriptFile.nextTokenLoop sampleLimits selfIncluding 7
        { toPayload := closedReader.toPayload.reset,
          Frames := [Frame.mk (bytes "a") (bytes "@\"a\"") 1] }
        = .thrown (bytes "Recursion depth too high") s := ⟨_, rfl⟩
    refine ⟨_, s, rfl, ?_⟩
    intro k
    have hne : ({ closedReader with Frames := [Frame.mk (bytes "a") (bytes "@\"a\"") 1] }
        : TReadScriptFile).Frames ≠ [] := by simp
    have e := nextToken_eq_loop sampleLimits selfIncluding (7 + k) _ hne
    have hret : (TReadScriptFile.nextTokenLoop sampleLimits selfIncluding 7
        { toPayload := closedReader.toPayload.reset,
          Frames := [Frame.mk (bytes "a") (bytes "@\"a\"") 1] }).returns := by
      rw [hs]; trivial
    have hm := loop_more_fuel sampleLimits selfIncluding 7 _ hret k
    rw [hs] at hm
    exact e.trans hm

/-! ## Line counting -/

/-- C24 (the code at the failing inputs). A newline inside the path of an
include directive and a newline after a backslash inside a string are consumed
without the line being counted: after the successful `nextToken` the level
that read them is still at line 1. A newline in a string body, in whitespace
or at the end of a comment is counted. -/
theorem line_count_failing_inputs :
    (∃ r1, TReadScriptFile.nextToken sampleLimits newlineFiles 2
        (readerOn (bytes "@\"x\ny\" z")) = .done () r1 ∧
      r1.Token = .IDENTIFIER ∧
      r1.Frames = [Frame.mk (bytes "dat/x\ny") [] 1,
        Frame.mk (bytes "dat/in.dat") (bytes " z") 1] ∧
      bytes "@\"x\ny\" z" = bytes "@\"x\ny\"" ++ bytes " z" ∧
      (bytes "@\"x\ny\"").count 10 = 1) ∧
    (∃ r1, TReadScriptFile.nextToken sampleLimits noFiles 1
        (readerOn (bytes "\"a\\\nb\" z")) = .done () r1 ∧
      r1.Token = .STRING ∧ r1.String = bytes "a\nb" ∧
      r1.Frames = [Frame.mk (bytes "dat/in.dat") (bytes " z") 1] ∧
      bytes "\"a\\\nb\" z" = bytes "\"a\\\nb\"" ++ bytes " z" ∧
      (bytes "\"a\\\nb\"").count 10 = 1) ∧
    (∃ r1, TReadScriptFile.nextToken sampleLimits noFiles 1
        (readerOn (bytes "\"a\nb\" z")) = .done () r1 ∧
      r1.Token = .STRING ∧ r1.String = bytes "a\nb" ∧
      r1.Frames = [Frame.mk (bytes "dat/in.dat") (bytes " z") 2]) ∧
    (∃ r1, TReadScriptFile.nextToken sampleLimits noFiles 2
        (readerOn (bytes " \n# c\nz")) = .done () r1 ∧
      r1.Token = .IDENTIFIER ∧
      r1.Frames = [Frame.mk (bytes "dat/in.dat") [] 3]) := by
  refine ⟨⟨_, rfl, ?_, ?_, ?_, ?_⟩, ⟨_, rfl, ?_, ?_, ?_, ?_, ?_⟩, ⟨_, rfl, ?_, ?_, ?_⟩,
    ⟨_, rfl, ?_, ?_⟩⟩ <;> decide

end Script
